import Mathlib

/-!
# Command-line parsing and re-escaping (`src/inc/argv.hpp`, namespace `av`)

A shallow embedding of `av::error_code`, `av::option`, `av::Parser` and
`av::Builder`, followed by theorems about them.

Conventions of the embedding

* A wide character (`wchar_t`) is a `Char` and its code is `Char.toNat`; nothing
  is used of `Char` but equality and the code being a natural number.  A wide
  string (`std::wstring`, `std::wstring_view`, a NUL-terminated `const wchar_t*`)
  is a `List Char`; a possibly-null `const wchar_t*` is an `Option (List Char)`.
* The pair `(argc_, argv_)` is one list of tokens; `argc_` is its length and the
  null array is the empty list.
* The callback `invoke_t` may have effects of its own, so it is a function on an
  explicit callback state `σ`; the parser threads that state through.
* A member function that writes to the parser, to the callback's state or to the
  `error_code&` out-parameter returns an `Outcome` holding all of them.
* `index`, `n` and `slashes` are natural numbers: they only grow by one per
  character or token, so the machine widths (`int`, `size_t`) are never reached.
* The loop of `Execute` runs on fuel; `Execute` gives it `argc_` units, which is
  always enough (`Execute_total`), and the outcome does not depend on the fuel
  (`loop_fuel_irrelevant`).
-/

namespace av

/-! ## Data model -/

/-- The enumerator `SkipParse` of `enum ParseError`. -/
def SkipParse : Int := -1

/-- The enumerator `None` of `enum ParseError`. -/
def None : Int := 0

/-- The enumerator `ErrorNormal` of `enum ParseError`. -/
def ErrorNormal : Int := 1

/-- The struct `av::error_code`: a message and an integer kind. -/
structure error_code where
  message : List Char
  ec : Int
  deriving DecidableEq, Repr

/-- The default-constructed `error_code`: empty message, `ec{ 0 }`. -/
def error_code.init : error_code := ⟨[], 0⟩

/-- The conversion `explicit operator bool()`: `ec != None`. -/
def error_code.toBool (e : error_code) : Bool := e.ec != None

/-- Modelled from the spec: `base::strings_internal::CatPieces` of `strcat.hpp`,
which is not among the sources; the spec says a message is built "by
concatenating literal fragments with the offending token/name". -/
def CatPieces (pieces : List (List Char)) : List Char := pieces.flatten

/-- The overload `Assign(std::wstring_view msg, int val = ErrorNormal)` at its
default `val`. -/
def error_code.Assign (_e : error_code) (msg : List Char) : error_code :=
  ⟨msg, ErrorNormal⟩

/-- The overload `template <typename... Args> Assign(int val, Args... args)`. -/
def error_code.AssignCat (_e : error_code) (val : Int) (args : List (List Char)) :
    error_code :=
  ⟨CatPieces args, val⟩

/-- The enumeration `enum HasArgs`. -/
inductive HasArgs where
  | required_argument
  | no_argument
  | optional_argument
  deriving DecidableEq, Repr

/-- The struct `av::option`. -/
structure option where
  name : List Char
  has_args : HasArgs
  val : Int
  deriving DecidableEq, Repr

/-- The callback type `invoke_t = std::function<bool(int, const wchar_t*, const
wchar_t*)>`, with the callback's own state made explicit. -/
abbrev invoke_t (σ : Type) := σ → Int → Option (List Char) → List Char → Bool × σ

/-- The data members of `class Parser`; `argc_` is `argv_.length`. -/
structure Parser where
  argv_ : List (List Char)
  index : Nat
  subcmdenabled : Bool
  uargs : List (List Char)
  options_ : List option
  deriving DecidableEq, Repr

/-- The constructor `Parser(int argc, wchar_t* const* argv, bool se)`. -/
def Parser.new (argv : List (List Char)) (se : Bool) : Parser :=
  ⟨argv, 0, se, [], []⟩

/-- The member `Parser::Add`: `options_.push_back({ name, a, val })`. -/
def Parser.Add (p : Parser) (name : List Char) (a : HasArgs) (val : Int) : Parser :=
  { p with options_ := p.options_ ++ [⟨name, a, val⟩] }

/-- The member `Parser::UnresolvedArgs`. -/
def Parser.UnresolvedArgs (p : Parser) : List (List Char) := p.uargs

/-- The parser a caller builds: the constructor, then `Add` for each descriptor of
`opts` in order. -/
def Parser.make (argv : List (List Char)) (se : Bool) (opts : List option) : Parser :=
  opts.foldl (fun p o => p.Add o.name o.has_args o.val) (Parser.new argv se)

/-- What a member function of `Parser` leaves behind: its `bool` result, the
parser's members, the callback's state and the `error_code&` out-parameter. -/
structure Outcome (σ : Type) where
  ret : Bool
  parser : Parser
  cb : σ
  ec : error_code

/-- The character read by `a[i]` on a view into a NUL-terminated string: the
character at `i`, and the terminator at `i = a.size()`. -/
def at_ (a : List Char) (i : Nat) : Char := a.getD i (Char.ofNat 0)

/-! ## Parser -/

/-- The scan `for (const auto& o : options_) if (o.val == c) { ...; break; }` of
`parse_internal_short`, from `ch = -1`, `ha = optional_argument`. -/
def findShort : List option → Char → Int × HasArgs
  | [], _ => (-1, HasArgs.optional_argument)
  | o :: os, c => if o.val = (c.toNat : Int) then (o.val, o.has_args) else findShort os c

/-- The scan `for (const auto& o : options_) if (o.name == a) { ...; break; }` of
`parse_internal_long`, from `ch = -1`, `ha = optional_argument`. -/
def findLong : List option → List Char → Int × HasArgs
  | [], _ => (-1, HasArgs.optional_argument)
  | o :: os, a => if o.name = a then (o.val, o.has_args) else findLong os a

/-- The tail shared by both option parsers: `if (!v(ch, oa, a.data()))
{ ec.Assign(SkipParse, L"skip parse"); return false; } return true;`. -/
def invoke {σ : Type} (p : Parser) (v : invoke_t σ) (s : σ) (ec : error_code)
    (ch : Int) (oa : Option (List Char)) (raw : List Char) : Outcome σ :=
  let r := v s ch oa raw
  if r.1 = false then ⟨false, p, r.2, ec.AssignCat SkipParse ["skip parse".toList]⟩
  else ⟨true, p, r.2, ec⟩

/-- The step shared by both option parsers once `oa` and `ha` are known and the
unexpected-parameter check has passed: `if (oa == nullptr && ha ==
required_argument) { if (index + 1 >= argc_) fail; oa = argv_[index + 1];
index++; }` and then the callback.  `dash` is the marker of the message. -/
def takeValue {σ : Type} (p : Parser) (v : invoke_t σ) (s : σ) (ec : error_code)
    (dash : List Char) (a : List Char) (ch : Int) (ha : HasArgs)
    (oa : Option (List Char)) (raw : List Char) : Outcome σ :=
  if oa = none ∧ ha = HasArgs.required_argument then
    if p.index + 1 ≥ p.argv_.length then
      ⟨false, p, s, ec.AssignCat 1 ["option '".toList ++ dash, a, "' missing parameter".toList]⟩
    else
      invoke { p with index := p.index + 1 } v s ec ch
        (some (p.argv_.getD (p.index + 1) [])) raw
  else
    invoke p v s ec ch oa raw

/-- The inline value of a short option, lines `if (a.size() >= 2) { oa = (a[1] ==
L'=') ? (a.data() + 2) : (a.data() + 1); }` of `parse_internal_short`, from
`oa = nullptr`. -/
def shortValue (a : List Char) : Option (List Char) :=
  if a.length ≥ 2 then (if at_ a 1 = '=' then some (a.drop 2) else some (a.drop 1))
  else none

/-- The member `Parser::parse_internal_short`; `a` is the token after its `-`.
The third callback argument `a.data()` is the NUL-terminated text at `a`, which
is `a` itself since `a` runs to the end of the token. -/
def parse_internal_short {σ : Type} (p : Parser) (a : List Char) (v : invoke_t σ)
    (s : σ) (ec : error_code) : Outcome σ :=
  if at_ a 0 = '=' then
    ⟨false, p, s, ec.AssignCat 1 ["unexpected argument '-".toList, a, "'".toList]⟩
  else
    let c := at_ a 0
    let f := findShort p.options_ c
    if f.1 = -1 then
      ⟨false, p, s, ec.AssignCat 1 ["unregistered option '-".toList, a, "'".toList]⟩
    else
      let oa := shortValue a
      if oa ≠ none ∧ f.2 = HasArgs.no_argument then
        ⟨false, p, s, ec.AssignCat 1
          ["option '-".toList, a.take 1, "' unexpected parameter: ".toList, oa.getD []]⟩
      else
        takeValue p v s ec "-".toList a f.1 f.2 oa a

/-- The inline value of a long option: `oa = a.data() + pos + 1` when `a.find(L'=')`
gives a position `pos`, and `nullptr` otherwise. -/
def longValue (a0 : List Char) : Option (List Char) :=
  if a0.indexOf '=' < a0.length then some (a0.drop (a0.indexOf '=' + 1)) else none

/-- The name of a long option: the view `a` after `a.remove_suffix(a.size() - pos)`
when `a.find(L'=')` gives a position `pos`, and `a` unchanged otherwise. -/
def longName (a0 : List Char) : List Char :=
  if a0.indexOf '=' < a0.length then a0.take (a0.indexOf '=') else a0

/-- The member `Parser::parse_internal_long`; `a0` is the token after its `--`.
`a.remove_suffix` shortens the view but not the text behind `a.data()`, so the
third callback argument is still `a0`, up to the token's terminator. -/
def parse_internal_long {σ : Type} (p : Parser) (a0 : List Char) (v : invoke_t σ)
    (s : σ) (ec : error_code) : Outcome σ :=
  let pos := a0.indexOf '='
  if pos < a0.length ∧ pos + 1 ≥ a0.length then
    ⟨false, p, s, ec.AssignCat 1 ["unexpected argument '--".toList, a0, "'".toList]⟩
  else
    let oa := longValue a0
    let a := longName a0
    let f := findLong p.options_ a
    if f.1 = -1 then
      ⟨false, p, s, ec.AssignCat 1 ["unregistered option '--".toList, a, "'".toList]⟩
    else if oa ≠ none ∧ f.2 = HasArgs.no_argument then
      ⟨false, p, s, ec.AssignCat 1
        ["option '--".toList, a, "' unexpected parameter: ".toList, oa.getD []]⟩
    else
      takeValue p v s ec "--".toList a f.1 f.2 oa a0

/-- The member `Parser::parse_internal`; `a` is a token that begins with `-`. -/
def parse_internal {σ : Type} (p : Parser) (a : List Char) (v : invoke_t σ)
    (s : σ) (ec : error_code) : Outcome σ :=
  if a.length = 1 then
    ⟨false, p, s, ec.Assign "unexpected argument '-'".toList⟩
  else if at_ a 1 = '-' then
    parse_internal_long p (a.drop 2) v s ec
  else
    parse_internal_short p (a.drop 1) v s ec

/-- The loop `for (; index < argc_; index++) { ... }` of `Parser::Execute`, one
unit of fuel per evaluation of the loop condition; `none` is fuel exhausted. -/
def Execute.loop {σ : Type} (v : invoke_t σ) :
    Nat → Parser → σ → error_code → Option (Outcome σ)
  | 0, _, _, _ => none
  | fuel + 1, p, s, ec =>
    if p.index < p.argv_.length then
      let a := p.argv_.getD p.index []
      if a = [] ∨ a.head? ≠ some '-' then
        if p.subcmdenabled then
          some ⟨true, { p with uargs := p.uargs ++ p.argv_.drop p.index }, s, ec⟩
        else
          Execute.loop v fuel { p with uargs := p.uargs ++ [a], index := p.index + 1 } s ec
      else
        let r := parse_internal p a v s ec
        if r.ret = false then some r
        else Execute.loop v fuel { r.parser with index := r.parser.index + 1 } r.cb r.ec
    else
      some ⟨true, p, s, ec⟩

/-- The member `Parser::Execute`.  The loop tests its condition at most `argc_`
times, so `argc_` units of fuel are given. -/
def Execute {σ : Type} (p : Parser) (v : invoke_t σ) (s : σ) (ec : error_code) :
    Option (Outcome σ) :=
  if p.argv_.length = 0 then
    some ⟨false, p, s, ec.Assign "the command line array is empty.".toList⟩
  else
    Execute.loop v p.argv_.length { p with index := 1 } s ec

/-! ## Builder -/

/-- The first pass of `Builder::Escape`: `n` grows by one per quote or backslash
and `hasspace` is set by a space or a tab. -/
def Escape.scan : List Char → Nat → Bool → Nat × Bool
  | [], n, hasspace => (n, hasspace)
  | c :: cs, n, hasspace =>
    if c = '"' ∨ c = '\\' then Escape.scan cs (n + 1) hasspace
    else if c = ' ' ∨ c = '\t' then Escape.scan cs n true
    else Escape.scan cs n hasspace

/-- The second pass of `Builder::Escape` over the characters of `ac`, on the
buffer `buf` and the counter `slashes`. -/
def Escape.emit : List Char → List Char → Nat → List Char × Nat
  | [], buf, slashes => (buf, slashes)
  | c :: cs, buf, slashes =>
    if c = '\\' then Escape.emit cs (buf ++ ['\\']) (slashes + 1)
    else if c = '"' then
      Escape.emit cs (buf ++ List.replicate slashes '\\' ++ ['\\', c]) 0
    else Escape.emit cs (buf ++ [c]) 0

/-- The member `Builder::Escape`. -/
def Escape (ac : List Char) : List Char :=
  if ac = [] then ['"', '"']
  else
    let sc := Escape.scan ac ac.length false
    let hasspace := sc.2
    let n := if hasspace then sc.1 + 2 else sc.1
    if n = ac.length then ac
    else
      let buf : List Char := if hasspace then ['"'] else []
      let r := Escape.emit ac buf 0
      if hasspace then r.1 ++ List.replicate r.2 '\\' ++ ['"'] else r.1

/-- The data member of `class Builder`. -/
structure Builder where
  args_ : List Char
  deriving DecidableEq, Repr

/-- The member `Builder::Assign`: `args_.assign(Escape(a0))`. -/
def Builder.Assign (_b : Builder) (a0 : List Char) : Builder := ⟨Escape a0⟩

/-- The member `Builder::AssignNoEscape`: `args_.assign(a0)`. -/
def Builder.AssignNoEscape (_b : Builder) (a0 : List Char) : Builder := ⟨a0⟩

/-- The member `Builder::Append`: `args_.append(L" ").append(Escape(a))`. -/
def Builder.Append (b : Builder) (a : List Char) : Builder :=
  ⟨b.args_ ++ [' '] ++ Escape a⟩

/-- The member `Builder::Args`. -/
def Builder.Args (b : Builder) : List Char := b.args_

/-- The line held by a builder after `Assign(a0)` and then `Append(a)` for each
`a` of `rest`, in order. -/
def Builder.build (b : Builder) (a0 : List Char) (rest : List (List Char)) : Builder :=
  rest.foldl Builder.Append (b.Assign a0)

/-! ## Observing the callback -/

/-- One invocation of the callback: its three arguments and what it returned. -/
structure Call where
  id : Int
  value : Option (List Char)
  raw : List Char
  result : Bool
  deriving DecidableEq, Repr

/-- The callback `v` with a log: it behaves as `v` on `v`'s state and appends each
invocation, with its result, to the log carried beside that state. -/
def traced {σ : Type} (v : invoke_t σ) : invoke_t (σ × List Call) :=
  fun s id oa raw =>
    ((v s.1 id oa raw).1, ((v s.1 id oa raw).2, s.2 ++ [⟨id, oa, raw, (v s.1 id oa raw).1⟩]))

/-- What an option parser can leave behind: a failure of kind 1 that called
nothing and moved nothing, or the outcome of one callback invocation, made at the
cursor or one token further with that token as the value. -/
def Stepped {σ : Type} (p : Parser) (v : invoke_t σ) (s : σ) (ec : error_code)
    (r : Outcome σ) : Prop :=
  (∃ msg, r = ⟨false, p, s, ⟨msg, 1⟩⟩) ∨
  (∃ ch oa raw, r = invoke p v s ec ch oa raw) ∨
  (∃ ch raw, p.index + 1 < p.argv_.length ∧
    r = invoke { p with index := p.index + 1 } v s ec ch
          (some (p.argv_.getD (p.index + 1) [])) raw)

/-! ## The de-quoting rule of the platform

The rule the round-trip law is stated against, following the words of the
specification: an unquoted space or tab separates arguments; `2k` backslashes
followed by a quote give `k` backslashes and toggle quoting; `2k+1` backslashes
followed by a quote give `k` backslashes and a literal quote; backslashes not
followed by a quote are literal. -/

/-- The state of the de-quoting rule while it reads a line. -/
structure SplitState where
  done : List (List Char)
  cur : List Char
  inArg : Bool
  quoted : Bool
  slashes : Nat
  deriving DecidableEq, Repr

/-- The de-quoting rule before the first character. -/
def SplitState.start : SplitState := ⟨[], [], false, false, 0⟩

/-- The text of the argument being read, its unresolved backslashes taken as
literal. -/
def SplitState.content (st : SplitState) : List Char :=
  st.cur ++ List.replicate st.slashes '\\'

/-- The de-quoting rule on one character of the line. -/
def splitStep (st : SplitState) (c : Char) : SplitState :=
  if c = '\\' then { st with slashes := st.slashes + 1, inArg := true }
  else if c = '"' then
    if st.slashes % 2 = 0 then
      { st with cur := st.cur ++ List.replicate (st.slashes / 2) '\\', slashes := 0,
                quoted := !st.quoted, inArg := true }
    else
      { st with cur := st.cur ++ List.replicate (st.slashes / 2) '\\' ++ ['"'], slashes := 0,
                inArg := true }
  else if (c = ' ' ∨ c = '\t') ∧ st.quoted = false then
    if st.inArg then ⟨st.done ++ [st.content], [], false, false, 0⟩ else st
  else { st with cur := st.content ++ [c], slashes := 0, inArg := true }

/-- The de-quoting rule at the end of the line. -/
def splitEnd (st : SplitState) : List (List Char) :=
  if st.inArg then st.done ++ [st.content] else st.done

/-- The arguments the de-quoting rule of the platform reads from a line. -/
def platformSplit (line : List Char) : List (List Char) :=
  splitEnd (line.foldl splitStep SplitState.start)


/-! ## The parse as the specification words it

A second description of the parser, by recursion on the list of tokens and
without cursor or fuel, following section 4.2 of the specification.  It is what
`Execute` is compared with; nothing in the embedding above depends on it. -/

/-- A positional token: "empty or its first character is not the option marker". -/
def Spec.isPositional (t : List Char) : Bool :=
  decide (t = [] ∨ t.head? ≠ some '-')

/-- The descriptor an option token resolves to and its inline value, as the
specification words it for a token that begins with the marker.  Long form: "if
`rest` contains `=`: split into name (before) and inline value (after)", matched
"by exact equality against descriptor names".  Short form: the first descriptor
whose `id` is the character code of `rest[0]`; "the inline value is `rest[2:]`
when `rest[1]=='='`, else `rest[1:]`".  There is no result for the marker alone,
for `-=...`, for a long token whose `=` is its last character, and for a token
that matches no descriptor. -/
def Spec.resolve (opts : List option) (t : List Char) :
    Option (option × Option (List Char)) :=
  match t.drop 1 with
  | [] => none
  | c :: rest =>
    if c = '-' then
      if '=' ∈ rest then
        if (rest.dropWhile (fun x => decide (x ≠ '='))).drop 1 = [] then none
        else
          (opts.find? (fun o => decide (o.name = rest.takeWhile (fun x => decide (x ≠ '='))))).map
            (fun o => (o, some ((rest.dropWhile (fun x => decide (x ≠ '='))).drop 1)))
      else (opts.find? (fun o => decide (o.name = rest))).map (fun o => (o, none))
    else if c = '=' then none
    else
      (opts.find? (fun o => decide (o.val = (c.toNat : Int)))).map
        (fun o => (o, match rest with
                      | [] => none
                      | x :: xs => if x = '=' then some xs else some (x :: xs)))

/-- The calls `(id, value)` and the positional tokens the specification expects
from a list of tokens, read left to right; `pending` is the id of a Required
option still waiting for the next token as its value.  There is no result when
a token is not well formed for the registry: it resolves to nothing, its
descriptor has id `-1`, it gives an inline value to an option of arity None, or
it is a Required option without inline value at the end of the list. -/
def Spec.expected (opts : List option) (se : Bool) :
    Option Int → List (List Char) →
      Option (List (Int × Option (List Char)) × List (List Char))
  | some _, [] => none
  | some id, t :: ts =>
    (Spec.expected opts se none ts).map (fun r => ((id, some t) :: r.1, r.2))
  | none, [] => some ([], [])
  | none, t :: ts =>
    if Spec.isPositional t then
      if se then some ([], t :: ts)
      else (Spec.expected opts se none ts).map (fun r => (r.1, t :: r.2))
    else
      match Spec.resolve opts t with
      | none => none
      | some (o, inline) =>
        if o.val = -1 then none
        else
          match inline with
          | some val =>
            if o.has_args = HasArgs.no_argument then none
            else (Spec.expected opts se none ts).map (fun r => ((o.val, some val) :: r.1, r.2))
          | none =>
            if o.has_args = HasArgs.required_argument then Spec.expected opts se (some o.val) ts
            else (Spec.expected opts se none ts).map (fun r => ((o.val, none) :: r.1, r.2))

/-- An option token that takes the token after it as its value, as the
specification words it: it resolves to a descriptor of arity Required and carries
no inline value ("if no inline value and arity is Required ... take the following
token as the value and advance the cursor by one extra position"). -/
def Spec.takesNext (opts : List option) (t : List Char) : Bool :=
  !Spec.isPositional t &&
    match Spec.resolve opts t with
    | some (o, none) => decide (o.has_args = HasArgs.required_argument)
    | _ => false

/-- The tokens the parser reads in their own right: all tokens but those taken as
the value of the Required option just before them; `taken` says that the first
token of the list is such a value. -/
def Spec.unconsumed (opts : List option) : Bool → List (List Char) → List (List Char)
  | _, [] => []
  | true, _ :: ts => Spec.unconsumed opts false ts
  | false, t :: ts => t :: Spec.unconsumed opts (Spec.takesNext opts t) ts

/-- The text `parse_internal` hands to the option parsers, `a.substr(2)` for a
token whose second character is the marker and `a.substr(1)` otherwise: the
token without its marker, which is what the callback gets as third argument. -/
def Spec.withoutMarker (t : List Char) : List Char :=
  if (t.drop 1).head? = some '-' then t.drop 2 else t.drop 1

/-! ## Builder: the joined line -/

theorem foldl_Append_args (rest : List (List Char)) (b : Builder) :
    (rest.foldl Builder.Append b).args_
      = b.args_ ++ (rest.map (fun a => ' ' :: Escape a)).flatten := by
  induction rest generalizing b with
  | nil => simp
  | cons a rest ih => simp [ih, Builder.Append]

theorem build_args (b : Builder) (a0 : List Char) (rest : List (List Char)) :
    (b.build a0 rest).Args
      = Escape a0 ++ (rest.map (fun a => ' ' :: Escape a)).flatten := by
  simp [Builder.build, Builder.Args, foldl_Append_args, Builder.Assign]

theorem intercalate_space (x : List Char) (xs : List (List Char)) :
    [' '].intercalate (x :: xs) = x ++ (xs.map (fun a => ' ' :: a)).flatten := by
  induction xs generalizing x with
  | nil => simp [List.intercalate]
  | cons y ys ih =>
    have h := ih y
    simp only [List.intercalate, List.intersperse, List.flatten_cons, List.map_cons] at h ⊢
    rw [h]
    simp

/-- C7: after `Assign(a0)` and `Append(a1)`, ..., `Append(an)` on any builder, the
accumulated text is the encodings `Escape(a0)`, ..., `Escape(an)` in that order,
joined by one space each, with nothing after the last encoding and nothing of
the text the builder held before. -/
theorem C7_build_is_joined_encodings (b : Builder) (a0 : List Char)
    (rest : List (List Char)) :
    (b.build a0 rest).Args = [' '].intercalate ((a0 :: rest).map Escape) := by
  rw [build_args, List.map_cons, intercalate_space, List.map_map]
  rfl

/-- C8: the empty argument encodes to two quote characters, `a b` to `"a b"`, and
`a"b` to `a\"b` without surrounding quotes. -/
theorem C8_escape_values :
    Escape [] = ['"', '"'] ∧
    Escape ['a', ' ', 'b'] = ['"', 'a', ' ', 'b', '"'] ∧
    Escape ['a', '"', 'b'] = ['a', '\\', '"', 'b'] := by
  refine ⟨by decide, by decide, by decide⟩


/-! ## Round trip through the de-quoting rule -/

theorem emit_buf (ac : List Char) : ∀ (buf : List Char) (sl : Nat),
    Escape.emit ac buf sl = (buf ++ (Escape.emit ac [] sl).1, (Escape.emit ac [] sl).2) := by
  induction ac with
  | nil => intro buf sl; simp [Escape.emit]
  | cons c cs ih =>
    intro buf sl
    simp only [Escape.emit]
    split_ifs with h1 h2
    · rw [ih (buf ++ ['\\']), ih ([] ++ ['\\'])]; simp
    · rw [ih (buf ++ List.replicate sl '\\' ++ ['\\', c]),
        ih ([] ++ List.replicate sl '\\' ++ ['\\', c])]; simp
    · rw [ih (buf ++ [c]), ih ([] ++ [c])]; simp

theorem split_backslashes (n : Nat) : ∀ st : SplitState,
    (List.replicate (n + 1) '\\').foldl splitStep st
      = { st with slashes := st.slashes + (n + 1), inArg := true } := by
  induction n with
  | zero => intro st; simp [splitStep]
  | succ n ih =>
    intro st
    rw [List.replicate_succ, List.foldl_cons, ih]
    simp [splitStep]
    omega

theorem split_escaped_quote (st : SplitState) :
    (List.replicate st.slashes '\\' ++ ['\\', '"']).foldl splitStep st
      = { st with cur := st.content ++ ['"'], slashes := 0, inArg := true } := by
  rw [← List.singleton_append, ← List.append_assoc]
  have h : List.replicate st.slashes '\\' ++ ['\\'] = List.replicate (st.slashes + 1) '\\' := by
    rw [List.replicate_succ']
  rw [h, List.foldl_append, split_backslashes]
  have h2 : (st.slashes + (st.slashes + 1)) % 2 = 1 := by omega
  have h3 : (st.slashes + (st.slashes + 1)) / 2 = st.slashes := by omega
  simp [splitStep, h2, h3, SplitState.content]


theorem split_emit (ac : List Char) : ∀ st : SplitState,
    (st.quoted = true ∨ ∀ c ∈ ac, c ≠ ' ' ∧ c ≠ '\t') →
    ((Escape.emit ac [] st.slashes).1.foldl splitStep st).done = st.done ∧
    ((Escape.emit ac [] st.slashes).1.foldl splitStep st).content = st.content ++ ac ∧
    ((Escape.emit ac [] st.slashes).1.foldl splitStep st).quoted = st.quoted ∧
    ((Escape.emit ac [] st.slashes).1.foldl splitStep st).slashes
      = (Escape.emit ac [] st.slashes).2 ∧
    ((Escape.emit ac [] st.slashes).1.foldl splitStep st).inArg
      = (st.inArg || !ac.isEmpty) := by
  induction ac with
  | nil => intro st _; simp [Escape.emit]
  | cons c cs ih =>
    intro st hq
    have hq' : ∀ st' : SplitState, st'.quoted = st.quoted →
        (st'.quoted = true ∨ ∀ c ∈ cs, c ≠ ' ' ∧ c ≠ '\t') := by
      intro st' h
      rcases hq with hq | hq
      · left; rw [h, hq]
      · right; intro x hx; exact hq x (List.mem_cons_of_mem _ hx)
    simp only [Escape.emit]
    split_ifs with h1 h2
    · -- a backslash
      rw [emit_buf, List.foldl_append]
      have hs : List.foldl splitStep st ([] ++ ['\\'])
          = { st with slashes := st.slashes + 1, inArg := true } := by
        simp [splitStep]
      rw [hs]
      obtain ⟨i1, i2, i3, i4, i5⟩ :=
        ih { st with slashes := st.slashes + 1, inArg := true } (hq' _ rfl)
      simp only at i1 i2 i3 i4 i5
      refine ⟨i1, ?_, i3, i4, ?_⟩
      · rw [i2, h1]; simp [SplitState.content, List.replicate_succ']
      · rw [i5]; simp
    · -- a quote
      rw [emit_buf, List.foldl_append, h2, List.nil_append, split_escaped_quote]
      obtain ⟨i1, i2, i3, i4, i5⟩ :=
        ih { st with cur := st.content ++ ['"'], slashes := 0, inArg := true } (hq' _ rfl)
      simp only at i1 i2 i3 i4 i5
      refine ⟨i1, ?_, i3, i4, ?_⟩
      · rw [i2]; simp [SplitState.content]
      · rw [i5]; simp
    · -- any other character
      rw [emit_buf, List.foldl_append]
      have hs : List.foldl splitStep st ([] ++ [c])
          = { st with cur := st.content ++ [c], slashes := 0, inArg := true } := by
        rcases hq with hq | hq
        · simp [splitStep, h1, h2, hq]
        · have := hq c (List.mem_cons_self _ _)
          simp [splitStep, h1, h2, this.1, this.2]
      rw [hs]
      obtain ⟨i1, i2, i3, i4, i5⟩ :=
        ih { st with cur := st.content ++ [c], slashes := 0, inArg := true } (hq' _ rfl)
      simp only at i1 i2 i3 i4 i5
      refine ⟨i1, ?_, i3, i4, ?_⟩
      · rw [i2]; simp [SplitState.content]
      · rw [i5]; simp


theorem scan_fst_ge (ac : List Char) : ∀ (n : Nat) (hs : Bool),
    n ≤ (Escape.scan ac n hs).1 := by
  induction ac with
  | nil => intro n hs; simp [Escape.scan]
  | cons c cs ih =>
    intro n hs
    simp only [Escape.scan]
    split_ifs
    · exact Nat.le_trans (Nat.le_succ n) (ih (n + 1) hs)
    · exact ih n true
    · exact ih n hs

theorem scan_fst_eq (ac : List Char) : ∀ (n : Nat) (hs : Bool),
    (Escape.scan ac n hs).1 = n → ∀ c ∈ ac, c ≠ '"' ∧ c ≠ '\\' := by
  induction ac with
  | nil => intro n hs _ c hc; simp at hc
  | cons c cs ih =>
    intro n hs h x hx
    simp only [Escape.scan] at h
    split_ifs at h with h1 h2
    · have := scan_fst_ge cs (n + 1) hs
      omega
    · rcases List.mem_cons.1 hx with rfl | hx
      · exact not_or.1 h1
      · exact ih n true h x hx
    · rcases List.mem_cons.1 hx with rfl | hx
      · exact not_or.1 h1
      · exact ih n hs h x hx

theorem scan_snd_true (ac : List Char) : ∀ (n : Nat),
    (Escape.scan ac n true).2 = true := by
  induction ac with
  | nil => intro n; simp [Escape.scan]
  | cons c cs ih =>
    intro n
    simp only [Escape.scan]
    split_ifs
    · exact ih _
    · exact ih _
    · exact ih _

theorem scan_snd_false (ac : List Char) : ∀ (n : Nat),
    (Escape.scan ac n false).2 = false → ∀ c ∈ ac, c ≠ ' ' ∧ c ≠ '\t' := by
  induction ac with
  | nil => intro n _ c hc; simp at hc
  | cons c cs ih =>
    intro n h x hx
    simp only [Escape.scan] at h
    split_ifs at h with h1 h2
    · rcases List.mem_cons.1 hx with rfl | hx
      · rcases h1 with h1 | h1 <;> subst h1 <;> decide
      · exact ih _ h x hx
    · rw [scan_snd_true] at h; exact absurd h (by decide)
    · rcases List.mem_cons.1 hx with rfl | hx
      · exact not_or.1 h2
      · exact ih _ h x hx

theorem emit_plain (ac : List Char) (h : ∀ c ∈ ac, c ≠ '"' ∧ c ≠ '\\') :
    ∀ sl : Nat, (Escape.emit ac [] sl).1 = ac := by
  induction ac with
  | nil => intro sl; simp [Escape.emit]
  | cons c cs ih =>
    intro sl
    have hc := h c (List.mem_cons_self _ _)
    simp only [Escape.emit, hc.1, hc.2, if_false]
    rw [emit_buf, ih (fun x hx => h x (List.mem_cons_of_mem _ hx))]
    simp

/-- The encoding in terms of the second pass alone: the fast path returns what
the second pass would have built. -/
theorem Escape_eq (ac : List Char) (hne : ac ≠ []) :
    Escape ac =
      if (Escape.scan ac ac.length false).2 = true then
        ['"'] ++ (Escape.emit ac [] 0).1 ++ List.replicate (Escape.emit ac [] 0).2 '\\' ++ ['"']
      else (Escape.emit ac [] 0).1 := by
  simp only [Escape, if_neg hne]
  by_cases hs : (Escape.scan ac ac.length false).2 = true
  · have hge := scan_fst_ge ac ac.length false
    have hn : ¬ ((Escape.scan ac ac.length false).1 + 2 = ac.length) := by omega
    simp only [hs, if_true, if_neg hn]
    rw [emit_buf]
  · have hs' : (Escape.scan ac ac.length false).2 = false := by
      cases h : (Escape.scan ac ac.length false).2
      · rfl
      · exact absurd h hs
    rw [hs']
    simp only [Bool.false_eq_true, if_false]
    split_ifs with hn
    · rw [emit_plain ac (scan_fst_eq ac _ _ hn)]
    · simp


theorem split_closing (st : SplitState) (hq : st.quoted = true) :
    (List.replicate st.slashes '\\' ++ ['"']).foldl splitStep st
      = { st with cur := st.content, slashes := 0, quoted := false, inArg := true } := by
  rw [List.foldl_append]
  have h : ∀ n : Nat, ∀ st : SplitState, (List.replicate n '\\').foldl splitStep st
      = (if n = 0 then st else { st with slashes := st.slashes + n, inArg := true }) := by
    intro n st
    cases n with
    | zero => simp
    | succ n => rw [split_backslashes]; simp
  rw [h]
  by_cases h0 : st.slashes = 0
  · simp [h0, splitStep, SplitState.content, hq]
  · have h2 : (st.slashes + st.slashes) % 2 = 0 := by omega
    have h3 : (st.slashes + st.slashes) / 2 = st.slashes := by omega
    simp [h0, splitStep, SplitState.content, hq, h2, h3]

/-- Reading one encoding from the start of an argument leaves the de-quoting rule
outside quotes, inside an argument whose text is the argument encoded. -/
theorem split_Escape (a : List Char) (st : SplitState)
    (h1 : st.cur = []) (h2 : st.slashes = 0) (h3 : st.quoted = false) :
    ((Escape a).foldl splitStep st).done = st.done ∧
    ((Escape a).foldl splitStep st).content = a ∧
    ((Escape a).foldl splitStep st).quoted = false ∧
    ((Escape a).foldl splitStep st).inArg = true := by
  by_cases hne : a = []
  · subst hne
    simp [Escape, splitStep, h1, h2, h3, SplitState.content]
  · rw [Escape_eq a hne]
    split_ifs with hs
    · -- quoted encoding
      rw [List.append_assoc, List.append_assoc, List.foldl_append]
      have hopen : List.foldl splitStep st ['"']
          = { st with cur := [], slashes := 0, quoted := true, inArg := true } := by
        simp [splitStep, h1, h2, h3]
      rw [hopen, List.foldl_append]
      obtain ⟨i1, i2, i3, i4, _⟩ :=
        split_emit a { st with cur := [], slashes := 0, quoted := true, inArg := true }
          (Or.inl rfl)
      simp only at i1 i2 i3 i4
      rw [← i4, split_closing _ i3]
      simp only
      refine ⟨i1, ?_, trivial, trivial⟩
      simp [SplitState.content, i2]
      simpa [SplitState.content] using i2
    · -- bare encoding
      have hs' : (Escape.scan a a.length false).2 = false := by
        cases h : (Escape.scan a a.length false).2
        · rfl
        · exact absurd h hs
      obtain ⟨i1, i2, i3, _, i5⟩ :=
        split_emit a st (Or.inr (scan_snd_false a _ hs'))
      rw [h2] at i1 i2 i3 i5
      refine ⟨i1, ?_, ?_, ?_⟩
      · rw [i2]; simp [SplitState.content, h1, h2]
      · rw [i3, h3]
      · rw [i5]; cases a with
        | nil => exact absurd rfl hne
        | cons _ _ => simp

theorem split_rest (rest : List (List Char)) : ∀ st : SplitState,
    st.quoted = false → st.inArg = true →
    splitEnd ((rest.map (fun a => ' ' :: Escape a)).flatten.foldl splitStep st)
      = st.done ++ st.content :: rest := by
  induction rest with
  | nil => intro st _ hi; simp [splitEnd, hi]
  | cons a rest ih =>
    intro st hq hi
    rw [List.map_cons, List.flatten_cons, List.foldl_append, List.foldl_cons]
    have hsp : splitStep st ' ' = ⟨st.done ++ [st.content], [], false, false, 0⟩ := by
      simp [splitStep, hq, hi]
    rw [hsp]
    obtain ⟨i1, i2, i3, i4⟩ :=
      split_Escape a ⟨st.done ++ [st.content], [], false, false, 0⟩ rfl rfl rfl
    rw [ih _ i3 i4, i1, i2]
    simp

/-- C1 (round-trip law): for every list of argument texts `a0, rest`, the line
built by `Assign(a0)` and `Append` of each further argument, split by the
de-quoting rule of the platform, is exactly `a0 :: rest`, in order. -/
theorem C1_round_trip (b : Builder) (a0 : List Char) (rest : List (List Char)) :
    platformSplit (b.build a0 rest).Args = a0 :: rest := by
  rw [build_args, platformSplit, List.foldl_append]
  obtain ⟨i1, i2, i3, i4⟩ := split_Escape a0 SplitState.start rfl rfl rfl
  rw [split_rest rest _ i3 i4, i1, i2]
  rfl


/-! ## The option parsers, one token at a time -/

@[simp] theorem invoke_parser_eq {σ : Type} (p : Parser) (v : invoke_t σ) (s : σ)
    (ec : error_code) (ch : Int) (oa : Option (List Char)) (raw : List Char) :
    (invoke p v s ec ch oa raw).parser = p := by
  simp only [invoke]; split_ifs <;> rfl

@[simp] theorem invoke_ret {σ : Type} (p : Parser) (v : invoke_t σ) (s : σ)
    (ec : error_code) (ch : Int) (oa : Option (List Char)) (raw : List Char) :
    (invoke p v s ec ch oa raw).ret = (v s ch oa raw).1 := by
  simp only [invoke]; split_ifs with h
  · simp [h]
  · simpa using h

@[simp] theorem invoke_cb {σ : Type} (p : Parser) (v : invoke_t σ) (s : σ)
    (ec : error_code) (ch : Int) (oa : Option (List Char)) (raw : List Char) :
    (invoke p v s ec ch oa raw).cb = (v s ch oa raw).2 := by
  simp only [invoke]; split_ifs <;> rfl

theorem invoke_ec {σ : Type} (p : Parser) (v : invoke_t σ) (s : σ)
    (ec : error_code) (ch : Int) (oa : Option (List Char)) (raw : List Char) :
    (invoke p v s ec ch oa raw).ec
      = if (v s ch oa raw).1 = false then ⟨"skip parse".toList, SkipParse⟩ else ec := by
  simp only [invoke]; split_ifs <;> rfl

/-- Moving the callback to another parser state moves the outcome with it. -/
theorem invoke_move {σ : Type} (p q : Parser) (v : invoke_t σ) (s : σ)
    (ec : error_code) (ch : Int) (oa : Option (List Char)) (raw : List Char) :
    invoke q v s ec ch oa raw = { invoke p v s ec ch oa raw with parser := q } := by
  simp only [invoke]; split_ifs <;> rfl

theorem takeValue_stepped {σ : Type} (p : Parser) (v : invoke_t σ) (s : σ)
    (ec : error_code) (dash a : List Char) (ch : Int) (ha : HasArgs)
    (oa : Option (List Char)) (raw : List Char) :
    Stepped p v s ec (takeValue p v s ec dash a ch ha oa raw) := by
  unfold takeValue
  split_ifs with h1 h2
  · exact Or.inl ⟨_, rfl⟩
  · exact Or.inr (Or.inr ⟨ch, raw, by omega, rfl⟩)
  · exact Or.inr (Or.inl ⟨ch, oa, raw, rfl⟩)

theorem parse_internal_short_stepped {σ : Type} (p : Parser) (a : List Char)
    (v : invoke_t σ) (s : σ) (ec : error_code) :
    Stepped p v s ec (parse_internal_short p a v s ec) := by
  simp only [parse_internal_short]
  split_ifs
  all_goals first
    | exact takeValue_stepped ..
    | exact Or.inl ⟨_, rfl⟩

theorem parse_internal_long_stepped {σ : Type} (p : Parser) (a : List Char)
    (v : invoke_t σ) (s : σ) (ec : error_code) :
    Stepped p v s ec (parse_internal_long p a v s ec) := by
  simp only [parse_internal_long]
  split_ifs
  all_goals first
    | exact takeValue_stepped ..
    | exact Or.inl ⟨_, rfl⟩

theorem parse_internal_stepped {σ : Type} (p : Parser) (a : List Char)
    (v : invoke_t σ) (s : σ) (ec : error_code) :
    Stepped p v s ec (parse_internal p a v s ec) := by
  unfold parse_internal
  split_ifs
  · exact Or.inl ⟨_, rfl⟩
  · exact parse_internal_long_stepped ..
  · exact parse_internal_short_stepped ..


theorem Stepped.parser_eq {σ : Type} {p : Parser} {v : invoke_t σ} {s : σ}
    {ec : error_code} {r : Outcome σ} (h : Stepped p v s ec r) :
    r.parser = p ∨
      (p.index + 1 < p.argv_.length ∧ r.parser = { p with index := p.index + 1 }) := by
  rcases h with ⟨msg, rfl⟩ | ⟨ch, oa, raw, rfl⟩ | ⟨ch, raw, hlt, rfl⟩
  · exact Or.inl rfl
  · exact Or.inl (invoke_parser_eq ..)
  · exact Or.inr ⟨hlt, invoke_parser_eq ..⟩

/-! ## The main loop -/

theorem loop_zero {σ : Type} (v : invoke_t σ) (p : Parser) (s : σ) (ec : error_code) :
    Execute.loop v 0 p s ec = none := rfl

theorem loop_exit {σ : Type} (v : invoke_t σ) (fuel : Nat) (p : Parser) (s : σ)
    (ec : error_code) (h : ¬ p.index < p.argv_.length) :
    Execute.loop v (fuel + 1) p s ec = some ⟨true, p, s, ec⟩ := by
  simp only [Execute.loop, if_neg h]

theorem loop_capture {σ : Type} (v : invoke_t σ) (fuel : Nat) (p : Parser) (s : σ)
    (ec : error_code) (h : p.index < p.argv_.length)
    (ha : p.argv_.getD p.index [] = [] ∨ (p.argv_.getD p.index []).head? ≠ some '-')
    (hs : p.subcmdenabled = true) :
    Execute.loop v (fuel + 1) p s ec
      = some ⟨true, { p with uargs := p.uargs ++ p.argv_.drop p.index }, s, ec⟩ := by
  simp only [Execute.loop, if_pos h, if_pos ha, hs, if_true]

theorem loop_positional {σ : Type} (v : invoke_t σ) (fuel : Nat) (p : Parser) (s : σ)
    (ec : error_code) (h : p.index < p.argv_.length)
    (ha : p.argv_.getD p.index [] = [] ∨ (p.argv_.getD p.index []).head? ≠ some '-')
    (hs : p.subcmdenabled = false) :
    Execute.loop v (fuel + 1) p s ec
      = Execute.loop v fuel
          { p with uargs := p.uargs ++ [p.argv_.getD p.index []], index := p.index + 1 }
          s ec := by
  simp only [Execute.loop, if_pos h, if_pos ha, hs, Bool.false_eq_true, if_false]

theorem loop_fail {σ : Type} (v : invoke_t σ) (fuel : Nat) (p : Parser) (s : σ)
    (ec : error_code) (h : p.index < p.argv_.length)
    (ha : ¬ (p.argv_.getD p.index [] = [] ∨ (p.argv_.getD p.index []).head? ≠ some '-'))
    (hr : (parse_internal p (p.argv_.getD p.index []) v s ec).ret = false) :
    Execute.loop v (fuel + 1) p s ec
      = some (parse_internal p (p.argv_.getD p.index []) v s ec) := by
  simp only [Execute.loop, if_pos h, if_neg ha, hr, if_true]

theorem loop_option {σ : Type} (v : invoke_t σ) (fuel : Nat) (p : Parser) (s : σ)
    (ec : error_code) (h : p.index < p.argv_.length)
    (ha : ¬ (p.argv_.getD p.index [] = [] ∨ (p.argv_.getD p.index []).head? ≠ some '-'))
    (hr : (parse_internal p (p.argv_.getD p.index []) v s ec).ret = true) :
    Execute.loop v (fuel + 1) p s ec
      = Execute.loop v fuel
          { (parse_internal p (p.argv_.getD p.index []) v s ec).parser with
            index := (parse_internal p (p.argv_.getD p.index []) v s ec).parser.index + 1 }
          (parse_internal p (p.argv_.getD p.index []) v s ec).cb
          (parse_internal p (p.argv_.getD p.index []) v s ec).ec := by
  simp only [Execute.loop, if_pos h, if_neg ha, hr, Bool.true_eq_false, if_false]

/-- Induction along the iterations of the main loop: a property of (state at the
loop head, final outcome) that holds at each way out of the loop and is carried
backwards over each iteration holds of every run. -/
theorem loop_induct {σ : Type} (v : invoke_t σ)
    (motive : Parser → σ → error_code → Outcome σ → Prop)
    (exit : ∀ p s ec, ¬ p.index < p.argv_.length → motive p s ec ⟨true, p, s, ec⟩)
    (capture : ∀ p s ec, p.index < p.argv_.length →
      (p.argv_.getD p.index [] = [] ∨ (p.argv_.getD p.index []).head? ≠ some '-') →
      p.subcmdenabled = true →
      motive p s ec ⟨true, { p with uargs := p.uargs ++ p.argv_.drop p.index }, s, ec⟩)
    (positional : ∀ p s ec r, p.index < p.argv_.length →
      (p.argv_.getD p.index [] = [] ∨ (p.argv_.getD p.index []).head? ≠ some '-') →
      p.subcmdenabled = false →
      motive { p with uargs := p.uargs ++ [p.argv_.getD p.index []], index := p.index + 1 }
        s ec r →
      motive p s ec r)
    (fail : ∀ p s ec, p.index < p.argv_.length →
      ¬ (p.argv_.getD p.index [] = [] ∨ (p.argv_.getD p.index []).head? ≠ some '-') →
      (parse_internal p (p.argv_.getD p.index []) v s ec).ret = false →
      motive p s ec (parse_internal p (p.argv_.getD p.index []) v s ec))
    (option : ∀ p s ec r, p.index < p.argv_.length →
      ¬ (p.argv_.getD p.index [] = [] ∨ (p.argv_.getD p.index []).head? ≠ some '-') →
      (parse_internal p (p.argv_.getD p.index []) v s ec).ret = true →
      motive
        { (parse_internal p (p.argv_.getD p.index []) v s ec).parser with
          index := (parse_internal p (p.argv_.getD p.index []) v s ec).parser.index + 1 }
        (parse_internal p (p.argv_.getD p.index []) v s ec).cb
        (parse_internal p (p.argv_.getD p.index []) v s ec).ec r →
      motive p s ec r) :
    ∀ (fuel : Nat) (p : Parser) (s : σ) (ec : error_code) (r : Outcome σ),
      Execute.loop v fuel p s ec = some r → motive p s ec r := by
  intro fuel
  induction fuel with
  | zero => intro p s ec r h; simp [Execute.loop] at h
  | succ fuel ih =>
    intro p s ec r h
    by_cases hi : p.index < p.argv_.length
    · by_cases ha : (p.argv_.getD p.index [] = [] ∨
          (p.argv_.getD p.index []).head? ≠ some '-')
      · cases hs : p.subcmdenabled
        · rw [loop_positional v fuel p s ec hi ha hs] at h
          exact positional p s ec r hi ha hs (ih _ _ _ _ h)
        · rw [loop_capture v fuel p s ec hi ha hs] at h
          cases h
          exact capture p s ec hi ha hs
      · cases hr : (parse_internal p (p.argv_.getD p.index []) v s ec).ret
        · rw [loop_fail v fuel p s ec hi ha hr] at h
          cases h
          exact fail p s ec hi ha hr
        · rw [loop_option v fuel p s ec hi ha hr] at h
          exact option p s ec r hi ha hr (ih _ _ _ _ h)
    · rw [loop_exit v fuel p s ec hi] at h
      cases h
      exact exit p s ec hi

/-- The main loop returns: fuel above the number of tokens left is enough. -/
theorem loop_total {σ : Type} (v : invoke_t σ) :
    ∀ (fuel : Nat) (p : Parser) (s : σ) (ec : error_code),
      p.argv_.length - p.index < fuel → ∃ r, Execute.loop v fuel p s ec = some r := by
  intro fuel
  induction fuel with
  | zero => intro p s ec h; omega
  | succ fuel ih =>
    intro p s ec h
    by_cases hi : p.index < p.argv_.length
    · by_cases ha : (p.argv_.getD p.index [] = [] ∨
          (p.argv_.getD p.index []).head? ≠ some '-')
      · cases hs : p.subcmdenabled
        · rw [loop_positional v fuel p s ec hi ha hs]
          exact ih _ _ _ (by simp only; omega)
        · rw [loop_capture v fuel p s ec hi ha hs]
          exact ⟨_, rfl⟩
      · cases hr : (parse_internal p (p.argv_.getD p.index []) v s ec).ret
        · rw [loop_fail v fuel p s ec hi ha hr]
          exact ⟨_, rfl⟩
        · rw [loop_option v fuel p s ec hi ha hr]
          apply ih
          rcases (parse_internal_stepped p (p.argv_.getD p.index []) v s ec).parser_eq
            with h1 | ⟨_, h1⟩
          · rw [h1]; simp only; omega
          · rw [h1]; simp only; omega
    · rw [loop_exit v fuel p s ec hi]
      exact ⟨_, rfl⟩

/-- The outcome of the main loop does not depend on the fuel it was given. -/
theorem loop_fuel_irrelevant {σ : Type} (v : invoke_t σ) :
    ∀ (fuel : Nat) (p : Parser) (s : σ) (ec : error_code) (r : Outcome σ),
      Execute.loop v fuel p s ec = some r →
      ∀ (fuel2 : Nat) (r2 : Outcome σ), Execute.loop v fuel2 p s ec = some r2 → r2 = r := by
  apply loop_induct v
    (fun p s ec r => ∀ (fuel2 : Nat) (r2 : Outcome σ),
      Execute.loop v fuel2 p s ec = some r2 → r2 = r)
  · intro p s ec hi fuel2 r2 h
    cases fuel2 with
    | zero => simp [Execute.loop] at h
    | succ f => rw [loop_exit v f p s ec hi] at h; cases h; rfl
  · intro p s ec hi ha hs fuel2 r2 h
    cases fuel2 with
    | zero => simp [Execute.loop] at h
    | succ f => rw [loop_capture v f p s ec hi ha hs] at h; cases h; rfl
  · intro p s ec r hi ha hs ih fuel2 r2 h
    cases fuel2 with
    | zero => simp [Execute.loop] at h
    | succ f => rw [loop_positional v f p s ec hi ha hs] at h; exact ih f r2 h
  · intro p s ec hi ha hr fuel2 r2 h
    cases fuel2 with
    | zero => simp [Execute.loop] at h
    | succ f => rw [loop_fail v f p s ec hi ha hr] at h; cases h; rfl
  · intro p s ec r hi ha hr ih fuel2 r2 h
    cases fuel2 with
    | zero => simp [Execute.loop] at h
    | succ f => rw [loop_option v f p s ec hi ha hr] at h; exact ih f r2 h

/-- The member `Execute` on a non-empty argument array is the main loop from
index 1, whatever fuel that loop returns with. -/
theorem Execute_of_loop {σ : Type} (v : invoke_t σ) (p : Parser) (s : σ)
    (ec : error_code) (hne : p.argv_ ≠ []) (fuel : Nat) (r : Outcome σ)
    (h : Execute.loop v fuel { p with index := 1 } s ec = some r) :
    Execute p v s ec = some r := by
  have hlen : p.argv_.length ≠ 0 := by
    intro h0; exact hne (List.length_eq_zero.1 h0)
  obtain ⟨r2, h2⟩ := loop_total v p.argv_.length { p with index := 1 } s ec
    (by simp only; omega)
  have := loop_fuel_irrelevant v fuel _ s ec r h _ r2 h2
  rw [Execute, if_neg hlen, h2, this]

theorem Execute_total {σ : Type} (v : invoke_t σ) (p : Parser) (s : σ)
    (ec : error_code) : ∃ r, Execute p v s ec = some r := by
  by_cases hlen : p.argv_.length = 0
  · rw [Execute, if_pos hlen]; exact ⟨_, rfl⟩
  · rw [Execute, if_neg hlen]
    exact loop_total v _ _ s ec (by simp only; omega)


/-! ## Two argument arrays that agree on a prefix -/

theorem take_agree {α : Type} (l l2 : List α) (k : Nat) (d : α)
    (h : l2.take (k + 1) = l.take (k + 1)) (hk : k < l.length) :
    k < l2.length ∧ ∀ j, j ≤ k → l2.getD j d = l.getD j d := by
  have hlen := congrArg List.length h
  simp only [List.length_take] at hlen
  refine ⟨by omega, ?_⟩
  intro j hj
  have h1 : (l2.take (k + 1))[j]? = (l.take (k + 1))[j]? := by rw [h]
  rw [List.getElem?_take_of_lt (by omega), List.getElem?_take_of_lt (by omega)] at h1
  simp [List.getD_eq_getElem?_getD, h1]

theorem takeValue_congr {σ : Type} (p q : Parser) (v : invoke_t σ) (s : σ)
    (ec : error_code) (dash a : List Char) (ch : Int) (ha : HasArgs)
    (oa : Option (List Char)) (raw : List Char)
    (hidx : q.index = p.index)
    (hcall : (takeValue p v s ec dash a ch ha oa raw).ret = true ∨
      (takeValue p v s ec dash a ch ha oa raw).ec.ec = SkipParse)
    (hagree : q.argv_.take ((takeValue p v s ec dash a ch ha oa raw).parser.index + 1)
      = p.argv_.take ((takeValue p v s ec dash a ch ha oa raw).parser.index + 1)) :
    takeValue q v s ec dash a ch ha oa raw
      = { takeValue p v s ec dash a ch ha oa raw with
          parser := { q with index := (takeValue p v s ec dash a ch ha oa raw).parser.index } } := by
  unfold takeValue at hcall hagree ⊢
  by_cases h1 : oa = none ∧ ha = HasArgs.required_argument
  · simp only [if_pos h1] at hcall hagree ⊢
    by_cases h2 : p.index + 1 ≥ p.argv_.length
    · simp only [if_pos h2] at hcall
      rcases hcall with h | h
      · cases h
      · simp [error_code.AssignCat, SkipParse] at h
    · simp only [if_neg h2, invoke_parser_eq] at hagree ⊢
      obtain ⟨hlt, hget⟩ := take_agree p.argv_ q.argv_ (p.index + 1) [] hagree (by omega)
      have h3 : ¬ q.index + 1 ≥ q.argv_.length := by omega
      rw [if_neg h3, hidx, hget (p.index + 1) (Nat.le_refl _)]
      exact invoke_move ..
  · simp only [if_neg h1, invoke_parser_eq] at hagree ⊢
    rw [invoke_move p q, ← hidx]

/-- The shape of `parse_internal` on a token, for all parsers with the same
registry: a failure of kind 1 fixed by the token, or `takeValue` at arguments
fixed by the token. -/
theorem parse_internal_shape (opts : List option) (a : List Char) :
    (∃ msg : List Char, ∀ (σ : Type) (p : Parser) (v : invoke_t σ) (s : σ) (ec : error_code),
        p.options_ = opts → parse_internal p a v s ec = ⟨false, p, s, ⟨msg, 1⟩⟩) ∨
    (∃ (dash b : List Char) (ch : Int) (ha : HasArgs) (oa : Option (List Char))
        (raw : List Char),
      ∀ (σ : Type) (p : Parser) (v : invoke_t σ) (s : σ) (ec : error_code),
        p.options_ = opts →
        parse_internal p a v s ec = takeValue p v s ec dash b ch ha oa raw) := by
  by_cases h1 : a.length = 1
  · left
    refine ⟨"unexpected argument '-'".toList, fun σ p v s ec _ => ?_⟩
    simp only [parse_internal, if_pos h1]; rfl
  by_cases h2 : at_ a 1 = '-'
  · -- long option
    by_cases h3 : (a.drop 2).indexOf '=' < (a.drop 2).length ∧
        (a.drop 2).indexOf '=' + 1 ≥ (a.drop 2).length
    · left
      refine ⟨CatPieces ["unexpected argument '--".toList, a.drop 2, "'".toList],
        fun σ p v s ec _ => ?_⟩
      simp only [parse_internal, if_neg h1, if_pos h2, parse_internal_long, if_pos h3]; rfl
    by_cases h4 : (findLong opts (longName (a.drop 2))).1 = -1
    · left
      refine ⟨CatPieces ["unregistered option '--".toList, longName (a.drop 2), "'".toList],
        fun σ p v s ec ho => ?_⟩
      simp only [parse_internal, if_neg h1, if_pos h2, parse_internal_long, if_neg h3, ho,
        if_pos h4]; rfl
    by_cases h5 : longValue (a.drop 2) ≠ none ∧
        (findLong opts (longName (a.drop 2))).2 = HasArgs.no_argument
    · left
      refine ⟨CatPieces ["option '--".toList, longName (a.drop 2),
          "' unexpected parameter: ".toList, (longValue (a.drop 2)).getD []],
        fun σ p v s ec ho => ?_⟩
      simp only [parse_internal, if_neg h1, if_pos h2, parse_internal_long, if_neg h3, ho,
        if_neg h4, if_pos h5]; rfl
    · right
      refine ⟨"--".toList, longName (a.drop 2), (findLong opts (longName (a.drop 2))).1,
        (findLong opts (longName (a.drop 2))).2, longValue (a.drop 2), a.drop 2,
        fun σ p v s ec ho => ?_⟩
      simp only [parse_internal, if_neg h1, if_pos h2, parse_internal_long, if_neg h3, ho,
        if_neg h4, if_neg h5]
  · -- short option
    by_cases h3 : at_ (a.drop 1) 0 = '='
    · left
      refine ⟨CatPieces ["unexpected argument '-".toList, a.drop 1, "'".toList],
        fun σ p v s ec _ => ?_⟩
      simp only [parse_internal, if_neg h1, if_neg h2, parse_internal_short, if_pos h3]; rfl
    by_cases h4 : (findShort opts (at_ (a.drop 1) 0)).1 = -1
    · left
      refine ⟨CatPieces ["unregistered option '-".toList, a.drop 1, "'".toList],
        fun σ p v s ec ho => ?_⟩
      simp only [parse_internal, if_neg h1, if_neg h2, parse_internal_short, if_neg h3, ho,
        if_pos h4]; rfl
    by_cases h5 : shortValue (a.drop 1) ≠ none ∧
        (findShort opts (at_ (a.drop 1) 0)).2 = HasArgs.no_argument
    · left
      refine ⟨CatPieces ["option '-".toList, (a.drop 1).take 1,
          "' unexpected parameter: ".toList, (shortValue (a.drop 1)).getD []],
        fun σ p v s ec ho => ?_⟩
      simp only [parse_internal, if_neg h1, if_neg h2, parse_internal_short, if_neg h3, ho,
        if_neg h4, if_pos h5]; rfl
    · right
      refine ⟨"-".toList, a.drop 1, (findShort opts (at_ (a.drop 1) 0)).1,
        (findShort opts (at_ (a.drop 1) 0)).2, shortValue (a.drop 1), a.drop 1,
        fun σ p v s ec ho => ?_⟩
      simp only [parse_internal, if_neg h1, if_neg h2, parse_internal_short, if_neg h3, ho,
        if_neg h4, if_neg h5]

theorem parse_internal_congr {σ : Type} (p q : Parser) (a : List Char)
    (v : invoke_t σ) (s : σ) (ec : error_code)
    (hopts : q.options_ = p.options_) (hidx : q.index = p.index)
    (hcall : (parse_internal p a v s ec).ret = true ∨
      (parse_internal p a v s ec).ec.ec = SkipParse)
    (hagree : q.argv_.take ((parse_internal p a v s ec).parser.index + 1)
      = p.argv_.take ((parse_internal p a v s ec).parser.index + 1)) :
    parse_internal q a v s ec
      = { parse_internal p a v s ec with
          parser := { q with index := (parse_internal p a v s ec).parser.index } } := by
  rcases parse_internal_shape p.options_ a with ⟨msg, h⟩ | ⟨dash, b, ch, ha, oa, raw, h⟩
  · rw [h σ p v s ec rfl] at hcall
    rcases hcall with h | h
    · cases h
    · simp [SkipParse] at h
  · rw [h σ p v s ec rfl] at hcall hagree ⊢
    rw [h σ q v s ec hopts]
    exact takeValue_congr p q v s ec _ _ _ _ _ _ hidx hcall hagree


/-- A parse that succeeds on an argument array without capturing a subcommand
is the beginning of the parse of every longer array: the loop on the longer array
reaches the end of the shorter one in the state the shorter parse ended in. -/
theorem loop_extend {σ : Type} (v : invoke_t σ) (rest : List (List Char)) :
    ∀ (fuel : Nat) (p : Parser) (s : σ) (ec : error_code) (r0 : Outcome σ),
      Execute.loop v fuel p s ec = some r0 →
      p.index ≤ p.argv_.length → r0.ret = true →
      (p.subcmdenabled = false ∨ r0.parser.uargs = p.uargs) →
      r0.parser = { p with index := p.argv_.length, uargs := r0.parser.uargs } ∧
      ∀ (fuel2 : Nat) (r : Outcome σ),
        Execute.loop v fuel2
          { p with argv_ := p.argv_ ++ rest, index := p.argv_.length,
                   uargs := r0.parser.uargs } r0.cb r0.ec = some r →
        ∃ fuel1, Execute.loop v fuel1 { p with argv_ := p.argv_ ++ rest } s ec = some r := by
  apply loop_induct v
    (fun p s ec r0 => p.index ≤ p.argv_.length → r0.ret = true →
      (p.subcmdenabled = false ∨ r0.parser.uargs = p.uargs) →
      r0.parser = { p with index := p.argv_.length, uargs := r0.parser.uargs } ∧
      ∀ (fuel2 : Nat) (r : Outcome σ),
        Execute.loop v fuel2
          { p with argv_ := p.argv_ ++ rest, index := p.argv_.length,
                   uargs := r0.parser.uargs } r0.cb r0.ec = some r →
        ∃ fuel1, Execute.loop v fuel1 { p with argv_ := p.argv_ ++ rest } s ec = some r)
  · -- the loop ends
    intro p s ec hi hle _ _
    obtain ⟨argv, i, se, u, opts⟩ := p
    simp only at hi hle ⊢
    have he : argv.length = i := by omega
    subst he
    exact ⟨rfl, fun fuel2 r h => ⟨fuel2, h⟩⟩
  · -- a subcommand is captured
    intro p s ec hi _ hs _ _ hu
    rcases hu with hu | hu
    · rw [hs] at hu; cases hu
    · simp only [List.append_right_eq_self, List.drop_eq_nil_iff] at hu
      omega
  · -- a positional token
    intro p s ec r0 hi ha hs ih hle hret _
    obtain ⟨argv, i, se, u, opts⟩ := p
    simp only at hi ha hs ih hle ⊢
    obtain ⟨h1, h2⟩ := ih (by omega) hret (Or.inl hs)
    refine ⟨h1, fun fuel2 r h => ?_⟩
    obtain ⟨fuel1, h3⟩ := h2 fuel2 r h
    refine ⟨fuel1 + 1, ?_⟩
    have hg : (argv ++ rest).getD i [] = argv.getD i [] :=
      List.getD_append _ _ _ _ hi
    have hstep := loop_positional v fuel1 ⟨argv ++ rest, i, se, u, opts⟩ s ec
      (by simp only [List.length_append]; omega) (by simp only [hg]; exact ha) hs
    simp only [hg] at hstep
    rw [hstep]
    exact h3
  · -- an option fails
    intro p s ec _ _ hr _ hret _
    rw [hr] at hret; cases hret
  · -- an option is parsed
    intro p s ec r0 hi ha hr ih hle hret hu
    have hst := (parse_internal_stepped p (p.argv_.getD p.index []) v s ec).parser_eq
    obtain ⟨argv, i, se, u, opts⟩ := p
    simp only at hi ha hr ih hle hu hst ⊢
    have hg : (argv ++ rest).getD i [] = argv.getD i [] :=
      List.getD_append _ _ _ _ hi
    have hidx : (parse_internal ⟨argv, i, se, u, opts⟩ (argv.getD i []) v s ec).parser.index + 1
        ≤ argv.length := by
      rcases hst with h | ⟨hlt, h⟩ <;> rw [h] <;> simp only <;> omega
    have hcong := parse_internal_congr ⟨argv, i, se, u, opts⟩ ⟨argv ++ rest, i, se, u, opts⟩
      (argv.getD i []) v s ec rfl rfl (Or.inl hr)
      (by simp only; exact List.take_append_of_le_length hidx)
    simp only at hcong
    have hfields : (parse_internal ⟨argv, i, se, u, opts⟩ (argv.getD i []) v s ec).parser
        = ⟨argv, (parse_internal ⟨argv, i, se, u, opts⟩ (argv.getD i []) v s ec).parser.index,
            se, u, opts⟩ := by
      rcases hst with h | ⟨hlt, h⟩ <;> rw [h]
    rw [hfields] at ih
    simp only at ih
    obtain ⟨h1, h2⟩ := ih hidx hret hu
    refine ⟨h1, fun fuel2 r h => ?_⟩
    obtain ⟨fuel1, h3⟩ := h2 fuel2 r h
    refine ⟨fuel1 + 1, ?_⟩
    have hstep := loop_option v fuel1 ⟨argv ++ rest, i, se, u, opts⟩ s ec
      (by simp only [List.length_append]; omega) (by simp only [hg]; exact ha)
      (by simp only [hg]; rw [hcong]; exact hr)
    simp only [hg, hcong] at hstep
    rw [hstep]
    exact h3


/-- The prefix theorem for `Execute`: when the parse of `pre` succeeds without
capturing a subcommand, the parse of `pre ++ rest` is the main loop resumed at
index `pre.length` in the state the parse of `pre` ended in. -/
theorem Execute_extend {σ : Type} (v : invoke_t σ) (pre rest : List (List Char))
    (i0 : Nat) (se : Bool) (u0 : List (List Char)) (opts : List option)
    (s : σ) (ec : error_code) (r0 : Outcome σ)
    (h : Execute ⟨pre, i0, se, u0, opts⟩ v s ec = some r0) (hret : r0.ret = true)
    (hu : se = false ∨ r0.parser.uargs = u0) :
    pre ≠ [] ∧ r0.parser = ⟨pre, pre.length, se, r0.parser.uargs, opts⟩ ∧
    ∀ (fuel : Nat) (r : Outcome σ),
      Execute.loop v fuel ⟨pre ++ rest, pre.length, se, r0.parser.uargs, opts⟩ r0.cb r0.ec
        = some r →
      Execute ⟨pre ++ rest, i0, se, u0, opts⟩ v s ec = some r := by
  have hne : pre ≠ [] := by
    intro h0
    subst h0
    simp only [Execute, List.length_nil, if_true, Option.some.injEq] at h
    rw [← h] at hret
    cases hret
  have hlen : pre.length ≠ 0 := fun h0 => hne (List.length_eq_zero.1 h0)
  simp only [Execute, if_neg hlen] at h
  obtain ⟨h1, h2⟩ := loop_extend v rest _ _ s ec r0 h
    (by simp only; omega) hret hu
  simp only at h1 h2
  refine ⟨hne, h1, fun fuel r hr => ?_⟩
  obtain ⟨fuel1, h3⟩ := h2 fuel r hr
  exact Execute_of_loop v ⟨pre ++ rest, i0, se, u0, opts⟩ s ec (by simp [hne]) fuel1 r h3

/-! ## Tokens by their spelling -/

theorem parse_internal_long_token {σ : Type} (p : Parser) (rest : List Char)
    (v : invoke_t σ) (s : σ) (ec : error_code) :
    parse_internal p ('-' :: '-' :: rest) v s ec = parse_internal_long p rest v s ec := by
  simp [parse_internal, at_]

theorem parse_internal_short_token {σ : Type} (p : Parser) (c : Char) (rest : List Char)
    (v : invoke_t σ) (s : σ) (ec : error_code) (hc : c ≠ '-') :
    parse_internal p ('-' :: c :: rest) v s ec
      = parse_internal_short p (c :: rest) v s ec := by
  simp [parse_internal, at_, hc]

theorem not_positional (rest : List Char) :
    ¬ (('-' :: rest) = [] ∨ ('-' :: rest).head? ≠ some '-') := by
  simp

theorem findLong_none (opts : List option) (name : List Char)
    (h : ∀ o ∈ opts, o.name ≠ name) :
    findLong opts name = (-1, HasArgs.optional_argument) := by
  induction opts with
  | nil => rfl
  | cons o os ih =>
    simp only [findLong, if_neg (h o (List.mem_cons_self _ _))]
    exact ih (fun x hx => h x (List.mem_cons_of_mem _ hx))

theorem findLong_some (opts : List option) (name : List Char) (o : option)
    (h : opts.find? (fun x => decide (x.name = name)) = some o) :
    findLong opts name = (o.val, o.has_args) := by
  induction opts with
  | nil => simp at h
  | cons x xs ih =>
    by_cases hx : x.name = name
    · simp only [List.find?, hx, decide_True, Option.some.injEq] at h
      subst h
      simp only [findLong, if_pos hx]
    · simp only [List.find?, hx, decide_False] at h
      simp only [findLong, if_neg hx]
      exact ih h

theorem findShort_none (opts : List option) (c : Char)
    (h : ∀ o ∈ opts, o.val ≠ (c.toNat : Int)) :
    findShort opts c = (-1, HasArgs.optional_argument) := by
  induction opts with
  | nil => rfl
  | cons o os ih =>
    simp only [findShort, if_neg (h o (List.mem_cons_self _ _))]
    exact ih (fun x hx => h x (List.mem_cons_of_mem _ hx))

theorem findShort_some (opts : List option) (c : Char) (o : option)
    (h : opts.find? (fun x => decide (x.val = (c.toNat : Int))) = some o) :
    findShort opts c = (o.val, o.has_args) ∧ o.val = (c.toNat : Int) := by
  induction opts with
  | nil => simp at h
  | cons x xs ih =>
    by_cases hx : x.val = (c.toNat : Int)
    · simp only [List.find?, hx, decide_True, Option.some.injEq] at h
      subst h
      simp only [findShort, if_pos hx]
      exact ⟨trivial, hx⟩
    · simp only [List.find?, hx, decide_False] at h
      simp only [findShort, if_neg hx]
      exact ih h

theorem long_no_eq (a : List Char) (h : '=' ∉ a) :
    a.indexOf '=' = a.length ∧ longName a = a ∧ longValue a = none := by
  have hi : a.indexOf '=' = a.length := List.indexOf_eq_length.2 h
  simp [longName, longValue, hi]

theorem long_eq (n v : List Char) (h : '=' ∉ n) :
    (n ++ '=' :: v).indexOf '=' = n.length ∧ longName (n ++ '=' :: v) = n ∧
      longValue (n ++ '=' :: v) = some v := by
  have hi : (n ++ '=' :: v).indexOf '=' = n.length := by
    rw [List.indexOf_append_of_not_mem h]; simp
  simp [longName, longValue, hi]


theorem Parser.make_eq (argv : List (List Char)) (se : Bool) (opts : List option) :
    Parser.make argv se opts = ⟨argv, 0, se, [], opts⟩ := by
  have h : ∀ (os : List option) (p : Parser),
      os.foldl (fun p o => p.Add o.name o.has_args o.val) p
        = { p with options_ := p.options_ ++ os } := by
    intro os
    induction os with
    | nil => intro p; simp
    | cons o os ih =>
      intro p
      rw [List.foldl_cons, ih]
      simp [Parser.Add]
  simp [Parser.make, h, Parser.new]

theorem getD_at_end (pre post : List (List Char)) (tok : List Char) :
    (pre ++ tok :: post).getD pre.length [] = tok := by
  rw [List.getD_append_right _ _ _ _ (Nat.le_refl _)]
  simp

theorem getD_after_end (pre post : List (List Char)) (tok nxt : List Char) :
    (pre ++ tok :: nxt :: post).getD (pre.length + 1) [] = nxt := by
  rw [List.getD_append_right _ _ _ _ (Nat.le_succ _)]
  simp

/-- The main loop at an option token that fails returns that failure. -/
theorem loop_at_fail {σ : Type} (v : invoke_t σ) (fuel : Nat) (pre post : List (List Char))
    (t : List Char) (se : Bool) (u : List (List Char)) (opts : List option)
    (s : σ) (ec : error_code)
    (hr : (parse_internal ⟨pre ++ ('-' :: t) :: post, pre.length, se, u, opts⟩
      ('-' :: t) v s ec).ret = false) :
    Execute.loop v (fuel + 1) ⟨pre ++ ('-' :: t) :: post, pre.length, se, u, opts⟩ s ec
      = some (parse_internal ⟨pre ++ ('-' :: t) :: post, pre.length, se, u, opts⟩
          ('-' :: t) v s ec) := by
  have h := loop_fail v fuel ⟨pre ++ ('-' :: t) :: post, pre.length, se, u, opts⟩ s ec
    (by simp) (by simp only [getD_at_end]; exact not_positional t)
    (by simp only [getD_at_end]; exact hr)
  simpa only [getD_at_end] using h

/-- The main loop at an option token that succeeds goes on after it. -/
theorem loop_at_option {σ : Type} (v : invoke_t σ) (fuel : Nat) (pre post : List (List Char))
    (t : List Char) (se : Bool) (u : List (List Char)) (opts : List option)
    (s : σ) (ec : error_code)
    (hr : (parse_internal ⟨pre ++ ('-' :: t) :: post, pre.length, se, u, opts⟩
      ('-' :: t) v s ec).ret = true) :
    Execute.loop v (fuel + 1) ⟨pre ++ ('-' :: t) :: post, pre.length, se, u, opts⟩ s ec
      = Execute.loop v fuel
          { (parse_internal ⟨pre ++ ('-' :: t) :: post, pre.length, se, u, opts⟩
              ('-' :: t) v s ec).parser with
            index := (parse_internal ⟨pre ++ ('-' :: t) :: post, pre.length, se, u, opts⟩
              ('-' :: t) v s ec).parser.index + 1 }
          (parse_internal ⟨pre ++ ('-' :: t) :: post, pre.length, se, u, opts⟩
              ('-' :: t) v s ec).cb
          (parse_internal ⟨pre ++ ('-' :: t) :: post, pre.length, se, u, opts⟩
              ('-' :: t) v s ec).ec := by
  have h := loop_option v fuel ⟨pre ++ ('-' :: t) :: post, pre.length, se, u, opts⟩ s ec
    (by simp) (by simp only [getD_at_end]; exact not_positional t)
    (by simp only [getD_at_end]; exact hr)
  simpa only [getD_at_end] using h

theorem parse_long_unregistered {σ : Type} (p : Parser) (a0 : List Char)
    (v : invoke_t σ) (s : σ) (ec : error_code)
    (h1 : ¬ (a0.indexOf '=' < a0.length ∧ a0.indexOf '=' + 1 ≥ a0.length))
    (h2 : ∀ o ∈ p.options_, o.name ≠ longName a0) :
    parse_internal_long p a0 v s ec
      = ⟨false, p, s, ⟨"unregistered option '--".toList ++ longName a0 ++ "'".toList, 1⟩⟩ := by
  simp only [parse_internal_long, if_neg h1, findLong_none _ _ h2, if_true,
    error_code.AssignCat, CatPieces]
  simp

/-- C5: a long-option token `--name` or `--name=value` (value not empty) whose
name is no registered name makes `Execute` return false with kind 1 and the
message `unregistered option '--name'`, without invoking the callback for it:
the callback's state is the one the tokens before it left. -/
theorem C5_unregistered_long {σ : Type} (v : invoke_t σ) (pre post : List (List Char))
    (se : Bool) (opts : List option) (s : σ) (ec : error_code) (r0 : Outcome σ)
    (name value : List Char)
    (hpre : Execute (Parser.make pre se opts) v s ec = some r0)
    (hret : r0.ret = true) (hu : se = false ∨ r0.parser.uargs = [])
    (hname : '=' ∉ name) (hunreg : ∀ o ∈ opts, o.name ≠ name) (hvalue : value ≠ []) :
    ∀ tok ∈ [ '-' :: '-' :: name, '-' :: '-' :: (name ++ '=' :: value) ],
      Execute (Parser.make (pre ++ tok :: post) se opts) v s ec
        = some ⟨false, ⟨pre ++ tok :: post, pre.length, se, r0.parser.uargs, opts⟩, r0.cb,
            ⟨"unregistered option '--".toList ++ name ++ "'".toList, 1⟩⟩ := by
  intro tok htok
  rw [Parser.make_eq] at hpre ⊢
  have key : ∀ a0 : List Char, longName a0 = name →
      ¬ (a0.indexOf '=' < a0.length ∧ a0.indexOf '=' + 1 ≥ a0.length) →
      Execute ⟨pre ++ ('-' :: '-' :: a0) :: post, 0, se, [], opts⟩ v s ec
        = some ⟨false, ⟨pre ++ ('-' :: '-' :: a0) :: post, pre.length, se, r0.parser.uargs, opts⟩,
            r0.cb, ⟨"unregistered option '--".toList ++ name ++ "'".toList, 1⟩⟩ := by
    intro a0 hn h1
    obtain ⟨_, _, h3⟩ := Execute_extend v pre (('-' :: '-' :: a0) :: post) 0 se [] opts s ec r0
      hpre hret hu
    apply h3 1
    have hp := parse_long_unregistered
      ⟨pre ++ ('-' :: '-' :: a0) :: post, pre.length, se, r0.parser.uargs, opts⟩ a0 v
      r0.cb r0.ec h1 (by rw [hn]; exact hunreg)
    rw [loop_at_fail v 0 pre post ('-' :: a0) se _ opts r0.cb r0.ec
      (by rw [parse_internal_long_token, hp])]
    rw [parse_internal_long_token, hp, hn]
  simp only [List.mem_cons, List.mem_singleton, List.not_mem_nil, or_false] at htok
  rcases htok with rfl | rfl
  · obtain ⟨h1, h2, _⟩ := long_no_eq name hname
    exact key name h2 (by rw [h1]; omega)
  · obtain ⟨h1, h2, _⟩ := long_eq name value hname
    refine key _ h2 ?_
    rw [h1]
    have : 0 < value.length := List.length_pos.2 hvalue
    simp only [List.length_append, List.length_cons]
    omega

/-- C5 at the registry `flag` (no argument, id `f`) and the tokens `prog --bogus`:
the message is `unregistered option '--bogus'`. -/
theorem C5_unregistered_long_witness :
    Execute (Parser.make ["prog".toList, "--bogus".toList] false
        [⟨"flag".toList, HasArgs.no_argument, 102⟩])
      (fun (s : Unit) _ _ _ => (true, s)) () error_code.init
      = some ⟨false, ⟨["prog".toList, "--bogus".toList], 1, false, [],
            [⟨"flag".toList, HasArgs.no_argument, 102⟩]⟩, (),
          ⟨"unregistered option '--bogus'".toList, 1⟩⟩ :=
  C5_unregistered_long (fun (s : Unit) _ _ _ => (true, s)) ["prog".toList] [] false
    [⟨"flag".toList, HasArgs.no_argument, 102⟩] () error_code.init
    ⟨true, ⟨["prog".toList], 1, false, [], [⟨"flag".toList, HasArgs.no_argument, 102⟩]⟩, (),
      error_code.init⟩
    "bogus".toList "1".toList (by rfl) (by rfl) (Or.inl rfl) (by decide) (by decide) (by decide)
    "--bogus".toList (by decide)


/-! ## The logged callback -/

theorem invoke_traced {σ : Type} (p : Parser) (v : invoke_t σ) (s : σ × List Call)
    (ec : error_code) (ch : Int) (oa : Option (List Char)) (raw : List Char) :
    (invoke p (traced v) s ec ch oa raw).cb.2
        = s.2 ++ [(⟨ch, oa, raw, (v s.1 ch oa raw).1⟩ : Call)] ∧
      (invoke p (traced v) s ec ch oa raw).ret
        = (⟨ch, oa, raw, (v s.1 ch oa raw).1⟩ : Call).result ∧
      (invoke p (traced v) s ec ch oa raw).ec
        = (if (⟨ch, oa, raw, (v s.1 ch oa raw).1⟩ : Call).result = false
            then ⟨"skip parse".toList, SkipParse⟩ else ec) := by
  refine ⟨?_, ?_, ?_⟩
  · rw [invoke_cb]; rfl
  · rw [invoke_ret]; rfl
  · rw [invoke_ec]; rfl

/-- What an option parser does with the logged callback: it fails with kind 1
and logs nothing, or it logs one call and returns what that call returned,
leaving the error untouched on true and set to "skip parse" on false. -/
theorem parse_internal_traced {σ : Type} (p : Parser) (a : List Char)
    (v : invoke_t σ) (s : σ × List Call) (ec : error_code) :
    ((parse_internal p a (traced v) s ec).cb = s ∧
      (parse_internal p a (traced v) s ec).ret = false ∧
      (parse_internal p a (traced v) s ec).ec.ec = 1) ∨
    (∃ c : Call, (parse_internal p a (traced v) s ec).cb.2 = s.2 ++ [c] ∧
      (parse_internal p a (traced v) s ec).ret = c.result ∧
      (parse_internal p a (traced v) s ec).ec
        = (if c.result = false then ⟨"skip parse".toList, SkipParse⟩ else ec)) := by
  rcases parse_internal_stepped p a (traced v) s ec with
    ⟨msg, h⟩ | ⟨ch, oa, raw, h⟩ | ⟨ch, raw, _, h⟩
  · left; rw [h]; exact ⟨rfl, rfl, rfl⟩
  · right; rw [h]; exact ⟨_, invoke_traced ..⟩
  · right; rw [h]; exact ⟨_, invoke_traced ..⟩

/-- The log only grows along the main loop, and does not grow at all once the
cursor is past the last token. -/
theorem loop_log {σ : Type} (v : invoke_t σ) :
    ∀ (fuel : Nat) (p : Parser) (s : σ × List Call) (ec : error_code)
      (r : Outcome (σ × List Call)),
      Execute.loop (traced v) fuel p s ec = some r →
      ∃ later, r.cb.2 = s.2 ++ later ∧ (p.argv_.length ≤ p.index → later = []) := by
  apply loop_induct (traced v)
    (fun p s ec r => ∃ later, r.cb.2 = s.2 ++ later ∧ (p.argv_.length ≤ p.index → later = []))
  · intro p s ec _
    exact ⟨[], by simp, fun _ => rfl⟩
  · intro p s ec hi _ _
    exact ⟨[], by simp, fun _ => rfl⟩
  · intro p s ec r hi _ _ ih
    obtain ⟨later, h1, _⟩ := ih
    exact ⟨later, h1, fun h => by omega⟩
  · intro p s ec hi _ _
    rcases parse_internal_traced p (p.argv_.getD p.index []) v s ec with
      ⟨h, _, _⟩ | ⟨c, h, _, _⟩
    · exact ⟨[], by rw [h]; simp, fun h => by omega⟩
    · exact ⟨[c], h, fun h => by omega⟩
  · intro p s ec r hi _ hr ih
    obtain ⟨later, h1, _⟩ := ih
    rcases parse_internal_traced p (p.argv_.getD p.index []) v s ec with
      ⟨_, h, _⟩ | ⟨c, h, _, _⟩
    · rw [hr] at h; cases h
    · exact ⟨c :: later, by rw [h1, h]; simp, fun h => by omega⟩

/-- The outcome with the log dropped from the callback state. -/
theorem invoke_erase {σ : Type} (p : Parser) (v : invoke_t σ) (s : σ × List Call)
    (ec : error_code) (ch : Int) (oa : Option (List Char)) (raw : List Char) :
    invoke p v s.1 ec ch oa raw
      = ⟨(invoke p (traced v) s ec ch oa raw).ret, (invoke p (traced v) s ec ch oa raw).parser,
          (invoke p (traced v) s ec ch oa raw).cb.1, (invoke p (traced v) s ec ch oa raw).ec⟩ := by
  simp only [invoke, traced]
  split_ifs <;> rfl

theorem takeValue_erase {σ : Type} (p : Parser) (v : invoke_t σ) (s : σ × List Call)
    (ec : error_code) (dash a : List Char) (ch : Int) (ha : HasArgs)
    (oa : Option (List Char)) (raw : List Char) :
    takeValue p v s.1 ec dash a ch ha oa raw
      = ⟨(takeValue p (traced v) s ec dash a ch ha oa raw).ret,
          (takeValue p (traced v) s ec dash a ch ha oa raw).parser,
          (takeValue p (traced v) s ec dash a ch ha oa raw).cb.1,
          (takeValue p (traced v) s ec dash a ch ha oa raw).ec⟩ := by
  simp only [takeValue]
  split_ifs
  · rfl
  · exact invoke_erase ..
  · exact invoke_erase ..

theorem parse_internal_erase {σ : Type} (p : Parser) (a : List Char) (v : invoke_t σ)
    (s : σ × List Call) (ec : error_code) :
    parse_internal p a v s.1 ec
      = ⟨(parse_internal p a (traced v) s ec).ret, (parse_internal p a (traced v) s ec).parser,
          (parse_internal p a (traced v) s ec).cb.1, (parse_internal p a (traced v) s ec).ec⟩ := by
  rcases parse_internal_shape p.options_ a with ⟨msg, h⟩ | ⟨dash, b, ch, ha, oa, raw, h⟩
  · rw [h _ p v s.1 ec rfl, h _ p (traced v) s ec rfl]
  · rw [h _ p v s.1 ec rfl, h _ p (traced v) s ec rfl]
    exact takeValue_erase ..

/-- Logging changes nothing: the parse with the logged callback, its log
dropped, is the parse with the callback itself. -/
theorem loop_erase {σ : Type} (v : invoke_t σ) :
    ∀ (fuel : Nat) (p : Parser) (s : σ × List Call) (ec : error_code)
      (r : Outcome (σ × List Call)),
      Execute.loop (traced v) fuel p s ec = some r →
      Execute.loop v fuel p s.1 ec = some ⟨r.ret, r.parser, r.cb.1, r.ec⟩ := by
  intro fuel
  induction fuel with
  | zero => intro p s ec r h; simp [Execute.loop] at h
  | succ fuel ih =>
    intro p s ec r h
    by_cases hi : p.index < p.argv_.length
    · by_cases ha : (p.argv_.getD p.index [] = [] ∨
          (p.argv_.getD p.index []).head? ≠ some '-')
      · cases hs : p.subcmdenabled
        · rw [loop_positional (traced v) fuel p s ec hi ha hs] at h
          rw [loop_positional v fuel p s.1 ec hi ha hs]
          exact ih _ _ _ _ h
        · rw [loop_capture (traced v) fuel p s ec hi ha hs] at h
          rw [loop_capture v fuel p s.1 ec hi ha hs]
          cases h; rfl
      · have he := parse_internal_erase p (p.argv_.getD p.index []) v s ec
        cases hr : (parse_internal p (p.argv_.getD p.index []) (traced v) s ec).ret
        · rw [loop_fail (traced v) fuel p s ec hi ha hr] at h
          rw [loop_fail v fuel p s.1 ec hi ha (by rw [he]; exact hr), he]
          cases h; rfl
        · rw [loop_option (traced v) fuel p s ec hi ha hr] at h
          rw [loop_option v fuel p s.1 ec hi ha (by rw [he]; exact hr), he]
          exact ih _ _ _ _ h
    · rw [loop_exit (traced v) fuel p s ec hi] at h
      rw [loop_exit v fuel p s.1 ec hi]
      cases h; rfl

theorem Execute_erase {σ : Type} (v : invoke_t σ) (p : Parser) (s : σ × List Call)
    (ec : error_code) (r : Outcome (σ × List Call))
    (h : Execute p (traced v) s ec = some r) :
    Execute p v s.1 ec = some ⟨r.ret, r.parser, r.cb.1, r.ec⟩ := by
  by_cases hlen : p.argv_.length = 0
  · rw [Execute, if_pos hlen] at h ⊢
    cases h; rfl
  · rw [Execute, if_neg hlen] at h ⊢
    exact loop_erase v _ _ s ec r h

theorem shortValue_one (c : Char) : shortValue [c] = none := by
  simp [shortValue]

theorem shortValue_eq (c : Char) (val : List Char) :
    shortValue (c :: '=' :: val) = some val := by
  simp [shortValue, at_]

theorem shortValue_fused (c : Char) (val : List Char) (h1 : val ≠ [])
    (h2 : val.head? ≠ some '=') : shortValue (c :: val) = some val := by
  cases val with
  | nil => exact absurd rfl h1
  | cons x xs =>
    have hx : x ≠ '=' := by simpa using h2
    simp [shortValue, at_, hx]

theorem toNat_ne_neg_one (c : Char) : ((c.toNat : Int) = -1) = False := by
  simp only [eq_iff_iff, iff_false]
  omega

/-- The short-option parser on a token whose letter is registered. -/
theorem parse_short_found {σ : Type} (p : Parser) (c : Char) (rest : List Char)
    (v : invoke_t σ) (s : σ) (ec : error_code) (o : option)
    (hfind : p.options_.find? (fun x => decide (x.val = (c.toNat : Int))) = some o)
    (hc : c ≠ '=') :
    parse_internal_short p (c :: rest) v s ec
      = if shortValue (c :: rest) ≠ none ∧ o.has_args = HasArgs.no_argument then
          ⟨false, p, s, ⟨"option '-".toList ++ [c] ++ "' unexpected parameter: ".toList
            ++ (shortValue (c :: rest)).getD [], 1⟩⟩
        else
          takeValue p v s ec "-".toList (c :: rest) (c.toNat : Int) o.has_args
            (shortValue (c :: rest)) (c :: rest) := by
  obtain ⟨hf, hval⟩ := findShort_some _ _ _ hfind
  have h0 : at_ (c :: rest) 0 = c := rfl
  simp only [parse_internal_short, h0, if_neg hc, hf, hval, toNat_ne_neg_one, if_false]
  split_ifs
  · simp [error_code.AssignCat, CatPieces]
  · rfl


/-- An option token, reached after tokens whose parse succeeded, at which the
option parser invokes the callback: the log of the whole parse is the log of the
tokens before, then this one call, then whatever later tokens add. -/
theorem Execute_call_at {σ : Type} (v : invoke_t σ) (pre post : List (List Char))
    (t : List Char) (se : Bool) (opts : List option) (s : σ) (ec : error_code)
    (r0 : Outcome (σ × List Call))
    (hpre : Execute (Parser.make pre se opts) (traced v) (s, []) ec = some r0)
    (hret : r0.ret = true) (hu : se = false ∨ r0.parser.uargs = [])
    (ch : Int) (oa : Option (List Char)) (raw : List Char) (j : Nat)
    (hp : parse_internal ⟨pre ++ ('-' :: t) :: post, pre.length, se, r0.parser.uargs, opts⟩
        ('-' :: t) (traced v) r0.cb r0.ec
      = invoke ⟨pre ++ ('-' :: t) :: post, j, se, r0.parser.uargs, opts⟩
          (traced v) r0.cb r0.ec ch oa raw) :
    ∃ r later, Execute (Parser.make (pre ++ ('-' :: t) :: post) se opts) (traced v) (s, []) ec
        = some r ∧
      r.cb.2 = r0.cb.2 ++ (⟨ch, oa, raw, (v r0.cb.1 ch oa raw).1⟩ : Call) :: later ∧
      r.ret = ((v r0.cb.1 ch oa raw).1 && r.ret) ∧
      ((pre ++ ('-' :: t) :: post).length ≤ j + 1 → later = [] ∧
        r.ret = (v r0.cb.1 ch oa raw).1) := by
  rw [Parser.make_eq] at hpre ⊢
  obtain ⟨_, _, h3⟩ := Execute_extend (traced v) pre (('-' :: t) :: post) 0 se [] opts
    (s, []) ec r0 hpre hret hu
  obtain ⟨i1, i2, i3⟩ := invoke_traced
    ⟨pre ++ ('-' :: t) :: post, j, se, r0.parser.uargs, opts⟩ v r0.cb r0.ec ch oa raw
  cases hres : (v r0.cb.1 ch oa raw).1
  · -- the callback returns false
    have hf := loop_at_fail (traced v) 0 pre post t se r0.parser.uargs opts r0.cb r0.ec
      (by rw [hp, i2, hres])
    refine ⟨_, [], h3 1 _ hf, ?_, ?_, fun _ => ⟨rfl, ?_⟩⟩
    · rw [hp, i1, hres]
    · rw [hp, i2, hres]; rfl
    · rw [hp, i2, hres]
  · -- the callback returns true
    have ho := loop_at_option (traced v) ((pre ++ ('-' :: t) :: post).length + 1)
      pre post t se r0.parser.uargs opts r0.cb r0.ec (by rw [hp, i2, hres])
    rw [hp, invoke_parser_eq] at ho
    simp only at ho
    obtain ⟨r, hr⟩ := loop_total (traced v) ((pre ++ ('-' :: t) :: post).length + 1)
      ⟨pre ++ ('-' :: t) :: post, j + 1, se, r0.parser.uargs, opts⟩
      (invoke ⟨pre ++ ('-' :: t) :: post, j, se, r0.parser.uargs, opts⟩
        (traced v) r0.cb r0.ec ch oa raw).cb
      (invoke ⟨pre ++ ('-' :: t) :: post, j, se, r0.parser.uargs, opts⟩
        (traced v) r0.cb r0.ec ch oa raw).ec
      (by simp only; omega)
    obtain ⟨later, hl1, hl2⟩ := loop_log v _ _ _ _ _ hr
    rw [← ho] at hr
    refine ⟨r, later, h3 _ _ hr, ?_, by simp, fun hlen => ⟨hl2 hlen, ?_⟩⟩
    · rw [hl1, i1, hres]; simp
    · rw [ho] at hr
      have hexit := loop_exit (traced v) ((pre ++ ('-' :: t) :: post).length)
        ⟨pre ++ ('-' :: t) :: post, j + 1, se, r0.parser.uargs, opts⟩
        (invoke ⟨pre ++ ('-' :: t) :: post, j, se, r0.parser.uargs, opts⟩
          (traced v) r0.cb r0.ec ch oa raw).cb
        (invoke ⟨pre ++ ('-' :: t) :: post, j, se, r0.parser.uargs, opts⟩
          (traced v) r0.cb r0.ec ch oa raw).ec (by simp only; omega)
      rw [hexit] at hr
      cases hr
      rfl


/-- C4 as stated fails, in two ways.  With the option `eq` declared with no
argument and id 61, the character code of `=`, the token `-=` does not invoke the
callback (the log stays empty); `Execute` returns false with the message
`unexpected argument '-='`.  And with `x` of optional arity registered with id 98
before `bool` of arity None with the same id, the token `-b=1` is parsed by the
first of the two: the callback is invoked with the value `1` and `Execute`
returns true. -/
theorem C4_counterexample_not_refused :
    ((61 : Int) = ('='.toNat : Int) ∧
      Execute (Parser.make ["prog".toList, ['-', '=']] false
          [⟨"eq".toList, HasArgs.no_argument, 61⟩])
        (traced (fun (s : Unit) _ _ _ => (true, s))) ((), []) error_code.init
        = some ⟨false, ⟨["prog".toList, ['-', '=']], 1, false, [],
              [⟨"eq".toList, HasArgs.no_argument, 61⟩]⟩, ((), []),
            ⟨"unexpected argument '-='".toList, 1⟩⟩) ∧
    Execute (Parser.make ["prog".toList, "-b=1".toList] false
        [⟨"x".toList, HasArgs.optional_argument, 98⟩,
         ⟨"bool".toList, HasArgs.no_argument, 98⟩])
      (traced (fun (s : Unit) _ _ _ => (true, s))) ((), []) error_code.init
      = some ⟨true, ⟨["prog".toList, "-b=1".toList], 2, false, [],
            [⟨"x".toList, HasArgs.optional_argument, 98⟩,
             ⟨"bool".toList, HasArgs.no_argument, 98⟩]⟩,
          ((), [⟨98, some "1".toList, "b=1".toList, true⟩]), error_code.init⟩ :=
  ⟨⟨by decide, by rfl⟩, by rfl⟩

/-- C4, amended.  Let the tokens `pre` parse successfully as an array of their
own (with subcommand mode on, without a positional token among them), so that
the main loop reaches the token after them.  For every character `c` other than
`-` and `=` such that the first descriptor registered with the character code of
`c` as id is declared with arity None: the token `-c` invokes the callback once
with that id and an absent value, and every token `-c=v` makes `Execute` return
false with kind 1 and the message `option '-c' unexpected parameter: v`, the
callback not being invoked for it. -/
theorem C4_no_argument_short {σ : Type} (v : invoke_t σ) (pre post : List (List Char))
    (se : Bool) (opts : List option) (s : σ) (ec : error_code)
    (r0 : Outcome (σ × List Call)) (c : Char) (o : option)
    (hpre : Execute (Parser.make pre se opts) (traced v) (s, []) ec = some r0)
    (hret : r0.ret = true) (hu : se = false ∨ r0.parser.uargs = [])
    (hfind : opts.find? (fun x => decide (x.val = (c.toNat : Int))) = some o)
    (harity : o.has_args = HasArgs.no_argument) (hc1 : c ≠ '-') (hc2 : c ≠ '=') :
    (∃ r later, Execute (Parser.make (pre ++ ['-', c] :: post) se opts) (traced v) (s, []) ec
        = some r ∧
      r.cb.2 = r0.cb.2 ++
        (⟨(c.toNat : Int), none, [c], (v r0.cb.1 (c.toNat : Int) none [c]).1⟩ : Call) :: later ∧
      (post = [] → later = [])) ∧
    (∀ val : List Char,
      Execute (Parser.make (pre ++ ('-' :: c :: '=' :: val) :: post) se opts)
          (traced v) (s, []) ec
        = some ⟨false,
            ⟨pre ++ ('-' :: c :: '=' :: val) :: post, pre.length, se, r0.parser.uargs, opts⟩,
            r0.cb,
            ⟨"option '-".toList ++ [c] ++ "' unexpected parameter: ".toList ++ val, 1⟩⟩) := by
  constructor
  · -- the token `-c`
    have hp : parse_internal ⟨pre ++ ['-', c] :: post, pre.length, se, r0.parser.uargs, opts⟩
        ['-', c] (traced v) r0.cb r0.ec
        = invoke ⟨pre ++ ['-', c] :: post, pre.length, se, r0.parser.uargs, opts⟩
            (traced v) r0.cb r0.ec (c.toNat : Int) none [c] := by
      rw [parse_internal_short_token _ _ _ _ _ _ hc1,
        parse_short_found _ c [] _ _ _ o hfind hc2, shortValue_one]
      simp [takeValue, harity]
    obtain ⟨r, later, h1, h2, _, h4⟩ :=
      Execute_call_at v pre post [c] se opts s ec r0 hpre hret hu _ _ _ _ hp
    refine ⟨r, later, h1, h2, fun hpost => (h4 ?_).1⟩
    subst hpost
    simp
  · -- the tokens `-c=v`
    intro val
    rw [Parser.make_eq] at hpre ⊢
    obtain ⟨_, _, h3⟩ := Execute_extend (traced v) pre (('-' :: c :: '=' :: val) :: post)
      0 se [] opts (s, []) ec r0 hpre hret hu
    apply h3 1
    have hp : parse_internal
        ⟨pre ++ ('-' :: c :: '=' :: val) :: post, pre.length, se, r0.parser.uargs, opts⟩
        ('-' :: c :: '=' :: val) (traced v) r0.cb r0.ec
        = ⟨false,
            ⟨pre ++ ('-' :: c :: '=' :: val) :: post, pre.length, se, r0.parser.uargs, opts⟩,
            r0.cb,
            ⟨"option '-".toList ++ [c] ++ "' unexpected parameter: ".toList ++ val, 1⟩⟩ := by
      rw [parse_internal_short_token _ _ _ _ _ _ hc1,
        parse_short_found _ c ('=' :: val) _ _ _ o hfind hc2, shortValue_eq]
      simp [harity]
    rw [loop_at_fail (traced v) 0 pre post (c :: '=' :: val) se _ opts r0.cb r0.ec
      (by rw [hp]), hp]

/-- C4, amended, at the option `b` declared with no argument and id 98: `-b`
gives one call with an absent value, and `-b=1` fails with
`option '-b' unexpected parameter: 1`. -/
theorem C4_no_argument_short_witness :
    (∃ r later, Execute (Parser.make (["prog".toList] ++ ['-', 'b'] :: []) false
          [⟨"bool".toList, HasArgs.no_argument, 98⟩])
        (traced (fun (s : Unit) _ _ _ => (true, s))) ((), []) error_code.init = some r ∧
      r.cb.2 = [] ++ (⟨98, none, ['b'], true⟩ : Call) :: later ∧
      (([] : List (List Char)) = [] → later = [])) ∧
    (∀ val : List Char,
      Execute (Parser.make (["prog".toList] ++ ('-' :: 'b' :: '=' :: val) :: []) false
          [⟨"bool".toList, HasArgs.no_argument, 98⟩])
        (traced (fun (s : Unit) _ _ _ => (true, s))) ((), []) error_code.init
        = some ⟨false,
            ⟨["prog".toList] ++ ('-' :: 'b' :: '=' :: val) :: [], 1, false, [],
              [⟨"bool".toList, HasArgs.no_argument, 98⟩]⟩,
            ((), []),
            ⟨"option '-".toList ++ ['b'] ++ "' unexpected parameter: ".toList ++ val, 1⟩⟩) :=
  C4_no_argument_short (fun (s : Unit) _ _ _ => (true, s)) ["prog".toList] [] false
    [⟨"bool".toList, HasArgs.no_argument, 98⟩] () error_code.init
    ⟨true, ⟨["prog".toList], 1, false, [], [⟨"bool".toList, HasArgs.no_argument, 98⟩]⟩,
      ((), []), error_code.init⟩
    'b' ⟨"bool".toList, HasArgs.no_argument, 98⟩
    (by rfl) (by rfl) (Or.inl rfl) (by rfl) (by rfl) (by decide) (by decide)


/-- C3 as stated fails, in two ways.  With the option `dash` declared Required
with id 45, the character code of `-`, the spelling `-cv` for `v = 11` is the
token `--11`; it is read as a long option, the callback is not invoked (the log
stays empty) and `Execute` returns false with `unregistered option '--11'`.  And
with `x` of arity None registered with id 105 before the Required `input` with
the same id, the spelling `-i11` is parsed by the first of the two: `Execute`
fails with `option '-i' unexpected parameter: 11` and the callback is not
invoked. -/
theorem C3_counterexample_not_invoked :
    ((45 : Int) = ('-'.toNat : Int) ∧
      Execute (Parser.make ["prog".toList, '-' :: '-' :: "11".toList] false
          [⟨"dash".toList, HasArgs.required_argument, 45⟩])
        (traced (fun (s : Unit) _ _ _ => (true, s))) ((), []) error_code.init
        = some ⟨false, ⟨["prog".toList, '-' :: '-' :: "11".toList], 1, false, [],
              [⟨"dash".toList, HasArgs.required_argument, 45⟩]⟩, ((), []),
            ⟨"unregistered option '--11'".toList, 1⟩⟩) ∧
    Execute (Parser.make ["prog".toList, "-i11".toList] false
        [⟨"x".toList, HasArgs.no_argument, 105⟩,
         ⟨"input".toList, HasArgs.required_argument, 105⟩])
      (traced (fun (s : Unit) _ _ _ => (true, s))) ((), []) error_code.init
      = some ⟨false, ⟨["prog".toList, "-i11".toList], 1, false, [],
            [⟨"x".toList, HasArgs.no_argument, 105⟩,
             ⟨"input".toList, HasArgs.required_argument, 105⟩]⟩, ((), []),
          ⟨"option '-i' unexpected parameter: 11".toList, 1⟩⟩ :=
  ⟨⟨by decide, by rfl⟩, by rfl⟩

/-- C3, amended.  Let the tokens `pre` parse successfully as an array of their
own (with subcommand mode on, without a positional token among them), so that
the main loop reaches the token after them.  For every character `c` other than
`-` and `=` such that the first descriptor registered with the character code of
`c` as id is declared Required, and every value `val` that is not empty and does
not begin with `=`: each of the spellings `-cval`, `-c=val` and `-c` `val` (two
tokens), standing after `pre`, invokes the callback exactly once for the option,
with that id and the value `val`; what the log holds after that call comes from
the tokens after the spelling. -/
theorem C3_required_short_spellings {σ : Type} (v : invoke_t σ)
    (pre post : List (List Char)) (se : Bool) (opts : List option) (s : σ)
    (ec : error_code) (r0 : Outcome (σ × List Call)) (c : Char) (o : option)
    (val : List Char)
    (hpre : Execute (Parser.make pre se opts) (traced v) (s, []) ec = some r0)
    (hret : r0.ret = true) (hu : se = false ∨ r0.parser.uargs = [])
    (hfind : opts.find? (fun x => decide (x.val = (c.toNat : Int))) = some o)
    (harity : o.has_args = HasArgs.required_argument) (hc1 : c ≠ '-') (hc2 : c ≠ '=')
    (hv1 : val ≠ []) (hv2 : val.head? ≠ some '=') :
    ∀ sp ∈ [ ([ '-' :: c :: val ], c :: val),
             ([ '-' :: c :: '=' :: val ], c :: '=' :: val),
             ([ ['-', c], val ], [c]) ],
      ∃ r later, Execute (Parser.make (pre ++ sp.1 ++ post) se opts) (traced v) (s, []) ec
          = some r ∧
        r.cb.2 = r0.cb.2 ++
          (⟨(c.toNat : Int), some val, sp.2,
            (v r0.cb.1 (c.toNat : Int) (some val) sp.2).1⟩ : Call) :: later ∧
        (post = [] → later = []) := by
  intro sp hsp
  simp only [List.mem_cons, List.mem_singleton, List.not_mem_nil, or_false] at hsp
  rcases hsp with rfl | rfl | rfl
  · -- `-cval`
    simp only [List.append_assoc, List.singleton_append]
    have hp : parse_internal
        ⟨pre ++ ('-' :: c :: val) :: post, pre.length, se, r0.parser.uargs, opts⟩
        ('-' :: c :: val) (traced v) r0.cb r0.ec
        = invoke ⟨pre ++ ('-' :: c :: val) :: post, pre.length, se, r0.parser.uargs, opts⟩
            (traced v) r0.cb r0.ec (c.toNat : Int) (some val) (c :: val) := by
      rw [parse_internal_short_token _ _ _ _ _ _ hc1,
        parse_short_found _ c val _ _ _ o hfind hc2, shortValue_fused c val hv1 hv2]
      simp [takeValue, harity]
    obtain ⟨r, later, h1, h2, _, h4⟩ :=
      Execute_call_at v pre post (c :: val) se opts s ec r0 hpre hret hu _ _ _ _ hp
    refine ⟨r, later, h1, h2, fun hpost => (h4 ?_).1⟩
    subst hpost
    simp
  · -- `-c=val`
    simp only [List.append_assoc, List.singleton_append]
    have hp : parse_internal
        ⟨pre ++ ('-' :: c :: '=' :: val) :: post, pre.length, se, r0.parser.uargs, opts⟩
        ('-' :: c :: '=' :: val) (traced v) r0.cb r0.ec
        = invoke ⟨pre ++ ('-' :: c :: '=' :: val) :: post, pre.length, se, r0.parser.uargs, opts⟩
            (traced v) r0.cb r0.ec (c.toNat : Int) (some val) (c :: '=' :: val) := by
      rw [parse_internal_short_token _ _ _ _ _ _ hc1,
        parse_short_found _ c ('=' :: val) _ _ _ o hfind hc2, shortValue_eq]
      simp [takeValue, harity]
    obtain ⟨r, later, h1, h2, _, h4⟩ :=
      Execute_call_at v pre post (c :: '=' :: val) se opts s ec r0 hpre hret hu _ _ _ _ hp
    refine ⟨r, later, h1, h2, fun hpost => (h4 ?_).1⟩
    subst hpost
    simp
  · -- `-c` and then `val`
    simp only [List.append_assoc, List.cons_append, List.nil_append]
    have hp : parse_internal
        ⟨pre ++ ['-', c] :: val :: post, pre.length, se, r0.parser.uargs, opts⟩
        ['-', c] (traced v) r0.cb r0.ec
        = invoke ⟨pre ++ ['-', c] :: val :: post, pre.length + 1, se, r0.parser.uargs, opts⟩
            (traced v) r0.cb r0.ec (c.toNat : Int) (some val) [c] := by
      rw [parse_internal_short_token _ _ _ _ _ _ hc1,
        parse_short_found _ c [] _ _ _ o hfind hc2, shortValue_one]
      simp only [takeValue, harity, and_self, if_true, ne_eq, not_true_eq_false, false_and,
        if_false, getD_after_end]
      rw [if_neg (by simp)]
    obtain ⟨r, later, h1, h2, _, h4⟩ :=
      Execute_call_at v pre (val :: post) [c] se opts s ec r0 hpre hret hu _ _ _ _ hp
    refine ⟨r, later, h1, h2, fun hpost => (h4 ?_).1⟩
    subst hpost
    simp

/-- C3, amended, at the option `i` declared Required with id 105 and the value
`11`: `-i11`, `-i=11` and `-i 11` each give one call with the value `11`. -/
theorem C3_required_short_spellings_witness :
    (∃ r later, Execute (Parser.make (["prog".toList] ++ ["-i11".toList] ++ []) false
            [⟨"input".toList, HasArgs.required_argument, 105⟩])
          (traced (fun (s : Unit) _ _ _ => (true, s))) ((), []) error_code.init = some r ∧
        r.cb.2 = [] ++ (⟨105, some "11".toList, "i11".toList, true⟩ : Call) :: later ∧
        (([] : List (List Char)) = [] → later = [])) ∧
    (∃ r later, Execute (Parser.make (["prog".toList] ++ ["-i=11".toList] ++ []) false
            [⟨"input".toList, HasArgs.required_argument, 105⟩])
          (traced (fun (s : Unit) _ _ _ => (true, s))) ((), []) error_code.init = some r ∧
        r.cb.2 = [] ++ (⟨105, some "11".toList, "i=11".toList, true⟩ : Call) :: later ∧
        (([] : List (List Char)) = [] → later = [])) ∧
    (∃ r later, Execute (Parser.make (["prog".toList] ++ ["-i".toList, "11".toList] ++ []) false
            [⟨"input".toList, HasArgs.required_argument, 105⟩])
          (traced (fun (s : Unit) _ _ _ => (true, s))) ((), []) error_code.init = some r ∧
        r.cb.2 = [] ++ (⟨105, some "11".toList, "i".toList, true⟩ : Call) :: later ∧
        (([] : List (List Char)) = [] → later = [])) :=
  ⟨C3_required_short_spellings (fun (s : Unit) _ _ _ => (true, s)) ["prog".toList] [] false
      [⟨"input".toList, HasArgs.required_argument, 105⟩] () error_code.init
      ⟨true, ⟨["prog".toList], 1, false, [], [⟨"input".toList, HasArgs.required_argument, 105⟩]⟩,
        ((), []), error_code.init⟩
      'i' ⟨"input".toList, HasArgs.required_argument, 105⟩ "11".toList
      (by rfl) (by rfl) (Or.inl rfl) (by rfl) (by rfl) (by decide) (by decide) (by decide)
      (by decide) (["-i11".toList], "i11".toList) (by decide),
   C3_required_short_spellings (fun (s : Unit) _ _ _ => (true, s)) ["prog".toList] [] false
      [⟨"input".toList, HasArgs.required_argument, 105⟩] () error_code.init
      ⟨true, ⟨["prog".toList], 1, false, [], [⟨"input".toList, HasArgs.required_argument, 105⟩]⟩,
        ((), []), error_code.init⟩
      'i' ⟨"input".toList, HasArgs.required_argument, 105⟩ "11".toList
      (by rfl) (by rfl) (Or.inl rfl) (by rfl) (by rfl) (by decide) (by decide) (by decide)
      (by decide) (["-i=11".toList], "i=11".toList) (by decide),
   C3_required_short_spellings (fun (s : Unit) _ _ _ => (true, s)) ["prog".toList] [] false
      [⟨"input".toList, HasArgs.required_argument, 105⟩] () error_code.init
      ⟨true, ⟨["prog".toList], 1, false, [], [⟨"input".toList, HasArgs.required_argument, 105⟩]⟩,
        ((), []), error_code.init⟩
      'i' ⟨"input".toList, HasArgs.required_argument, 105⟩ "11".toList
      (by rfl) (by rfl) (Or.inl rfl) (by rfl) (by rfl) (by decide) (by decide) (by decide)
      (by decide) (["-i".toList, "11".toList], "i".toList) (by decide)⟩

/-! ## Error outcome and return value -/

/-- On a true return the main loop leaves the error outcome as it found it. -/
theorem loop_true_ec {σ : Type} (v : invoke_t σ) :
    ∀ (fuel : Nat) (p : Parser) (s : σ) (ec : error_code) (r : Outcome σ),
      Execute.loop v fuel p s ec = some r → r.ret = true → r.ec = ec := by
  apply loop_induct v (fun _ _ ec r => r.ret = true → r.ec = ec)
  · intro p s ec _ _; rfl
  · intro p s ec _ _ _ _; rfl
  · intro p s ec r _ _ _ ih h; exact ih h
  · intro p s ec _ _ hr h; rw [hr] at h; cases h
  · intro p s ec r _ _ hr ih h
    rw [ih h]
    rcases parse_internal_stepped p (p.argv_.getD p.index []) v s ec with
      ⟨msg, h1⟩ | ⟨ch, oa, raw, h1⟩ | ⟨ch, raw, _, h1⟩
    · rw [h1] at hr; cases hr
    · rw [h1] at hr ⊢
      rw [invoke_ret] at hr
      rw [invoke_ec, hr]; rfl
    · rw [h1] at hr ⊢
      rw [invoke_ret] at hr
      rw [invoke_ec, hr]; rfl

theorem Execute_true_ec {σ : Type} (v : invoke_t σ) (p : Parser) (s : σ)
    (ec : error_code) (r : Outcome σ) (h : Execute p v s ec = some r)
    (hret : r.ret = true) : r.ec = ec := by
  by_cases hlen : p.argv_.length = 0
  · rw [Execute, if_pos hlen] at h
    cases h
    cases hret
  · rw [Execute, if_neg hlen] at h
    exact loop_true_ec v _ _ s ec r h hret

/-- C6 as stated fails when token `k` is the value of the option before it.
With subcommand mode on and `input` declared Required with id 105, in `prog -i
sub a b` the token at index 1 is a successfully parsed option and the token at
index `k = 2`, `sub`, does not begin with `-`; yet `sub` is taken as the value of
`-i`, the capture starts at `a`, and `UnresolvedArgs` is `a b`, not `sub a b`. -/
theorem C6_counterexample_value_taken :
    Execute (Parser.make ["prog".toList, "-i".toList, "sub".toList, "a".toList, "b".toList]
        true [⟨"input".toList, HasArgs.required_argument, 105⟩])
      (traced (fun (s : Unit) _ _ _ => (true, s))) ((), []) error_code.init
      = some ⟨true,
          ⟨["prog".toList, "-i".toList, "sub".toList, "a".toList, "b".toList], 3, true,
            ["a".toList, "b".toList], [⟨"input".toList, HasArgs.required_argument, 105⟩]⟩,
          ((), [⟨105, some "sub".toList, "i".toList, true⟩]), error_code.init⟩ ∧
    ["a".toList, "b".toList] ≠ ["sub".toList, "a".toList, "b".toList] :=
  ⟨by rfl, by decide⟩

/-- C6, amended: with subcommand mode on, when the tokens before index
`k = pre.length` parse successfully as an array of their own and capture nothing
(each of them is a successfully parsed option or a value an option consumed, and
none of them is left to take token `k` as its value) and token `k` is empty or
does not begin with `-`, `Execute` returns true, `UnresolvedArgs` is exactly the
tokens from `k` on, in order and verbatim, and the callback state and the error
outcome are those the tokens before `k` left: no token from `k` on is read as an
option, even if it begins with `-`. -/
theorem C6_subcommand_capture {σ : Type} (v : invoke_t σ) (pre post : List (List Char))
    (t : List Char) (opts : List option) (s : σ) (ec : error_code) (r0 : Outcome σ)
    (hpre : Execute (Parser.make pre true opts) v s ec = some r0)
    (hret : r0.ret = true) (hu : r0.parser.uargs = [])
    (ht : t = [] ∨ t.head? ≠ some '-') :
    ∃ r, Execute (Parser.make (pre ++ t :: post) true opts) v s ec = some r ∧
      r.ret = true ∧
      r.parser.UnresolvedArgs = t :: post ∧
      r.parser.UnresolvedArgs = (pre ++ t :: post).drop pre.length ∧
      1 ≤ pre.length ∧
      r.cb = r0.cb ∧ r.ec = ec := by
  have hec := Execute_true_ec v _ s ec r0 hpre hret
  rw [Parser.make_eq] at hpre ⊢
  obtain ⟨hne, _, h3⟩ := Execute_extend v pre (t :: post) 0 true [] opts s ec r0
    hpre hret (Or.inr hu)
  have hc := loop_capture v 0 ⟨pre ++ t :: post, pre.length, true, r0.parser.uargs, opts⟩
    r0.cb r0.ec (by simp) (by simp only [getD_at_end]; exact ht) rfl
  refine ⟨_, h3 1 _ hc, rfl, ?_, ?_, ?_, rfl, hec⟩
  · simp [Parser.UnresolvedArgs, hu]
  · simp [Parser.UnresolvedArgs, hu]
  · exact List.length_pos.2 hne

/-- C6 at the registry `flag` (no argument) and the tokens
`prog --flag sub a b`: one call for `flag`, then `sub a b` captured. -/
theorem C6_subcommand_capture_witness :
    ∃ r, Execute (Parser.make (["prog".toList, "--flag".toList] ++
            "sub".toList :: ["a".toList, "b".toList]) true
          [⟨"flag".toList, HasArgs.no_argument, 102⟩])
        (traced (fun (s : Unit) _ _ _ => (true, s))) ((), []) error_code.init = some r ∧
      r.ret = true ∧
      r.parser.UnresolvedArgs = "sub".toList :: ["a".toList, "b".toList] ∧
      r.parser.UnresolvedArgs = (["prog".toList, "--flag".toList] ++
            "sub".toList :: ["a".toList, "b".toList]).drop
          ["prog".toList, "--flag".toList].length ∧
      1 ≤ ["prog".toList, "--flag".toList].length ∧
      r.cb = ((), [(⟨102, none, "flag".toList, true⟩ : Call)]) ∧ r.ec = error_code.init :=
  C6_subcommand_capture (traced (fun (s : Unit) _ _ _ => (true, s)))
    ["prog".toList, "--flag".toList] ["a".toList, "b".toList] "sub".toList
    [⟨"flag".toList, HasArgs.no_argument, 102⟩] ((), []) error_code.init
    ⟨true, ⟨["prog".toList, "--flag".toList], 2, true, [],
        [⟨"flag".toList, HasArgs.no_argument, 102⟩]⟩,
      ((), [⟨102, none, "flag".toList, true⟩]), error_code.init⟩
    (by rfl) (by rfl) (by rfl) (by decide)


/-- How a run of the main loop ends, given that every call logged before it
returned true: with a true return, the error outcome untouched and every logged
call true; or with a failure of kind 1 and every logged call true; or with the
failure "skip parse", the last logged call being the only one that returned
false. -/
theorem loop_ends {σ : Type} (v : invoke_t σ) :
    ∀ (fuel : Nat) (p : Parser) (s : σ × List Call) (ec : error_code)
      (r : Outcome (σ × List Call)),
      Execute.loop (traced v) fuel p s ec = some r →
      (∀ c ∈ s.2, c.result = true) →
      (r.ret = true ∧ r.ec = ec ∧ ∀ c ∈ r.cb.2, c.result = true) ∨
      (r.ret = false ∧ r.ec.ec = 1 ∧ ∀ c ∈ r.cb.2, c.result = true) ∨
      (r.ret = false ∧ r.ec = ⟨"skip parse".toList, SkipParse⟩ ∧
        ∃ (init : List Call) (c : Call), r.cb.2 = init ++ [c] ∧ c.result = false ∧ ∀ x ∈ init, x.result = true) := by
  apply loop_induct (traced v)
    (fun _ s ec r => (∀ c ∈ s.2, c.result = true) →
      (r.ret = true ∧ r.ec = ec ∧ ∀ c ∈ r.cb.2, c.result = true) ∨
      (r.ret = false ∧ r.ec.ec = 1 ∧ ∀ c ∈ r.cb.2, c.result = true) ∨
      (r.ret = false ∧ r.ec = ⟨"skip parse".toList, SkipParse⟩ ∧
        ∃ (init : List Call) (c : Call), r.cb.2 = init ++ [c] ∧ c.result = false ∧ ∀ x ∈ init, x.result = true))
  · intro p s ec _ hs
    exact Or.inl ⟨rfl, rfl, hs⟩
  · intro p s ec _ _ _ hs
    exact Or.inl ⟨rfl, rfl, hs⟩
  · intro p s ec r _ _ _ ih hs
    exact ih hs
  · intro p s ec _ _ hr hs
    rcases parse_internal_traced p (p.argv_.getD p.index []) v s ec with
      ⟨h1, h2, h3⟩ | ⟨c, h1, h2, h3⟩
    · exact Or.inr (Or.inl ⟨h2, h3, by rw [h1]; exact hs⟩)
    · rw [hr] at h2
      refine Or.inr (Or.inr ⟨hr, ?_, s.2, c, h1, h2.symm, hs⟩)
      rw [h3, ← h2]; rfl
  · intro p s ec r _ _ hr ih hs
    rcases parse_internal_traced p (p.argv_.getD p.index []) v s ec with
      ⟨_, h2, _⟩ | ⟨c, h1, h2, h3⟩
    · rw [hr] at h2; cases h2
    · rw [hr] at h2
      have hec : (parse_internal p (p.argv_.getD p.index []) (traced v) s ec).ec = ec := by
        rw [h3, ← h2]; rfl
      rw [hec] at ih
      apply ih
      intro x hx
      rw [h1] at hx
      rcases List.mem_append.1 hx with hx | hx
      · exact hs x hx
      · rw [List.mem_singleton.1 hx]; exact h2.symm

/-- C10: from an error outcome of kind `None`, `Execute` returns false exactly
when the error outcome afterwards is failed; on a false return the kind is
`SkipParse` when a call of the callback returned false and `ErrorNormal` (1)
when none did, the empty argument array included; on a true return the error
outcome is unchanged. -/
theorem C10_return_and_error {σ : Type} (v : invoke_t σ) (p : Parser) (s : σ)
    (ec : error_code) (h0 : ec.ec = None) :
    ∃ r, Execute p (traced v) (s, []) ec = some r ∧
      (r.ret = false ↔ r.ec.toBool = true) ∧
      (r.ret = false → (∃ c ∈ r.cb.2, c.result = false) → r.ec.ec = SkipParse) ∧
      (r.ret = false → (¬ ∃ c ∈ r.cb.2, c.result = false) → r.ec.ec = ErrorNormal) ∧
      (p.argv_ = [] → r.ret = false ∧ r.ec.ec = ErrorNormal ∧ r.cb.2 = []) ∧
      (r.ret = true → r.ec = ec) := by
  by_cases hlen : p.argv_.length = 0
  · refine ⟨⟨false, p, (s, []), ec.Assign "the command line array is empty.".toList⟩,
      by rw [Execute, if_pos hlen], ?_, ?_, ?_, ?_, ?_⟩
    · simp [error_code.toBool, error_code.Assign, ErrorNormal, None]
    · intro _ h; simp at h
    · intro _ _; rfl
    · intro _; exact ⟨rfl, rfl, rfl⟩
    · intro h; cases h
  · obtain ⟨r, hr⟩ := Execute_total (traced v) p (s, []) ec
    refine ⟨r, hr, ?_⟩
    have hne : p.argv_ ≠ [] := fun h => hlen (by rw [h]; rfl)
    rw [Execute, if_neg hlen] at hr
    rcases loop_ends v _ _ _ _ _ hr (by simp) with
      ⟨h1, h2, h3⟩ | ⟨h1, h2, h3⟩ | ⟨h1, h2, init, c, h3, h4, h5⟩
    · refine ⟨?_, ?_, ?_, fun h => absurd h hne, fun _ => h2⟩
      · rw [h1, h2]; simp [error_code.toBool, h0]
      · intro h; rw [h1] at h; cases h
      · intro h; rw [h1] at h; cases h
    · refine ⟨?_, ?_, ?_, fun h => absurd h hne, ?_⟩
      · rw [h1]; simp [error_code.toBool, h2, None]
      · rintro _ ⟨c, hc, hf⟩
        rw [h3 c hc] at hf; cases hf
      · intro _ _; exact h2
      · intro h; rw [h1] at h; cases h
    · refine ⟨?_, ?_, ?_, fun h => absurd h hne, ?_⟩
      · rw [h1, h2]; simp [error_code.toBool, SkipParse, None]
      · intro _ _; rw [h2]
      · intro _ hn
        exact absurd ⟨c, by rw [h3]; simp, h4⟩ hn
      · intro h; rw [h1] at h; cases h

/-- C10 at the tokens `prog -x` with nothing registered: a false return with
kind 1. -/
theorem C10_return_and_error_witness :
    ∃ r, Execute (Parser.make ["prog".toList, "-x".toList] false [])
        (traced (fun (s : Unit) _ _ _ => (true, s))) ((), []) error_code.init = some r ∧
      (r.ret = false ↔ r.ec.toBool = true) ∧
      (r.ret = false → (∃ c ∈ r.cb.2, c.result = false) → r.ec.ec = SkipParse) ∧
      (r.ret = false → (¬ ∃ c ∈ r.cb.2, c.result = false) → r.ec.ec = ErrorNormal) ∧
      ((Parser.make ["prog".toList, "-x".toList] false []).argv_ = [] →
        r.ret = false ∧ r.ec.ec = ErrorNormal ∧ r.cb.2 = []) ∧
      (r.ret = true → r.ec = error_code.init) :=
  C10_return_and_error (fun (s : Unit) _ _ _ => (true, s))
    (Parser.make ["prog".toList, "-x".toList] false []) () error_code.init (by rfl)


theorem take_of_take {α : Type} (l l2 : List α) (j k : Nat) (hjk : j ≤ k)
    (h : l2.take k = l.take k) : l2.take j = l.take j := by
  have h1 := congrArg (List.take j) h
  rwa [List.take_take, List.take_take, Nat.min_eq_left hjk] at h1

/-- A run that the callback stops reads nothing beyond the token it stops at:
the run ends inside the array, and on every array with the same tokens up to
that index it ends the same way. -/
theorem loop_skip_local {σ : Type} (v : invoke_t σ) :
    ∀ (fuel : Nat) (p : Parser) (s : σ) (ec : error_code) (r : Outcome σ),
      Execute.loop v fuel p s ec = some r →
      r.ret = false → r.ec.ec = SkipParse →
      p.index ≤ r.parser.index ∧ r.parser.index < p.argv_.length ∧
      ∀ argv2 : List (List Char),
        argv2.take (r.parser.index + 1) = p.argv_.take (r.parser.index + 1) →
        ∃ fuel2, Execute.loop v fuel2 { p with argv_ := argv2 } s ec
          = some { r with parser := { r.parser with argv_ := argv2 } } := by
  apply loop_induct v
    (fun p s ec r => r.ret = false → r.ec.ec = SkipParse →
      p.index ≤ r.parser.index ∧ r.parser.index < p.argv_.length ∧
      ∀ argv2 : List (List Char),
        argv2.take (r.parser.index + 1) = p.argv_.take (r.parser.index + 1) →
        ∃ fuel2, Execute.loop v fuel2 { p with argv_ := argv2 } s ec
          = some { r with parser := { r.parser with argv_ := argv2 } })
  · intro p s ec _ h; cases h
  · intro p s ec _ _ _ h; cases h
  · -- a positional token
    intro p s ec r hi ha hs ih hret hec
    obtain ⟨argv, i, se, u, opts⟩ := p
    simp only at hi ha hs ih ⊢
    obtain ⟨h1, h2, h3⟩ := ih hret hec
    refine ⟨by omega, h2, fun argv2 hag => ?_⟩
    obtain ⟨fuel2, h4⟩ := h3 argv2 hag
    obtain ⟨hlt, hget⟩ := take_agree argv argv2 r.parser.index [] hag h2
    have hstep := loop_positional v fuel2 ⟨argv2, i, se, u, opts⟩ s ec
      (by simp only; omega) (by simp only [hget i (by omega)]; exact ha) hs
    simp only [hget i (by omega)] at hstep
    exact ⟨fuel2 + 1, by rw [hstep]; exact h4⟩
  · -- the option parser fails: the callback returned false
    intro p s ec hi ha hr _ hec
    have hst := (parse_internal_stepped p (p.argv_.getD p.index []) v s ec).parser_eq
    obtain ⟨argv, i, se, u, opts⟩ := p
    simp only at hi ha hr hec hst ⊢
    have hidx : i ≤ (parse_internal ⟨argv, i, se, u, opts⟩ (argv.getD i []) v s ec).parser.index ∧
        (parse_internal ⟨argv, i, se, u, opts⟩ (argv.getD i []) v s ec).parser.index
          < argv.length := by
      rcases hst with h | ⟨hlt, h⟩ <;> rw [h] <;> simp only <;> omega
    refine ⟨hidx.1, hidx.2, fun argv2 hag => ?_⟩
    obtain ⟨hlt, hget⟩ := take_agree argv argv2 _ [] hag hidx.2
    have hcong := parse_internal_congr ⟨argv, i, se, u, opts⟩ ⟨argv2, i, se, u, opts⟩
      (argv.getD i []) v s ec rfl rfl (Or.inr hec) hag
    simp only at hcong
    have hfields : (parse_internal ⟨argv, i, se, u, opts⟩ (argv.getD i []) v s ec).parser
        = ⟨argv, (parse_internal ⟨argv, i, se, u, opts⟩ (argv.getD i []) v s ec).parser.index,
            se, u, opts⟩ := by
      rcases hst with h | ⟨hlt, h⟩ <;> rw [h]
    have hstep := loop_fail v 0 ⟨argv2, i, se, u, opts⟩ s ec
      (by simp only; omega) (by simp only [hget i hidx.1]; exact ha)
      (by simp only [hget i hidx.1]; rw [hcong]; exact hr)
    simp only [hget i hidx.1, hcong] at hstep
    refine ⟨1, ?_⟩
    rw [hstep]
    conv_rhs => rw [hfields]
  · -- an option is parsed
    intro p s ec r hi ha hr ih hret hec
    have hst := (parse_internal_stepped p (p.argv_.getD p.index []) v s ec).parser_eq
    obtain ⟨argv, i, se, u, opts⟩ := p
    simp only at hi ha hr ih hst ⊢
    have hfields : (parse_internal ⟨argv, i, se, u, opts⟩ (argv.getD i []) v s ec).parser
        = ⟨argv, (parse_internal ⟨argv, i, se, u, opts⟩ (argv.getD i []) v s ec).parser.index,
            se, u, opts⟩ := by
      rcases hst with h | ⟨hlt, h⟩ <;> rw [h]
    have hidx : i ≤ (parse_internal ⟨argv, i, se, u, opts⟩ (argv.getD i []) v s ec).parser.index := by
      rcases hst with h | ⟨hlt, h⟩
      · rw [h]
      · rw [h]; exact Nat.le_succ i
    rw [hfields] at ih
    simp only at ih
    obtain ⟨h1, h2, h3⟩ := ih hret hec
    refine ⟨by omega, h2, fun argv2 hag => ?_⟩
    obtain ⟨fuel2, h4⟩ := h3 argv2 hag
    obtain ⟨hlt, hget⟩ := take_agree argv argv2 r.parser.index [] hag h2
    have hcong := parse_internal_congr ⟨argv, i, se, u, opts⟩ ⟨argv2, i, se, u, opts⟩
      (argv.getD i []) v s ec rfl rfl (Or.inl hr)
      (take_of_take argv argv2 _ _ (by omega) hag)
    simp only at hcong
    have hstep := loop_option v fuel2 ⟨argv2, i, se, u, opts⟩ s ec
      (by simp only; omega) (by simp only [hget i (by omega)]; exact ha)
      (by simp only [hget i (by omega)]; rw [hcong]; exact hr)
    simp only [hget i (by omega), hcong] at hstep
    exact ⟨fuel2 + 1, by rw [hstep]; exact h4⟩


/-- C9: when some invocation of the callback returns false, `Execute` returns
false with kind `SkipParse` and the message `skip parse`; that invocation is the
last one (every earlier one returned true, so if it is the `j`-th the callback
was invoked `j` times in all); and nothing after the token the parse stopped at
is read: the cursor is inside the array, and on every array that has the same
tokens up to the cursor the parse ends with the same return value, error,
callback state, log and positional tokens. -/
theorem C9_callback_false_stops {σ : Type} (v : invoke_t σ) (p : Parser) (s : σ)
    (ec : error_code) :
    ∃ r, Execute p (traced v) (s, []) ec = some r ∧
      ((∃ c ∈ r.cb.2, c.result = false) →
        r.ret = false ∧ r.ec = ⟨"skip parse".toList, SkipParse⟩ ∧
        (∃ (init : List Call) (c : Call), r.cb.2 = init ++ [c] ∧ c.result = false ∧
          (∀ x ∈ init, x.result = true) ∧ r.cb.2.length = init.length + 1) ∧
        r.parser.index < p.argv_.length ∧
        ∀ argv2 : List (List Char),
          argv2.take (r.parser.index + 1) = p.argv_.take (r.parser.index + 1) →
          Execute { p with argv_ := argv2 } (traced v) (s, []) ec
            = some { r with parser := { r.parser with argv_ := argv2 } }) := by
  obtain ⟨r, hr⟩ := Execute_total (traced v) p (s, []) ec
  refine ⟨r, hr, ?_⟩
  rintro ⟨c, hc, hf⟩
  by_cases hlen : p.argv_.length = 0
  · rw [Execute, if_pos hlen] at hr
    cases hr
    simp at hc
  · rw [Execute, if_neg hlen] at hr
    rcases loop_ends v _ _ _ _ _ hr (by simp) with
      ⟨_, _, h3⟩ | ⟨_, _, h3⟩ | ⟨h1, h2, init, c2, h3, h4, h5⟩
    · rw [h3 c hc] at hf; cases hf
    · rw [h3 c hc] at hf; cases hf
    · obtain ⟨_, l2, l3⟩ := loop_skip_local (traced v) _ _ _ _ _ hr h1 (by rw [h2])
      refine ⟨h1, h2, ⟨init, c2, h3, h4, h5, by rw [h3]; simp⟩, l2, fun argv2 hag => ?_⟩
      obtain ⟨fuel2, h6⟩ := l3 argv2 hag
      have hne2 : argv2 ≠ [] := by
        intro h0
        have := congrArg List.length hag
        simp only [List.length_take, h0, List.length_nil] at this
        simp only at l2
        omega
      exact Execute_of_loop (traced v) { p with argv_ := argv2 } (s, []) ec hne2 fuel2 _ h6

/-- C9 on the tokens `prog -a x -a -a` with a callback that returns false on its
second invocation: the run stops at index 3 with two calls logged, `x` the only
positional token, and `skip parse`. -/
theorem C9_callback_false_stops_witness :
    Execute (Parser.make ["prog".toList, "-a".toList, "x".toList, "-a".toList, "-a".toList]
        false [⟨"all".toList, HasArgs.no_argument, 97⟩])
      (traced (fun (n : Nat) _ _ _ => (decide (n = 0), n + 1))) (0, []) error_code.init
      = some ⟨false,
          ⟨["prog".toList, "-a".toList, "x".toList, "-a".toList, "-a".toList], 3, false,
            ["x".toList], [⟨"all".toList, HasArgs.no_argument, 97⟩]⟩,
          (2, [⟨97, none, "a".toList, true⟩, ⟨97, none, "a".toList, false⟩]),
          ⟨"skip parse".toList, SkipParse⟩⟩ ∧
    ∃ r, Execute (Parser.make ["prog".toList, "-a".toList, "x".toList, "-a".toList, "-a".toList]
          false [⟨"all".toList, HasArgs.no_argument, 97⟩])
        (traced (fun (n : Nat) _ _ _ => (decide (n = 0), n + 1))) (0, []) error_code.init
        = some r ∧
      ((∃ c ∈ r.cb.2, c.result = false) →
        r.ret = false ∧ r.ec = ⟨"skip parse".toList, SkipParse⟩ ∧
        (∃ (init : List Call) (c : Call), r.cb.2 = init ++ [c] ∧ c.result = false ∧
          (∀ x ∈ init, x.result = true) ∧ r.cb.2.length = init.length + 1) ∧
        r.parser.index < (Parser.make
          ["prog".toList, "-a".toList, "x".toList, "-a".toList, "-a".toList]
          false [⟨"all".toList, HasArgs.no_argument, 97⟩]).argv_.length ∧
        ∀ argv2 : List (List Char),
          argv2.take (r.parser.index + 1) = (Parser.make
              ["prog".toList, "-a".toList, "x".toList, "-a".toList, "-a".toList]
              false [⟨"all".toList, HasArgs.no_argument, 97⟩]).argv_.take (r.parser.index + 1) →
          Execute { Parser.make
                ["prog".toList, "-a".toList, "x".toList, "-a".toList, "-a".toList]
                false [⟨"all".toList, HasArgs.no_argument, 97⟩] with argv_ := argv2 }
              (traced (fun (n : Nat) _ _ _ => (decide (n = 0), n + 1))) (0, []) error_code.init
            = some { r with parser := { r.parser with argv_ := argv2 } }) :=
  ⟨by rfl,
   C9_callback_false_stops (fun (n : Nat) _ _ _ => (decide (n = 0), n + 1))
    (Parser.make ["prog".toList, "-a".toList, "x".toList, "-a".toList, "-a".toList]
      false [⟨"all".toList, HasArgs.no_argument, 97⟩]) 0 error_code.init⟩


/-! ## The parse of a well-formed array -/

theorem split_at_eq (rest : List Char) (h : '=' ∈ rest) :
    ∃ val, rest.dropWhile (fun x => decide (x ≠ '=')) = '=' :: val ∧
      '=' ∉ rest.takeWhile (fun x => decide (x ≠ '=')) ∧
      rest = rest.takeWhile (fun x => decide (x ≠ '=')) ++ '=' :: val := by
  induction rest with
  | nil => simp at h
  | cons x xs ih =>
    by_cases hx : x = '='
    · subst hx
      exact ⟨xs, by simp, by simp, by simp⟩
    · have hmem : '=' ∈ xs := by
        rcases List.mem_cons.1 h with h | h
        · exact absurd h.symm hx
        · exact h
      obtain ⟨val, h1, h2, h3⟩ := ih hmem
      refine ⟨val, ?_, ?_, ?_⟩
      · rw [List.dropWhile_cons]
        simp only [ne_eq, hx, not_false_eq_true, decide_True, if_true]
        exact h1
      · simp only [List.takeWhile_cons, ne_eq, hx, not_false_eq_true, decide_True, if_true,
          List.mem_cons, not_or]
        exact ⟨fun h => hx h.symm, h2⟩
      · simp only [List.takeWhile_cons, ne_eq, hx, not_false_eq_true, decide_True, if_true,
          List.cons_append]
        rw [← h3]

theorem isPositional_false (t : List Char) (h : Spec.isPositional t = false) :
    ∃ t2, t = '-' :: t2 := by
  cases t with
  | nil => simp [Spec.isPositional] at h
  | cons x xs =>
    simp only [Spec.isPositional, List.head?_cons, ne_eq, Option.some.injEq,
      decide_eq_false_iff_not, not_or, not_not] at h
    exact ⟨xs, by rw [h.2]⟩

/-- The option parser on a token the specification resolves: unless the token
gives an inline value to an option of arity None, the parser goes on to
`takeValue` with the id, the arity and the inline value the specification
names. -/
theorem parse_internal_of_resolve (opts : List option) (t : List Char) (o : option)
    (inline : Option (List Char)) (hpos : Spec.isPositional t = false)
    (hres : Spec.resolve opts t = some (o, inline)) (hid : o.val ≠ -1)
    (hok : ¬ (inline ≠ none ∧ o.has_args = HasArgs.no_argument)) :
    ∃ dash b raw, ∀ (σ : Type) (p : Parser) (v : invoke_t σ) (s : σ) (ec : error_code),
      p.options_ = opts →
      parse_internal p t v s ec = takeValue p v s ec dash b o.val o.has_args inline raw := by
  obtain ⟨t2, rfl⟩ := isPositional_false t hpos
  cases t2 with
  | nil => simp [Spec.resolve] at hres
  | cons c rest =>
    simp only [Spec.resolve, List.drop_succ_cons, List.drop_zero] at hres
    by_cases hc : c = '-'
    · -- long form
      subst hc
      simp only [if_true] at hres
      by_cases hmem : '=' ∈ rest
      · obtain ⟨val, h1, h2, h3⟩ := split_at_eq rest hmem
        simp only [if_pos hmem, h1, List.drop_succ_cons, List.drop_zero] at hres
        by_cases hval : val = []
        · simp [hval] at hres
        · simp only [if_neg hval, Option.map_eq_some', Prod.mk.injEq] at hres
          obtain ⟨o2, hfind, ho, hin⟩ := hres
          subst ho
          subst hin
          obtain ⟨l1, l2, l3⟩ := long_eq _ val h2
          rw [← h3] at l1 l2 l3
          refine ⟨"--".toList, longName rest, rest, fun σ p v s ec hp => ?_⟩
          have hlen : ¬ (rest.indexOf '=' < rest.length ∧ rest.indexOf '=' + 1 ≥ rest.length) := by
            rw [l1]
            have : rest.length = (rest.takeWhile (fun x => decide (x ≠ '='))).length
                + (val.length + 1) := by
              conv_lhs => rw [h3]
              simp
            have : 0 < val.length := List.length_pos.2 hval
            omega
          have hf := findLong_some opts _ o2 hfind
          rw [parse_internal_long_token]
          simp only [parse_internal_long, if_neg hlen, hp, l2, l3, hf, if_neg hid, if_neg hok]
      · simp only [if_neg hmem, Option.map_eq_some', Prod.mk.injEq] at hres
        obtain ⟨o2, hfind, ho, hin⟩ := hres
        subst ho
        subst hin
        obtain ⟨l1, l2, l3⟩ := long_no_eq rest hmem
        refine ⟨"--".toList, longName rest, rest, fun σ p v s ec hp => ?_⟩
        have hlen : ¬ (rest.indexOf '=' < rest.length ∧ rest.indexOf '=' + 1 ≥ rest.length) := by
          rw [l1]; omega
        have hf := findLong_some opts _ o2 hfind
        rw [parse_internal_long_token]
        simp only [parse_internal_long, if_neg hlen, hp, l2, l3, hf, if_neg hid, if_neg hok]
    · -- short form
      simp only [if_neg hc] at hres
      by_cases hc2 : c = '='
      · simp [hc2] at hres
      · simp only [if_neg hc2, Option.map_eq_some', Prod.mk.injEq] at hres
        obtain ⟨o2, hfind, ho, hin⟩ := hres
        subst ho
        refine ⟨"-".toList, c :: rest, c :: rest, fun σ p v s ec hp => ?_⟩
        have hsv : shortValue (c :: rest) = inline := by
          rw [← hin]
          cases rest with
          | nil => exact shortValue_one c
          | cons x xs =>
            by_cases hx : x = '='
            · subst hx; simp [shortValue_eq]
            · simp only [if_neg hx]
              exact shortValue_fused c (x :: xs) (by simp) (by simpa using hx)
        obtain ⟨_, hval⟩ := findShort_some opts c o2 hfind
        rw [parse_internal_short_token _ _ _ _ _ _ hc,
          parse_short_found p c rest v s ec o2 (by rw [hp]; exact hfind) hc2, hsv, if_neg hok,
          hval]


/-- The main loop at an option token for which the option parser invokes a
callback that returns true: the loop goes on after the token (and after the
value it consumed), the call logged. -/
theorem loop_at_call_true {σ : Type} (v : invoke_t σ)
    (hv : ∀ s id oa raw, (v s id oa raw).1 = true) (fuel : Nat)
    (pre post : List (List Char)) (t : List Char) (se : Bool) (u : List (List Char))
    (opts : List option) (s : σ × List Call) (ec : error_code)
    (ch : Int) (oa : Option (List Char)) (raw : List Char) (j : Nat)
    (hp : parse_internal ⟨pre ++ ('-' :: t) :: post, pre.length, se, u, opts⟩
        ('-' :: t) (traced v) s ec
      = invoke ⟨pre ++ ('-' :: t) :: post, j, se, u, opts⟩ (traced v) s ec ch oa raw) :
    Execute.loop (traced v) (fuel + 1) ⟨pre ++ ('-' :: t) :: post, pre.length, se, u, opts⟩ s ec
      = Execute.loop (traced v) fuel ⟨pre ++ ('-' :: t) :: post, j + 1, se, u, opts⟩
          ((v s.1 ch oa raw).2, s.2 ++ [(⟨ch, oa, raw, true⟩ : Call)]) ec := by
  obtain ⟨i1, i2, i3⟩ := invoke_traced
    ⟨pre ++ ('-' :: t) :: post, j, se, u, opts⟩ v s ec ch oa raw
  simp only [hv] at i1 i2 i3
  have ho := loop_at_option (traced v) fuel pre post t se u opts s ec (by rw [hp, i2])
  rw [ho, hp, invoke_parser_eq, i3, invoke_cb]
  simp [traced, hv]

theorem expected_map_some {α β : Type} (x : Option α) (f : α → β) (y : β)
    (h : x.map f = some y) : ∃ a, x = some a ∧ f a = y := by
  cases x with
  | none => simp at h
  | some a => exact ⟨a, rfl, by simpa using h⟩

/-- The main loop against the specification's reading of the tokens left: when
the specification expects `calls` and `pos` from the tokens from the cursor on
and the callback always returns true, the loop returns true, having logged
exactly `calls` and appended exactly `pos`. -/
theorem loop_expected {σ : Type} (v : invoke_t σ)
    (hv : ∀ s id oa raw, (v s id oa raw).1 = true) (opts : List option) (se : Bool) :
    ∀ (n : Nat) (toks : List (List Char)), toks.length = n →
      ∀ (pre u : List (List Char)) (s : σ × List Call) (ec : error_code)
        (calls : List (Int × Option (List Char))) (pos : List (List Char)),
        Spec.expected opts se none toks = some (calls, pos) →
        ∃ fuel r, Execute.loop (traced v) fuel ⟨pre ++ toks, pre.length, se, u, opts⟩ s ec
            = some r ∧
          r.ret = true ∧
          r.cb.2.map (fun c => (c.id, c.value))
            = s.2.map (fun c => (c.id, c.value)) ++ calls ∧
          (∃ later, r.cb.2 = s.2 ++ later ∧ ∀ c ∈ later, c.result = true) ∧
          r.parser.uargs = u ++ pos ∧ r.ec = ec := by
  intro n
  induction n using Nat.strong_induction_on with
  | _ n ih =>
    intro toks hn pre u s ec calls pos hexp
    cases toks with
    | nil =>
      simp only [Spec.expected, Option.some.injEq, Prod.mk.injEq] at hexp
      obtain ⟨rfl, rfl⟩ := hexp
      refine ⟨1, _, loop_exit (traced v) 0 _ s ec (by simp), rfl, by simp,
        ⟨[], by simp, by simp⟩, by simp, rfl⟩
    | cons t ts =>
      have hlen : ts.length < n := by rw [← hn]; simp
      -- the state after one token, as the induction hypothesis wants it
      have hnext : ∀ (u2 : List (List Char)) (s2 : σ × List Call)
          (calls2 : List (Int × Option (List Char))) (pos2 : List (List Char)),
          Spec.expected opts se none ts = some (calls2, pos2) →
          ∃ fuel r, Execute.loop (traced v) fuel
              ⟨pre ++ t :: ts, pre.length + 1, se, u2, opts⟩ s2 ec = some r ∧
            r.ret = true ∧
            r.cb.2.map (fun c => (c.id, c.value))
              = s2.2.map (fun c => (c.id, c.value)) ++ calls2 ∧
            (∃ later, r.cb.2 = s2.2 ++ later ∧ ∀ c ∈ later, c.result = true) ∧
            r.parser.uargs = u2 ++ pos2 ∧ r.ec = ec := by
        intro u2 s2 calls2 pos2 h2
        have := ih ts.length hlen ts rfl (pre ++ [t]) u2 s2 ec calls2 pos2 h2
        simpa only [List.append_assoc, List.singleton_append, List.length_append,
          List.length_singleton] using this
      simp only [Spec.expected] at hexp
      by_cases hpos : Spec.isPositional t = true
      · -- a positional token
        have ha : (t = [] ∨ t.head? ≠ some '-') := by
          simpa [Spec.isPositional] using hpos
        simp only [hpos, if_true] at hexp
        cases se with
        | true =>
          simp only [if_true, Option.some.injEq, Prod.mk.injEq] at hexp
          obtain ⟨rfl, rfl⟩ := hexp
          have hc := loop_capture (traced v) 0 ⟨pre ++ t :: ts, pre.length, true, u, opts⟩ s ec
            (by simp) (by simp only [getD_at_end]; exact ha) rfl
          refine ⟨1, _, hc, rfl, by simp, ⟨[], by simp, by simp⟩, by simp, rfl⟩
        | false =>
          simp only [Bool.false_eq_true, if_false] at hexp
          obtain ⟨⟨calls2, pos2⟩, h2, h3⟩ := expected_map_some _ _ _ hexp
          simp only [Prod.mk.injEq] at h3
          obtain ⟨rfl, rfl⟩ := h3
          obtain ⟨fuel, r, k1, k2, k3, k4, k5, k6⟩ := hnext (u ++ [t]) s calls2 pos2 h2
          have hstep := loop_positional (traced v) fuel
            ⟨pre ++ t :: ts, pre.length, false, u, opts⟩ s ec
            (by simp) (by simp only [getD_at_end]; exact ha) rfl
          simp only [getD_at_end] at hstep
          refine ⟨fuel + 1, r, by rw [hstep]; exact k1, k2, k3, k4, ?_, k6⟩
          rw [k5]; simp
      · -- an option token
        have hpos2 : Spec.isPositional t = false := by
          cases h : Spec.isPositional t
          · rfl
          · exact absurd h hpos
        simp only [hpos2, Bool.false_eq_true, if_false] at hexp
        obtain ⟨t2, rfl⟩ := isPositional_false t hpos2
        cases hres : Spec.resolve opts ('-' :: t2) with
        | none => simp [hres] at hexp
        | some oi =>
          obtain ⟨o, inline⟩ := oi
          simp only [hres] at hexp
          by_cases hid : o.val = -1
          · simp [hid] at hexp
          simp only [if_neg hid] at hexp
          cases inline with
          | some val =>
            by_cases hno : o.has_args = HasArgs.no_argument
            · simp [hno] at hexp
            simp only [if_neg hno] at hexp
            obtain ⟨⟨calls2, pos2⟩, h2, h3⟩ := expected_map_some _ _ _ hexp
            simp only [Prod.mk.injEq] at h3
            obtain ⟨rfl, rfl⟩ := h3
            obtain ⟨dash, b, raw, hshape⟩ := parse_internal_of_resolve opts ('-' :: t2) o
              (some val) hpos2 hres hid (by simp [hno])
            have hp : parse_internal ⟨pre ++ ('-' :: t2) :: ts, pre.length, se, u, opts⟩
                ('-' :: t2) (traced v) s ec
                = invoke ⟨pre ++ ('-' :: t2) :: ts, pre.length, se, u, opts⟩ (traced v) s ec
                    o.val (some val) raw := by
              rw [hshape _ _ _ _ _ rfl]
              simp [takeValue]
            obtain ⟨fuel, r, k1, k2, k3, ⟨later, k4, k4b⟩, k5, k6⟩ := hnext u
              ((v s.1 o.val (some val) raw).2, s.2 ++ [(⟨o.val, some val, raw, true⟩ : Call)])
              calls2 pos2 h2
            refine ⟨fuel + 1, r, ?_, k2, ?_, ⟨(⟨o.val, some val, raw, true⟩ : Call) :: later, ?_, ?_⟩, k5, k6⟩
            · rw [loop_at_call_true v hv fuel pre ts t2 se u opts s ec _ _ _ _ hp]
              exact k1
            · rw [k3]; simp
            · simp [k4]
            · intro c hc
              rcases List.mem_cons.1 hc with rfl | hc
              · rfl
              · exact k4b c hc
          | none =>
            by_cases hreq : o.has_args = HasArgs.required_argument
            · -- the next token is the value
              simp only [if_pos hreq] at hexp
              cases ts with
              | nil => simp [Spec.expected] at hexp
              | cons val ts2 =>
                simp only [Spec.expected] at hexp
                obtain ⟨⟨calls2, pos2⟩, h2, h3⟩ := expected_map_some _ _ _ hexp
                simp only [Prod.mk.injEq] at h3
                obtain ⟨rfl, rfl⟩ := h3
                obtain ⟨dash, b, raw, hshape⟩ := parse_internal_of_resolve opts ('-' :: t2) o
                  none hpos2 hres hid (by simp)
                have hp : parse_internal
                    ⟨pre ++ ('-' :: t2) :: val :: ts2, pre.length, se, u, opts⟩
                    ('-' :: t2) (traced v) s ec
                    = invoke ⟨pre ++ ('-' :: t2) :: val :: ts2, pre.length + 1, se, u, opts⟩
                        (traced v) s ec o.val (some val) raw := by
                  rw [hshape _ _ _ _ _ rfl]
                  simp only [takeValue, hreq, and_self, if_true, getD_after_end]
                  rw [if_neg (by simp)]
                have hlen2 : ts2.length < n := by rw [← hn]; simp; omega
                have hih := ih ts2.length hlen2 ts2 rfl (pre ++ [('-' :: t2), val]) u
                  ((v s.1 o.val (some val) raw).2,
                    s.2 ++ [(⟨o.val, some val, raw, true⟩ : Call)])
                  ec calls2 pos2 h2
                simp only [List.append_assoc, List.cons_append, List.nil_append,
                  List.length_append, List.length_cons, List.length_nil] at hih
                obtain ⟨fuel, r, k1, k2, k3, ⟨later, k4, k4b⟩, k5, k6⟩ := hih
                refine ⟨fuel + 1, r, ?_, k2, ?_, ⟨(⟨o.val, some val, raw, true⟩ : Call) :: later, ?_, ?_⟩, k5, k6⟩
                · rw [loop_at_call_true v hv fuel pre (val :: ts2) t2 se u opts s ec _ _ _ _ hp]
                  exact k1
                · simp [k3]
                · simp [k4]
                · intro c hc
                  rcases List.mem_cons.1 hc with rfl | hc
                  · rfl
                  · exact k4b c hc
            · -- no value
              simp only [if_neg hreq] at hexp
              obtain ⟨⟨calls2, pos2⟩, h2, h3⟩ := expected_map_some _ _ _ hexp
              simp only [Prod.mk.injEq] at h3
              obtain ⟨rfl, rfl⟩ := h3
              obtain ⟨dash, b, raw, hshape⟩ := parse_internal_of_resolve opts ('-' :: t2) o
                none hpos2 hres hid (by simp)
              have hp : parse_internal ⟨pre ++ ('-' :: t2) :: ts, pre.length, se, u, opts⟩
                  ('-' :: t2) (traced v) s ec
                  = invoke ⟨pre ++ ('-' :: t2) :: ts, pre.length, se, u, opts⟩ (traced v) s ec
                      o.val none raw := by
                rw [hshape _ _ _ _ _ rfl]
                simp [takeValue, hreq]
              obtain ⟨fuel, r, k1, k2, k3, ⟨later, k4, k4b⟩, k5, k6⟩ := hnext u
                ((v s.1 o.val none raw).2, s.2 ++ [(⟨o.val, none, raw, true⟩ : Call)])
                calls2 pos2 h2
              refine ⟨fuel + 1, r, ?_, k2, ?_, ⟨(⟨o.val, none, raw, true⟩ : Call) :: later, ?_, ?_⟩, k5, k6⟩
              · rw [loop_at_call_true v hv fuel pre ts t2 se u opts s ec _ _ _ _ hp]
                exact k1
              · rw [k3]; simp
              · simp [k4]
              · intro c hc
                rcases List.mem_cons.1 hc with rfl | hc
                · rfl
                · exact k4b c hc


/-- C2 as stated fails: with `input` declared Required with id 105 (`i`), the
array `prog -i` has one token after the program name, an option token naming a
registered option, and the callback always returns true; yet `Execute` returns
false, with `option '-i' missing parameter`, and the callback is never invoked. -/
theorem C2_counterexample_missing_value :
    Spec.resolve [⟨"input".toList, HasArgs.required_argument, 105⟩] "-i".toList
      = some (⟨"input".toList, HasArgs.required_argument, 105⟩, none) ∧
    Execute (Parser.make ["prog".toList, "-i".toList] false
        [⟨"input".toList, HasArgs.required_argument, 105⟩])
      (traced (fun (s : Unit) _ _ _ => (true, s))) ((), []) error_code.init
      = some ⟨false, ⟨["prog".toList, "-i".toList], 1, false, [],
            [⟨"input".toList, HasArgs.required_argument, 105⟩]⟩, ((), []),
          ⟨"option '-i' missing parameter".toList, 1⟩⟩ :=
  ⟨by rfl, by rfl⟩

/-- C2, amended: when the tokens after the program name are well formed for the
registry as the specification reads them (`Spec.expected` has a result: read
left to right, up to the first positional token in subcommand mode, each token
is positional, or is the value taken by the Required option before it, or is an
option token that resolves to a registered descriptor whose id is not `-1`, that
gives no inline value to an option of arity None, and that, if Required without
inline value, has a token after it) and the callback always returns true, then
`Execute` returns true, the callback is invoked exactly once per option token so
read, in token order, each time with the descriptor's id and the resolved value
(the inline value, else the next token for a Required option, else absent), the
positional tokens are the expected ones and the error outcome is untouched. -/
theorem C2_well_formed_parse {σ : Type} (v : invoke_t σ)
    (hv : ∀ s id oa raw, (v s id oa raw).1 = true)
    (prog : List Char) (toks : List (List Char)) (opts : List option) (se : Bool)
    (s : σ) (ec : error_code)
    (calls : List (Int × Option (List Char))) (pos : List (List Char))
    (hwf : Spec.expected opts se none toks = some (calls, pos)) :
    ∃ r, Execute (Parser.make (prog :: toks) se opts) (traced v) (s, []) ec = some r ∧
      r.ret = true ∧
      r.cb.2.map (fun c => (c.id, c.value)) = calls ∧
      r.cb.2.length = calls.length ∧
      (∀ c ∈ r.cb.2, c.result = true) ∧
      r.parser.UnresolvedArgs = pos ∧ r.ec = ec := by
  obtain ⟨fuel, r, h1, h2, h3, ⟨later, h4, h4b⟩, h5, h6⟩ :=
    loop_expected v hv opts se toks.length toks rfl [prog] [] (s, []) ec calls pos hwf
  rw [Parser.make_eq]
  refine ⟨r, Execute_of_loop (traced v) ⟨prog :: toks, 0, se, [], opts⟩ (s, []) ec (by simp)
    fuel r h1, h2, by simpa using h3, ?_, ?_, by simpa [Parser.UnresolvedArgs] using h5, h6⟩
  · have := congrArg List.length h3
    simpa using this
  · intro c hc
    rw [h4] at hc
    exact h4b c (by simpa using hc)

/-- C2, amended, on `prog -i 11 x --bool --input=5` with `input` Required and
`bool` of arity None: three calls, in order, and `x` positional. -/
theorem C2_well_formed_parse_witness :
    ∃ r, Execute (Parser.make ("prog".toList ::
            ["-i".toList, "11".toList, "x".toList, "--bool".toList, "--input=5".toList]) false
          [⟨"input".toList, HasArgs.required_argument, 105⟩,
           ⟨"bool".toList, HasArgs.no_argument, 98⟩])
        (traced (fun (s : Unit) _ _ _ => (true, s))) ((), []) error_code.init = some r ∧
      r.ret = true ∧
      r.cb.2.map (fun c => (c.id, c.value))
        = [(105, some "11".toList), (98, none), (105, some "5".toList)] ∧
      r.cb.2.length = [((105 : Int), some "11".toList), (98, none), (105, some "5".toList)].length ∧
      (∀ c ∈ r.cb.2, c.result = true) ∧
      r.parser.UnresolvedArgs = ["x".toList] ∧ r.ec = error_code.init :=
  C2_well_formed_parse (fun (s : Unit) _ _ _ => (true, s)) (fun _ _ _ _ => rfl)
    "prog".toList
    ["-i".toList, "11".toList, "x".toList, "--bool".toList, "--input=5".toList]
    [⟨"input".toList, HasArgs.required_argument, 105⟩,
     ⟨"bool".toList, HasArgs.no_argument, 98⟩] false () error_code.init
    [(105, some "11".toList), (98, none), (105, some "5".toList)] ["x".toList] (by rfl)

/-! ## The encoding of one argument, piece by piece -/

theorem emit_append (xs ys : List Char) : ∀ (buf : List Char) (sl : Nat),
    Escape.emit (xs ++ ys) buf sl
      = Escape.emit ys (Escape.emit xs buf sl).1 (Escape.emit xs buf sl).2 := by
  induction xs with
  | nil => intro buf sl; simp [Escape.emit]
  | cons c cs ih =>
    intro buf sl
    simp only [List.cons_append, Escape.emit]
    split_ifs <;> exact ih _ _

theorem emit_backslashes (k : Nat) : ∀ (buf : List Char) (sl : Nat),
    Escape.emit (List.replicate k '\\') buf sl = (buf ++ List.replicate k '\\', sl + k) := by
  induction k with
  | zero => intro buf sl; simp [Escape.emit]
  | succ k ih =>
    intro buf sl
    rw [List.replicate_succ]
    simp only [Escape.emit, if_true]
    rw [ih]
    simp only [List.append_assoc, List.singleton_append, Prod.mk.injEq]
    exact ⟨trivial, by omega⟩

theorem emit_quote (cs buf : List Char) (sl : Nat) :
    Escape.emit ('"' :: cs) buf sl
      = Escape.emit cs (buf ++ List.replicate sl '\\' ++ ['\\', '"']) 0 := by
  simp [Escape.emit]

/-- After the second pass over text that does not end in a backslash, no
backslash is pending. -/
theorem emit_pending_zero (xs : List Char) (hne : xs ≠ [])
    (hlast : xs.getLast? ≠ some '\\') : ∀ (buf : List Char) (sl : Nat),
    (Escape.emit xs buf sl).2 = 0 := by
  induction xs with
  | nil => exact absurd rfl hne
  | cons c cs ih =>
    intro buf sl
    by_cases hcs : cs = []
    · subst hcs
      have hc : c ≠ '\\' := by simpa using hlast
      simp only [Escape.emit, if_neg hc]
      split_ifs <;> rfl
    · have hl : cs.getLast? ≠ some '\\' := by
        cases cs with
        | nil => exact absurd rfl hcs
        | cons d ds => simpa [List.getLast?_cons_cons] using hlast
      simp only [Escape.emit]
      split_ifs <;> exact ih hcs hl _ _

/-- The second pass ends its output with the last character it read. -/
theorem emit_getLast (xs : List Char) (hne : xs ≠ []) : ∀ (buf : List Char) (sl : Nat),
    (Escape.emit xs buf sl).1.getLast? = xs.getLast? := by
  induction xs with
  | nil => exact absurd rfl hne
  | cons c cs ih =>
    intro buf sl
    by_cases hcs : cs = []
    · subst hcs
      simp only [Escape.emit]
      split_ifs with h1 h2
      · simp [h1]
      · simp [h2]
      · simp
    · have : (c :: cs).getLast? = cs.getLast? := by
        cases cs with
        | nil => exact absurd rfl hcs
        | cons d ds => simp [List.getLast?_cons_cons]
      rw [this]
      simp only [Escape.emit]
      split_ifs <;> exact ih hcs _ _

theorem emit_no_quote (xs : List Char) (h : ∀ c ∈ xs, c ≠ '"') :
    ∀ (buf : List Char) (sl : Nat), (Escape.emit xs buf sl).1 = buf ++ xs := by
  induction xs with
  | nil => intro buf sl; simp [Escape.emit]
  | cons c cs ih =>
    intro buf sl
    have hc := h c (List.mem_cons_self _ _)
    have hcs : ∀ x ∈ cs, x ≠ '"' := fun x hx => h x (List.mem_cons_of_mem _ hx)
    simp only [Escape.emit, if_neg hc]
    split_ifs with h1
    · rw [ih hcs, h1]; simp
    · rw [ih hcs]; simp

theorem scan_snd_of_mem (ac : List Char) (h : ∃ c ∈ ac, c = ' ' ∨ c = '\t') :
    ∀ (n : Nat) (hs : Bool), (Escape.scan ac n hs).2 = true := by
  induction ac with
  | nil => simp at h
  | cons c cs ih =>
    intro n hs
    obtain ⟨x, hx, hsp⟩ := h
    simp only [Escape.scan]
    split_ifs with h1 h2
    · rcases List.mem_cons.1 hx with rfl | hx
      · rcases h1 with h1 | h1 <;> rcases hsp with h3 | h3 <;> rw [h1] at h3 <;>
          exact absurd h3 (by decide)
      · exact ih ⟨x, hx, hsp⟩ _ _
    · exact scan_snd_true cs n
    · rcases List.mem_cons.1 hx with rfl | hx
      · exact absurd hsp h2
      · exact ih ⟨x, hx, hsp⟩ _ _

theorem scan_snd_of_not_mem (ac : List Char) (h : ∀ c ∈ ac, c ≠ ' ' ∧ c ≠ '\t') :
    ∀ (n : Nat), (Escape.scan ac n false).2 = false := by
  induction ac with
  | nil => intro n; rfl
  | cons c cs ih =>
    intro n
    have hc := h c (List.mem_cons_self _ _)
    have hcs : ∀ x ∈ cs, x ≠ ' ' ∧ x ≠ '\t' := fun x hx => h x (List.mem_cons_of_mem _ hx)
    simp only [Escape.scan]
    split_ifs with h1 h2
    · exact ih hcs _
    · exact absurd h2 (by simp [hc.1, hc.2])
    · exact ih hcs _

/-- C19: a non-empty argument with no quote, no space and no tab encodes to
itself, whatever backslashes it holds and wherever they stand. -/
theorem C19_plain_argument_unchanged (a : List Char) (hne : a ≠ [])
    (hq : ∀ c ∈ a, c ≠ '"') (hs : ∀ c ∈ a, c ≠ ' ' ∧ c ≠ '\t') :
    Escape a = a := by
  rw [Escape_eq a hne, scan_snd_of_not_mem a hs]
  simp only [Bool.false_eq_true, if_false]
  rw [emit_no_quote a hq]
  rfl

/-- C19 at arguments with backslashes inside and at the end. -/
theorem C19_plain_argument_unchanged_witness :
    Escape ['a', '\\', 'b', '\\', '\\'] = ['a', '\\', 'b', '\\', '\\'] :=
  C19_plain_argument_unchanged ['a', '\\', 'b', '\\', '\\'] (by decide) (by decide) (by decide)

theorem emit_pending_start (xs : List Char) (hlast : xs.getLast? ≠ some '\\') :
    (Escape.emit xs [] 0).2 = 0 := by
  by_cases hne : xs = []
  · subst hne; rfl
  · exact emit_pending_zero xs hne hlast [] 0

theorem replicate_double (k : Nat) (c : Char) :
    List.replicate k c ++ (List.replicate k c ++ [c]) = List.replicate (2 * k + 1) c := by
  rw [← List.replicate_succ', ← List.replicate_add]
  congr 1
  omega

/-- The second pass at a quote that follows exactly `k` backslashes. -/
theorem emit_at_quote (pre post : List Char) (k : Nat)
    (hpre : pre.getLast? ≠ some '\\') :
    Escape.emit (pre ++ List.replicate k '\\' ++ '"' :: post) [] 0
      = ((Escape.emit pre [] 0).1 ++ List.replicate (2 * k + 1) '\\'
            ++ '"' :: (Escape.emit post [] 0).1,
          (Escape.emit post [] 0).2) := by
  rw [List.append_assoc, emit_append, emit_pending_start pre hpre, emit_append,
    emit_backslashes, emit_quote, emit_buf]
  simp only [Nat.zero_add, List.append_assoc, List.cons_append, List.nil_append,
    Prod.mk.injEq, and_true]
  rw [← replicate_double]
  simp

/-- C15: a quote of the argument that follows a maximal run of `k` backslashes
(what precedes the run does not end in a backslash) stands in the encoding as
`2k+1` backslashes and the quote, between the encoding of what precedes the run
and the encoding of what follows the quote; in particular `k` backslashes and a
quote encode to `2k+1` backslashes and a quote. -/
theorem C15_quote_after_backslashes (pre post : List Char) (k : Nat)
    (hpre : pre.getLast? ≠ some '\\') :
    (∃ opening closing : List Char, (opening = [] ∨ opening = ['"']) ∧
      Escape (pre ++ List.replicate k '\\' ++ '"' :: post)
        = (opening ++ (Escape.emit pre [] 0).1) ++ List.replicate (2 * k + 1) '\\'
            ++ '"' :: ((Escape.emit post [] 0).1 ++ closing) ∧
      (opening ++ (Escape.emit pre [] 0).1).getLast? ≠ some '\\') ∧
    Escape (List.replicate k '\\' ++ ['"']) = List.replicate (2 * k + 1) '\\' ++ ['"'] := by
  have hlast : ∀ opening : List Char, (opening = [] ∨ opening = ['"']) →
      (opening ++ (Escape.emit pre [] 0).1).getLast? ≠ some '\\' := by
    intro opening ho
    by_cases hne : pre = []
    · subst hne
      rcases ho with rfl | rfl <;> simp [Escape.emit]
    · have h1 := emit_getLast pre hne [] 0
      have h2 : (Escape.emit pre [] 0).1 ≠ [] := by
        intro h0
        rw [h0] at h1
        cases pre with
        | nil => exact hne rfl
        | cons c cs => simp [List.getLast?_eq_getLast] at h1
      rw [List.getLast?_append_of_ne_nil _ h2, h1]
      exact hpre
  constructor
  · have hne : pre ++ List.replicate k '\\' ++ '"' :: post ≠ [] := by simp
    rw [Escape_eq _ hne, emit_at_quote pre post k hpre]
    split_ifs
    · exact ⟨['"'], List.replicate (Escape.emit post [] 0).2 '\\' ++ ['"'], Or.inr rfl,
        by simp, hlast _ (Or.inr rfl)⟩
    · exact ⟨[], [], Or.inl rfl, by simp, hlast _ (Or.inl rfl)⟩
  · have hne : List.replicate k '\\' ++ ['"'] ≠ [] := by simp
    have hs : (Escape.scan (List.replicate k '\\' ++ ['"'])
        (List.replicate k '\\' ++ ['"']).length false).2 = false := by
      apply scan_snd_of_not_mem
      intro c hc
      rcases List.mem_append.1 hc with hc | hc
      · rw [List.eq_of_mem_replicate hc]; decide
      · rw [List.mem_singleton.1 hc]; decide
    have he := emit_at_quote [] [] k (by simp)
    simp only [List.nil_append] at he
    rw [Escape_eq _ hne, hs, he]
    simp [Escape.emit]

/-- C15 at the argument `a\\"b`: the quote follows two backslashes and stands in
the encoding after five. -/
theorem C15_quote_after_backslashes_witness :
    (∃ opening closing : List Char, (opening = [] ∨ opening = ['"']) ∧
      Escape (['a'] ++ List.replicate 2 '\\' ++ '"' :: ['b'])
        = (opening ++ (Escape.emit ['a'] [] 0).1) ++ List.replicate (2 * 2 + 1) '\\'
            ++ '"' :: ((Escape.emit ['b'] [] 0).1 ++ closing) ∧
      (opening ++ (Escape.emit ['a'] [] 0).1).getLast? ≠ some '\\') ∧
    Escape (List.replicate 2 '\\' ++ ['"']) = List.replicate (2 * 2 + 1) '\\' ++ ['"'] :=
  C15_quote_after_backslashes ['a'] ['b'] 2 (by decide)

/-- C16: an argument with a space or a tab that ends in a maximal run of `k`
backslashes (what precedes the run does not end in a backslash) encodes to a
quote, the encoding of what precedes the run, `2k` backslashes and the closing
quote. -/
theorem C16_quoted_trailing_backslashes (body : List Char) (k : Nat)
    (hbody : body.getLast? ≠ some '\\')
    (hsp : ∃ c ∈ body ++ List.replicate k '\\', c = ' ' ∨ c = '\t') :
    Escape (body ++ List.replicate k '\\')
      = '"' :: (Escape.emit body [] 0).1 ++ List.replicate (2 * k) '\\' ++ ['"'] ∧
    (Escape (body ++ List.replicate k '\\')).head? = some '"' ∧
    ('"' :: (Escape.emit body [] 0).1).getLast? ≠ some '\\' := by
  have hne : body ≠ [] := by
    intro h0
    subst h0
    obtain ⟨c, hc, hcs⟩ := hsp
    simp only [List.nil_append] at hc
    rw [List.eq_of_mem_replicate hc] at hcs
    rcases hcs with h | h <;> exact absurd h (by decide)
  have hne2 : body ++ List.replicate k '\\' ≠ [] := by simp [hne]
  have heq : Escape (body ++ List.replicate k '\\')
      = '"' :: (Escape.emit body [] 0).1 ++ List.replicate (2 * k) '\\' ++ ['"'] := by
    rw [Escape_eq _ hne2, scan_snd_of_mem _ hsp, emit_append, emit_backslashes,
      emit_pending_start body hbody]
    simp only [if_true, Nat.zero_add, List.append_assoc, List.singleton_append,
      List.cons_append, List.cons.injEq, true_and]
    rw [← List.append_assoc (List.replicate k '\\'), ← List.replicate_add, List.nil_append,
      Nat.two_mul]
  refine ⟨heq, by rw [heq]; rfl, ?_⟩
  have h1 := emit_getLast body hne [] 0
  have h2 : (Escape.emit body [] 0).1 ≠ [] := by
    intro h0
    rw [h0] at h1
    cases body with
    | nil => exact hne rfl
    | cons c cs => simp [List.getLast?_eq_getLast] at h1
  have h3 : ('"' :: (Escape.emit body [] 0).1).getLast? = (Escape.emit body [] 0).1.getLast? := by
    cases h : (Escape.emit body [] 0).1 with
    | nil => exact absurd h h2
    | cons d ds => simp [List.getLast?_cons_cons]
  rw [h3, h1]
  exact hbody

/-- C16 at the argument `a b\`: the encoding is `"a b\\"`. -/
theorem C16_quoted_trailing_backslashes_witness :
    Escape (['a', ' ', 'b'] ++ List.replicate 1 '\\')
      = '"' :: (Escape.emit ['a', ' ', 'b'] [] 0).1 ++ List.replicate (2 * 1) '\\' ++ ['"'] ∧
    (Escape (['a', ' ', 'b'] ++ List.replicate 1 '\\')).head? = some '"' ∧
    ('"' :: (Escape.emit ['a', ' ', 'b'] [] 0).1).getLast? ≠ some '\\' :=
  C16_quoted_trailing_backslashes ['a', ' ', 'b'] 1 (by decide) (by decide)

/-! ## Failing and resuming at a token -/

/-- An option token, reached after tokens whose parse succeeded, at which the
option parser fails without calling: `Execute` returns that failure. -/
theorem Execute_fail_at {σ : Type} (v : invoke_t σ) (pre post : List (List Char))
    (t : List Char) (se : Bool) (opts : List option) (s : σ) (ec : error_code)
    (r0 : Outcome σ) (e : error_code)
    (hpre : Execute (Parser.make pre se opts) v s ec = some r0)
    (hret : r0.ret = true) (hu : se = false ∨ r0.parser.uargs = [])
    (hp : parse_internal ⟨pre ++ ('-' :: t) :: post, pre.length, se, r0.parser.uargs, opts⟩
        ('-' :: t) v r0.cb r0.ec
      = ⟨false, ⟨pre ++ ('-' :: t) :: post, pre.length, se, r0.parser.uargs, opts⟩, r0.cb, e⟩) :
    Execute (Parser.make (pre ++ ('-' :: t) :: post) se opts) v s ec
      = some ⟨false, ⟨pre ++ ('-' :: t) :: post, pre.length, se, r0.parser.uargs, opts⟩,
          r0.cb, e⟩ := by
  rw [Parser.make_eq] at hpre ⊢
  obtain ⟨_, _, h3⟩ := Execute_extend v pre (('-' :: t) :: post) 0 se [] opts s ec r0
    hpre hret hu
  apply h3 1
  rw [loop_at_fail v 0 pre post t se _ opts r0.cb r0.ec (by rw [hp]), hp]

/-- An option token, reached after tokens whose parse succeeded, at which the
callback is invoked and returns true: `Execute` is the main loop resumed after
the token (index `j + 1`, where `j` is the index the option parser left), with
the positional tokens as they were, the one call logged and the error outcome
untouched. -/
theorem Execute_resume {σ : Type} (v : invoke_t σ) (pre post : List (List Char))
    (t : List Char) (se : Bool) (opts : List option) (s : σ) (ec : error_code)
    (r0 : Outcome (σ × List Call))
    (hpre : Execute (Parser.make pre se opts) (traced v) (s, []) ec = some r0)
    (hret : r0.ret = true) (hu : se = false ∨ r0.parser.uargs = [])
    (ch : Int) (oa : Option (List Char)) (raw : List Char) (j : Nat)
    (hp : parse_internal ⟨pre ++ ('-' :: t) :: post, pre.length, se, r0.parser.uargs, opts⟩
        ('-' :: t) (traced v) r0.cb r0.ec
      = invoke ⟨pre ++ ('-' :: t) :: post, j, se, r0.parser.uargs, opts⟩
          (traced v) r0.cb r0.ec ch oa raw)
    (hres : (v r0.cb.1 ch oa raw).1 = true) :
    Execute (Parser.make (pre ++ ('-' :: t) :: post) se opts) (traced v) (s, []) ec
      = Execute.loop (traced v) (pre ++ ('-' :: t) :: post).length
          ⟨pre ++ ('-' :: t) :: post, j + 1, se, r0.parser.uargs, opts⟩
          ((v r0.cb.1 ch oa raw).2, r0.cb.2 ++ [(⟨ch, oa, raw, true⟩ : Call)]) ec := by
  have hec := Execute_true_ec (traced v) _ (s, []) ec r0 hpre hret
  rw [Parser.make_eq] at hpre ⊢
  obtain ⟨_, _, h3⟩ := Execute_extend (traced v) pre (('-' :: t) :: post) 0 se [] opts
    (s, []) ec r0 hpre hret hu
  obtain ⟨i1, i2, i3⟩ := invoke_traced
    ⟨pre ++ ('-' :: t) :: post, j, se, r0.parser.uargs, opts⟩ v r0.cb r0.ec ch oa raw
  simp only [hres] at i1 i2 i3
  obtain ⟨r, hr⟩ := loop_total (traced v) (pre ++ ('-' :: t) :: post).length
    ⟨pre ++ ('-' :: t) :: post, j + 1, se, r0.parser.uargs, opts⟩
    ((v r0.cb.1 ch oa raw).2, r0.cb.2 ++ [(⟨ch, oa, raw, true⟩ : Call)]) ec
    (by simp only [List.length_append, List.length_cons]; omega)
  rw [hr]
  apply h3 ((pre ++ ('-' :: t) :: post).length + 1)
  have ho := loop_at_option (traced v) (pre ++ ('-' :: t) :: post).length
    pre post t se r0.parser.uargs opts r0.cb r0.ec (by rw [hp, i2])
  have hcb : (traced v r0.cb ch oa raw).2
      = ((v r0.cb.1 ch oa raw).2, r0.cb.2 ++ [(⟨ch, oa, raw, true⟩ : Call)]) := by
    simp [traced, hres]
  rw [ho, hp, invoke_parser_eq, i3, invoke_cb, hcb, hec]
  exact hr

theorem find?_first {α : Type} (before after : List α) (o : α) (q : α → Bool)
    (h1 : ∀ x ∈ before, q x = false) (h2 : q o = true) :
    (before ++ o :: after).find? q = some o := by
  induction before with
  | nil => simp [List.find?, h2]
  | cons b bs ih =>
    have hb := h1 b (List.mem_cons_self _ _)
    simp only [List.cons_append, List.find?, hb]
    exact ih (fun x hx => h1 x (List.mem_cons_of_mem _ hx))

/-- The long-option parser on a token whose name is registered with an id other
than `-1`. -/
theorem parse_long_found {σ : Type} (p : Parser) (a0 : List Char)
    (v : invoke_t σ) (s : σ) (ec : error_code) (o : option)
    (hfind : p.options_.find? (fun x => decide (x.name = longName a0)) = some o)
    (hid : o.val ≠ -1)
    (h1 : ¬ (a0.indexOf '=' < a0.length ∧ a0.indexOf '=' + 1 ≥ a0.length)) :
    parse_internal_long p a0 v s ec
      = if longValue a0 ≠ none ∧ o.has_args = HasArgs.no_argument then
          ⟨false, p, s, ⟨"option '--".toList ++ longName a0 ++ "' unexpected parameter: ".toList
            ++ (longValue a0).getD [], 1⟩⟩
        else
          takeValue p v s ec "--".toList (longName a0) o.val o.has_args (longValue a0) a0 := by
  have hf := findLong_some _ _ _ hfind
  simp only [parse_internal_long, if_neg h1, hf, if_neg hid]
  split_ifs
  · simp [error_code.AssignCat, CatPieces]
  · rfl

theorem takeValue_missing {σ : Type} (p : Parser) (v : invoke_t σ) (s : σ)
    (ec : error_code) (dash a : List Char) (ch : Int) (raw : List Char)
    (h : p.index + 1 ≥ p.argv_.length) :
    takeValue p v s ec dash a ch HasArgs.required_argument none raw
      = ⟨false, p, s, ⟨"option '".toList ++ dash ++ a ++ "' missing parameter".toList, 1⟩⟩ := by
  simp only [takeValue, and_self, if_true, if_pos h]
  simp [error_code.AssignCat, CatPieces]

theorem takeValue_next {σ : Type} (p : Parser) (v : invoke_t σ) (s : σ)
    (ec : error_code) (dash a : List Char) (ch : Int) (raw : List Char)
    (h : p.index + 1 < p.argv_.length) :
    takeValue p v s ec dash a ch HasArgs.required_argument none raw
      = invoke { p with index := p.index + 1 } v s ec ch
          (some (p.argv_.getD (p.index + 1) [])) raw := by
  have h2 : ¬ p.index + 1 ≥ p.argv_.length := by omega
  simp only [takeValue, and_self, if_true, if_neg h2]

theorem takeValue_inline {σ : Type} (p : Parser) (v : invoke_t σ) (s : σ)
    (ec : error_code) (dash a : List Char) (ch : Int) (ha : HasArgs) (val raw : List Char) :
    takeValue p v s ec dash a ch ha (some val) raw = invoke p v s ec ch (some val) raw := by
  simp [takeValue]

/-- C11 as stated fails, in three ways.  With `dash` declared Required with id
45, the character code of `-`, the token `-c` is `--`, the last token: it is read
as a long option with an empty name and `Execute` fails with `unregistered
option '--'`, not with a missing-parameter message.  In `prog -i -i` with `input`
declared Required with id 105 the last token is the option token `-i` without
inline value, yet it is taken as the value of the `-i` before it: the callback is
invoked with the value `-i` and `Execute` returns true.  And with `x` of arity
None registered with id 105 before the Required `input` with the same id, the
last token `-i` is parsed by the first of the two: the callback is invoked with
an absent value and `Execute` returns true. -/
theorem C11_counterexample_not_missing :
    ((45 : Int) = ('-'.toNat : Int) ∧
      Execute (Parser.make ["prog".toList, ['-', '-']] false
          [⟨"dash".toList, HasArgs.required_argument, 45⟩])
        (traced (fun (s : Unit) _ _ _ => (true, s))) ((), []) error_code.init
        = some ⟨false, ⟨["prog".toList, ['-', '-']], 1, false, [],
              [⟨"dash".toList, HasArgs.required_argument, 45⟩]⟩, ((), []),
            ⟨"unregistered option '--'".toList, 1⟩⟩) ∧
    Execute (Parser.make ["prog".toList, "-i".toList, "-i".toList] false
        [⟨"input".toList, HasArgs.required_argument, 105⟩])
      (traced (fun (s : Unit) _ _ _ => (true, s))) ((), []) error_code.init
      = some ⟨true, ⟨["prog".toList, "-i".toList, "-i".toList], 3, false, [],
            [⟨"input".toList, HasArgs.required_argument, 105⟩]⟩,
          ((), [⟨105, some "-i".toList, "i".toList, true⟩]), error_code.init⟩ ∧
    Execute (Parser.make ["prog".toList, "-i".toList] false
        [⟨"x".toList, HasArgs.no_argument, 105⟩,
         ⟨"input".toList, HasArgs.required_argument, 105⟩])
      (traced (fun (s : Unit) _ _ _ => (true, s))) ((), []) error_code.init
      = some ⟨true, ⟨["prog".toList, "-i".toList], 2, false, [],
            [⟨"x".toList, HasArgs.no_argument, 105⟩,
             ⟨"input".toList, HasArgs.required_argument, 105⟩]⟩,
          ((), [⟨105, none, "i".toList, true⟩]), error_code.init⟩ :=
  ⟨⟨by decide, by rfl⟩, by rfl, by rfl⟩

/-- C11, amended.  Let the tokens `pre` parse successfully as an array of their
own (with subcommand mode on, without a positional token among them), so that
the main loop reaches the token after them.  Short form: for every character `c`
other than `-` and `=` such that the first descriptor registered with the
character code of `c` as id is declared Required, the token `-c` standing last
after `pre` makes `Execute` return false with kind 1 and the message `option
'-c' missing parameter`.  Long form: for every name without `=` such that the
first descriptor registered with that name is declared Required and has an id
other than `-1`, the token `--name` standing last after `pre` makes `Execute`
return false with kind 1 and the message `option '--name' missing parameter`.
In both cases the callback is not invoked for the option: its state is the one
the tokens of `pre` left.  Each form holds on its own hypotheses. -/
theorem C11_required_missing_value {σ : Type} (v : invoke_t σ) (pre : List (List Char))
    (se : Bool) (opts : List option) (s : σ) (ec : error_code) (r0 : Outcome σ)
    (hpre : Execute (Parser.make pre se opts) v s ec = some r0)
    (hret : r0.ret = true) (hu : se = false ∨ r0.parser.uargs = []) :
    (∀ (c : Char) (os : option), c ≠ '-' → c ≠ '=' →
      opts.find? (fun x => decide (x.val = (c.toNat : Int))) = some os →
      os.has_args = HasArgs.required_argument →
      Execute (Parser.make (pre ++ [['-', c]]) se opts) v s ec
        = some ⟨false, ⟨pre ++ [['-', c]], pre.length, se, r0.parser.uargs, opts⟩, r0.cb,
            ⟨"option '-".toList ++ [c] ++ "' missing parameter".toList, 1⟩⟩) ∧
    (∀ (name : List Char) (ol : option), '=' ∉ name →
      opts.find? (fun x => decide (x.name = name)) = some ol →
      ol.has_args = HasArgs.required_argument → ol.val ≠ -1 →
      Execute (Parser.make (pre ++ [('-' :: '-' :: name)]) se opts) v s ec
        = some ⟨false, ⟨pre ++ [('-' :: '-' :: name)], pre.length, se, r0.parser.uargs, opts⟩,
            r0.cb, ⟨"option '--".toList ++ name ++ "' missing parameter".toList, 1⟩⟩) := by
  constructor
  · intro c os hc1 hc2 hfs hrs
    apply Execute_fail_at v pre [] [c] se opts s ec r0 _ hpre hret hu
    rw [parse_internal_short_token _ _ _ _ _ _ hc1,
      parse_short_found _ c [] _ _ _ os hfs hc2, shortValue_one, hrs,
      if_neg (by simp), takeValue_missing _ _ _ _ _ _ _ _ (by simp)]
    simp
  · intro name ol hname hfl hrl hid
    obtain ⟨l1, l2, l3⟩ := long_no_eq name hname
    apply Execute_fail_at v pre [] ('-' :: name) se opts s ec r0 _ hpre hret hu
    rw [parse_internal_long_token,
      parse_long_found _ name _ _ _ ol (by rw [l2]; exact hfl) hid (by rw [l1]; omega),
      l2, l3, hrl, if_neg (by simp), takeValue_missing _ _ _ _ _ _ _ _ (by simp)]
    simp

/-- C11, amended, at two registries that each hold one usable spelling: with
`input` declared Required with id 105 (`i`), `prog -i` fails with `option '-i'
missing parameter`; with `depth` declared Required with id `-7`, which no short
token can spell, `prog --depth` fails with `option '--depth' missing
parameter`.  In both runs the log stays empty. -/
theorem C11_required_missing_value_witness :
    Execute (Parser.make (["prog".toList] ++ [['-', 'i']]) false
        [⟨"input".toList, HasArgs.required_argument, 105⟩])
      (traced (fun (s : Unit) _ _ _ => (true, s))) ((), []) error_code.init
      = some ⟨false, ⟨["prog".toList] ++ [['-', 'i']], 1, false, [],
            [⟨"input".toList, HasArgs.required_argument, 105⟩]⟩, ((), []),
          ⟨"option '-".toList ++ ['i'] ++ "' missing parameter".toList, 1⟩⟩ ∧
    Execute (Parser.make (["prog".toList] ++ [('-' :: '-' :: "depth".toList)]) false
        [⟨"depth".toList, HasArgs.required_argument, -7⟩])
      (traced (fun (s : Unit) _ _ _ => (true, s))) ((), []) error_code.init
      = some ⟨false, ⟨["prog".toList] ++ [('-' :: '-' :: "depth".toList)], 1, false, [],
            [⟨"depth".toList, HasArgs.required_argument, -7⟩]⟩, ((), []),
          ⟨"option '--".toList ++ "depth".toList ++ "' missing parameter".toList, 1⟩⟩ :=
  ⟨(C11_required_missing_value (traced (fun (s : Unit) _ _ _ => (true, s))) ["prog".toList]
      false [⟨"input".toList, HasArgs.required_argument, 105⟩] ((), []) error_code.init
      ⟨true, ⟨["prog".toList], 1, false, [],
          [⟨"input".toList, HasArgs.required_argument, 105⟩]⟩, ((), []), error_code.init⟩
      (by rfl) (by rfl) (Or.inl rfl)).1
      'i' ⟨"input".toList, HasArgs.required_argument, 105⟩
      (by decide) (by decide) (by rfl) (by rfl),
   (C11_required_missing_value (traced (fun (s : Unit) _ _ _ => (true, s))) ["prog".toList]
      false [⟨"depth".toList, HasArgs.required_argument, -7⟩] ((), []) error_code.init
      ⟨true, ⟨["prog".toList], 1, false, [],
          [⟨"depth".toList, HasArgs.required_argument, -7⟩]⟩, ((), []), error_code.init⟩
      (by rfl) (by rfl) (Or.inl rfl)).2
      "depth".toList ⟨"depth".toList, HasArgs.required_argument, -7⟩
      (by decide) (by rfl) (by rfl) (by decide)⟩

/-! ## Name and inline value of a long option -/

theorem parse_long_trailing_eq {σ : Type} (p : Parser) (n : List Char)
    (v : invoke_t σ) (s : σ) (ec : error_code) (hn : '=' ∉ n) :
    parse_internal p ('-' :: '-' :: (n ++ ['='])) v s ec
      = ⟨false, p, s, ⟨"unexpected argument '--".toList ++ (n ++ ['=']) ++ "'".toList, 1⟩⟩ := by
  obtain ⟨l1, _, _⟩ := long_eq n [] hn
  have h1 : (n ++ ['=']).indexOf '=' < (n ++ ['=']).length ∧
      (n ++ ['=']).indexOf '=' + 1 ≥ (n ++ ['=']).length := by
    rw [l1]; simp
  rw [parse_internal_long_token]
  simp only [parse_internal_long, if_pos h1, error_code.AssignCat, CatPieces]
  simp

/-- C13: in a long-option token `--rest` whose `rest` contains `=`, the name is
the text `n` before the first `=` and the inline value is all the text `val`
after it, which may hold further `=`.  Four parts, each on its own hypotheses:
the split itself, for every `n` without `=` and every `val`; a token `--n=val`
with `val` not empty, reached after tokens whose parse succeeded, whose name `n`
is registered (first descriptor `o`, id not `-1`, arity not None): the callback
is invoked once for it with the id of `o` and the value `val`; for every `n`
without `=`, registered or not, the option parser fails on `--n=` with kind 1 and
`unexpected argument '--n='` in every parser state, so whatever the registry
holds; and so does `Execute` at such a token reached after tokens whose parse
succeeded, whatever the registry holds, the callback not being invoked. -/
theorem C13_long_name_and_value {σ : Type} (v : invoke_t σ) :
    (∀ n val : List Char, '=' ∉ n →
      longName (n ++ '=' :: val) = n ∧ longValue (n ++ '=' :: val) = some val) ∧
    (∀ (pre post : List (List Char)) (se : Bool) (opts : List option) (s : σ)
        (ec : error_code) (r0 : Outcome (σ × List Call)) (n val : List Char) (o : option),
      Execute (Parser.make pre se opts) (traced v) (s, []) ec = some r0 →
      r0.ret = true → (se = false ∨ r0.parser.uargs = []) →
      '=' ∉ n → val ≠ [] →
      opts.find? (fun x => decide (x.name = n)) = some o →
      o.val ≠ -1 → o.has_args ≠ HasArgs.no_argument →
      ∃ r later,
        Execute (Parser.make (pre ++ ('-' :: '-' :: (n ++ '=' :: val)) :: post) se opts)
            (traced v) (s, []) ec = some r ∧
        r.cb.2 = r0.cb.2 ++
          (⟨o.val, some val, n ++ '=' :: val,
            (v r0.cb.1 o.val (some val) (n ++ '=' :: val)).1⟩ : Call) :: later ∧
        (post = [] → later = [])) ∧
    (∀ (n : List Char) (p : Parser) (s2 : σ × List Call) (ec2 : error_code), '=' ∉ n →
      parse_internal p ('-' :: '-' :: (n ++ ['='])) (traced v) s2 ec2
        = ⟨false, p, s2,
            ⟨"unexpected argument '--".toList ++ (n ++ ['=']) ++ "'".toList, 1⟩⟩) ∧
    (∀ (pre post : List (List Char)) (se : Bool) (opts : List option) (s : σ)
        (ec : error_code) (r0 : Outcome (σ × List Call)) (n : List Char),
      Execute (Parser.make pre se opts) (traced v) (s, []) ec = some r0 →
      r0.ret = true → (se = false ∨ r0.parser.uargs = []) →
      '=' ∉ n →
      Execute (Parser.make (pre ++ ('-' :: '-' :: (n ++ ['='])) :: post) se opts)
          (traced v) (s, []) ec
        = some ⟨false,
            ⟨pre ++ ('-' :: '-' :: (n ++ ['='])) :: post, pre.length, se, r0.parser.uargs,
              opts⟩,
            r0.cb, ⟨"unexpected argument '--".toList ++ (n ++ ['=']) ++ "'".toList, 1⟩⟩) := by
  refine ⟨?_, ?_, ?_, ?_⟩
  · intro n val hn
    obtain ⟨_, l2, l3⟩ := long_eq n val hn
    exact ⟨l2, l3⟩
  · intro pre post se opts s ec r0 n val o hpre hret hu hn hval hfind hid har
    obtain ⟨l1, l2, l3⟩ := long_eq n val hn
    have hlen : ¬ ((n ++ '=' :: val).indexOf '=' < (n ++ '=' :: val).length ∧
        (n ++ '=' :: val).indexOf '=' + 1 ≥ (n ++ '=' :: val).length) := by
      rw [l1]
      have : 0 < val.length := List.length_pos.2 hval
      simp only [List.length_append, List.length_cons]
      omega
    have hp : parse_internal
        ⟨pre ++ ('-' :: '-' :: (n ++ '=' :: val)) :: post, pre.length, se, r0.parser.uargs, opts⟩
        ('-' :: '-' :: (n ++ '=' :: val)) (traced v) r0.cb r0.ec
        = invoke
            ⟨pre ++ ('-' :: '-' :: (n ++ '=' :: val)) :: post, pre.length, se,
              r0.parser.uargs, opts⟩
            (traced v) r0.cb r0.ec o.val (some val) (n ++ '=' :: val) := by
      rw [parse_internal_long_token,
        parse_long_found _ _ _ _ _ o (by rw [l2]; exact hfind) hid hlen, l2, l3,
        if_neg (by simp [har]), takeValue_inline]
    obtain ⟨r, later, h1, h2, _, h4⟩ :=
      Execute_call_at v pre post ('-' :: (n ++ '=' :: val)) se opts s ec r0 hpre hret hu
        _ _ _ _ hp
    refine ⟨r, later, h1, h2, fun hpost => (h4 ?_).1⟩
    subst hpost
    simp
  · intro n p s2 ec2 hn
    exact parse_long_trailing_eq p n (traced v) s2 ec2 hn
  · intro pre post se opts s ec r0 n hpre hret hu hn
    exact Execute_fail_at (traced v) pre post ('-' :: (n ++ ['='])) se opts (s, []) ec r0 _
      hpre hret hu (parse_long_trailing_eq _ n (traced v) _ _ hn)

/-- C13 at concrete tokens: `define=a=b` splits into the name `define` and the
value `a=b`; with `define` registered (Required, id 68) the token `--define=a=b`
gives one call with the value `a=b`; `--define=` fails in every parser state;
and with an empty registry, so for a name that is not registered, `prog
--nosuch=` fails with `unexpected argument '--nosuch='` and an empty log. -/
theorem C13_long_name_and_value_witness :
    (longName ("define".toList ++ '=' :: "a=b".toList) = "define".toList ∧
      longValue ("define".toList ++ '=' :: "a=b".toList) = some "a=b".toList) ∧
    (∃ r later,
        Execute (Parser.make (["prog".toList] ++
              ('-' :: '-' :: ("define".toList ++ '=' :: "a=b".toList)) :: []) false
              [⟨"define".toList, HasArgs.required_argument, 68⟩])
            (traced (fun (s : Unit) _ _ _ => (true, s))) ((), []) error_code.init = some r ∧
        r.cb.2 = [] ++
          (⟨68, some "a=b".toList, "define".toList ++ '=' :: "a=b".toList, true⟩ : Call)
            :: later ∧
        (([] : List (List Char)) = [] → later = [])) ∧
    (∀ (p : Parser) (s2 : Unit × List Call) (ec2 : error_code),
      parse_internal p ('-' :: '-' :: ("define".toList ++ ['=']))
          (traced (fun (s : Unit) _ _ _ => (true, s))) s2 ec2
        = ⟨false, p, s2,
            ⟨"unexpected argument '--".toList ++ ("define".toList ++ ['=']) ++ "'".toList,
              1⟩⟩) ∧
    Execute (Parser.make (["prog".toList] ++ ('-' :: '-' :: ("nosuch".toList ++ ['='])) :: [])
          false [])
        (traced (fun (s : Unit) _ _ _ => (true, s))) ((), []) error_code.init
      = some ⟨false,
          ⟨["prog".toList] ++ ('-' :: '-' :: ("nosuch".toList ++ ['='])) :: [], 1, false, [],
            []⟩,
          ((), []),
          ⟨"unexpected argument '--".toList ++ ("nosuch".toList ++ ['=']) ++ "'".toList, 1⟩⟩ :=
  ⟨(C13_long_name_and_value (fun (s : Unit) _ _ _ => (true, s))).1
      "define".toList "a=b".toList (by decide),
   (C13_long_name_and_value (fun (s : Unit) _ _ _ => (true, s))).2.1
      ["prog".toList] [] false [⟨"define".toList, HasArgs.required_argument, 68⟩] ()
      error_code.init
      ⟨true, ⟨["prog".toList], 1, false, [],
          [⟨"define".toList, HasArgs.required_argument, 68⟩]⟩, ((), []), error_code.init⟩
      "define".toList "a=b".toList ⟨"define".toList, HasArgs.required_argument, 68⟩
      (by rfl) (by rfl) (Or.inl rfl) (by decide) (by decide) (by rfl) (by decide) (by decide),
   fun p s2 ec2 => (C13_long_name_and_value (fun (s : Unit) _ _ _ => (true, s))).2.2.1
      "define".toList p s2 ec2 (by decide),
   (C13_long_name_and_value (fun (s : Unit) _ _ _ => (true, s))).2.2.2
      ["prog".toList] [] false [] () error_code.init
      ⟨true, ⟨["prog".toList], 1, false, [], []⟩, ((), []), error_code.init⟩
      "nosuch".toList (by rfl) (by rfl) (Or.inl rfl) (by decide)⟩

/-! ## The first matching descriptor -/

theorem takeValue_message {σ : Type} (p : Parser) (v : invoke_t σ) (s : σ)
    (ec : error_code) (dash a : List Char) (ch : Int) (ha : HasArgs)
    (oa : Option (List Char)) (raw : List Char)
    (h : (takeValue p v s ec dash a ch ha oa raw).ret = false) :
    (takeValue p v s ec dash a ch ha oa raw).ec.message.head? = some 'o' ∨
      (takeValue p v s ec dash a ch ha oa raw).ec = ⟨"skip parse".toList, SkipParse⟩ := by
  have hinv : ∀ (q : Parser) (oa2 : Option (List Char)),
      (invoke q v s ec ch oa2 raw).ret = false →
      (invoke q v s ec ch oa2 raw).ec = ⟨"skip parse".toList, SkipParse⟩ := by
    intro q oa2 hq
    rw [invoke_ret] at hq
    rw [invoke_ec, if_pos hq]
  unfold takeValue at h ⊢
  split_ifs at h ⊢
  · left; simp [error_code.AssignCat, CatPieces]
  · right; exact hinv _ _ h
  · right; exact hinv _ _ h

theorem longValue_not_empty (a0 : List Char) (h : longValue a0 ≠ some []) :
    ¬ (a0.indexOf '=' < a0.length ∧ a0.indexOf '=' + 1 ≥ a0.length) := by
  rintro ⟨h1, h2⟩
  apply h
  simp only [longValue, if_pos h1, Option.some.injEq, List.drop_eq_nil_iff]
  exact h2

/-- The logged call and the outcome of `takeValue` when the option does not wait
for the next token: one call with the id and the inline value as they are. -/
theorem takeValue_traced_call {σ : Type} (p : Parser) (v : invoke_t σ) (s : σ × List Call)
    (ec : error_code) (dash a : List Char) (ch : Int) (ha : HasArgs)
    (oa : Option (List Char)) (raw : List Char)
    (h : ¬ (oa = none ∧ ha = HasArgs.required_argument)) :
    (takeValue p (traced v) s ec dash a ch ha oa raw).cb.2
        = s.2 ++ [(⟨ch, oa, raw, (v s.1 ch oa raw).1⟩ : Call)] ∧
      (takeValue p (traced v) s ec dash a ch ha oa raw).ret = (v s.1 ch oa raw).1 ∧
      (takeValue p (traced v) s ec dash a ch ha oa raw).parser = p := by
  have e : takeValue p (traced v) s ec dash a ch ha oa raw
      = invoke p (traced v) s ec ch oa raw := by
    simp only [takeValue, if_neg h]
  obtain ⟨i1, i2, _⟩ := invoke_traced p v s ec ch oa raw
  rw [e]
  exact ⟨i1, i2, invoke_parser_eq ..⟩

/-- The logged call and the outcome of `takeValue` when a Required option
without inline value has a next token: one call with that token as the value,
and the cursor moved onto it. -/
theorem takeValue_traced_call_next {σ : Type} (p : Parser) (v : invoke_t σ)
    (s : σ × List Call) (ec : error_code) (dash a : List Char) (ch : Int) (raw : List Char)
    (h : p.index + 1 < p.argv_.length) :
    (takeValue p (traced v) s ec dash a ch HasArgs.required_argument none raw).cb.2
        = s.2 ++ [(⟨ch, some (p.argv_.getD (p.index + 1) []), raw,
            (v s.1 ch (some (p.argv_.getD (p.index + 1) [])) raw).1⟩ : Call)] ∧
      (takeValue p (traced v) s ec dash a ch HasArgs.required_argument none raw).ret
        = (v s.1 ch (some (p.argv_.getD (p.index + 1) [])) raw).1 ∧
      (takeValue p (traced v) s ec dash a ch HasArgs.required_argument none raw).parser
        = { p with index := p.index + 1 } := by
  obtain ⟨i1, i2, _⟩ := invoke_traced { p with index := p.index + 1 } v s ec ch
    (some (p.argv_.getD (p.index + 1) [])) raw
  rw [takeValue_next _ _ _ _ _ _ _ _ h]
  exact ⟨i1, i2, invoke_parser_eq ..⟩

/-- C12 as stated fails, in four ways, each at a token that matches a
descriptor as the claim words it.  With `eq` registered with id 61, the character
code of `=`, the short token `-=v` has a leading character whose code is a
registered id, yet the parser fails with `unexpected argument '-=v'` before any
lookup and the callback is never invoked.  With `dash` registered with id 45, the
character code of `-`, the token `-c` is `--`: it is read as a long option and
reported as `unregistered option '--'`.  With `neg` registered with id `-1`, the
long token `--neg` names a registered option and is reported as `unregistered
option '--neg'`.  And with `input` registered, the long token `--input=`, whose
name is `input`, fails with `unexpected argument '--input='` before any lookup. -/
theorem C12_counterexample_not_resolved :
    ((61 : Int) = ('='.toNat : Int) ∧
      Execute (Parser.make ["prog".toList, "-=v".toList] false
          [⟨"eq".toList, HasArgs.optional_argument, 61⟩])
        (traced (fun (s : Unit) _ _ _ => (true, s))) ((), []) error_code.init
        = some ⟨false, ⟨["prog".toList, "-=v".toList], 1, false, [],
              [⟨"eq".toList, HasArgs.optional_argument, 61⟩]⟩, ((), []),
            ⟨"unexpected argument '-=v'".toList, 1⟩⟩) ∧
    ((45 : Int) = ('-'.toNat : Int) ∧
      Execute (Parser.make ["prog".toList, "--".toList] false
          [⟨"dash".toList, HasArgs.no_argument, 45⟩])
        (traced (fun (s : Unit) _ _ _ => (true, s))) ((), []) error_code.init
        = some ⟨false, ⟨["prog".toList, "--".toList], 1, false, [],
              [⟨"dash".toList, HasArgs.no_argument, 45⟩]⟩, ((), []),
            ⟨"unregistered option '--'".toList, 1⟩⟩) ∧
    Execute (Parser.make ["prog".toList, "--neg".toList] false
        [⟨"neg".toList, HasArgs.no_argument, -1⟩])
      (traced (fun (s : Unit) _ _ _ => (true, s))) ((), []) error_code.init
      = some ⟨false, ⟨["prog".toList, "--neg".toList], 1, false, [],
            [⟨"neg".toList, HasArgs.no_argument, -1⟩]⟩, ((), []),
          ⟨"unregistered option '--neg'".toList, 1⟩⟩ ∧
    Execute (Parser.make ["prog".toList, "--input=".toList] false
        [⟨"input".toList, HasArgs.required_argument, 105⟩])
      (traced (fun (s : Unit) _ _ _ => (true, s))) ((), []) error_code.init
      = some ⟨false, ⟨["prog".toList, "--input=".toList], 1, false, [],
            [⟨"input".toList, HasArgs.required_argument, 105⟩]⟩, ((), []),
          ⟨"unexpected argument '--input='".toList, 1⟩⟩ :=
  ⟨⟨by decide, by rfl⟩, ⟨by decide, by rfl⟩, by rfl, by rfl⟩

/-- C12, amended (first registered wins), in every parser state `p` and for
every callback, whose calls are logged.  Short form: for a token `-c...` (`c`
neither `-` nor `=`) and a registry `bs ++ os :: ts` in which no descriptor of
`bs` has the code of `c` as id and `os` has it, whatever `ts` holds.  Long form:
for a token `--a0` whose inline value is not present-and-empty and a registry
`bl ++ ol :: tl` in which no descriptor of `bl` has the token's name and `ol` has
it, with an id other than `-1`, whatever `tl` holds.  Each form, on its own
hypotheses, says that the option parser acts by the arity of that first
descriptor and passes its id to the callback: with an inline value and arity
None it fails with `unexpected parameter` and does not call; without inline
value and with arity Required it fails with `missing parameter` and does not
call when no token follows, and otherwise calls the callback once with the id of
the first descriptor and the next token as value, moving the cursor onto it; in
every other case it calls the callback once with the id of the first descriptor
and the inline value (absent when there is none), the cursor unmoved.  When
it calls, it returns what the callback returned.  A failure at such a token is
never the report of an unregistered option: its message begins `option '` or is
`skip parse`. -/
theorem C12_first_registered_wins {σ : Type} (p : Parser) (v : invoke_t σ)
    (s : σ × List Call) (ec : error_code) :
    (∀ (bs ts : List option) (os : option) (c : Char) (rest : List Char),
      p.options_ = bs ++ os :: ts → (∀ x ∈ bs, x.val ≠ (c.toNat : Int)) →
      os.val = (c.toNat : Int) → c ≠ '-' → c ≠ '=' →
      (shortValue (c :: rest) ≠ none → os.has_args = HasArgs.no_argument →
        parse_internal p ('-' :: c :: rest) (traced v) s ec
          = ⟨false, p, s, ⟨"option '-".toList ++ [c] ++ "' unexpected parameter: ".toList
              ++ (shortValue (c :: rest)).getD [], 1⟩⟩) ∧
      (shortValue (c :: rest) = none → os.has_args = HasArgs.required_argument →
        p.argv_.length ≤ p.index + 1 →
        parse_internal p ('-' :: c :: rest) (traced v) s ec
          = ⟨false, p, s,
              ⟨"option '-".toList ++ (c :: rest) ++ "' missing parameter".toList, 1⟩⟩) ∧
      (shortValue (c :: rest) = none → os.has_args = HasArgs.required_argument →
        p.index + 1 < p.argv_.length →
        (parse_internal p ('-' :: c :: rest) (traced v) s ec).cb.2
          = s.2 ++ [(⟨os.val, some (p.argv_.getD (p.index + 1) []), c :: rest,
              (v s.1 os.val (some (p.argv_.getD (p.index + 1) [])) (c :: rest)).1⟩ : Call)] ∧
        (parse_internal p ('-' :: c :: rest) (traced v) s ec).ret
          = (v s.1 os.val (some (p.argv_.getD (p.index + 1) [])) (c :: rest)).1 ∧
        (parse_internal p ('-' :: c :: rest) (traced v) s ec).parser
          = { p with index := p.index + 1 }) ∧
      (¬ (shortValue (c :: rest) ≠ none ∧ os.has_args = HasArgs.no_argument) →
        ¬ (shortValue (c :: rest) = none ∧ os.has_args = HasArgs.required_argument) →
        (parse_internal p ('-' :: c :: rest) (traced v) s ec).cb.2
          = s.2 ++ [(⟨os.val, shortValue (c :: rest), c :: rest,
              (v s.1 os.val (shortValue (c :: rest)) (c :: rest)).1⟩ : Call)] ∧
        (parse_internal p ('-' :: c :: rest) (traced v) s ec).ret
          = (v s.1 os.val (shortValue (c :: rest)) (c :: rest)).1 ∧
        (parse_internal p ('-' :: c :: rest) (traced v) s ec).parser = p) ∧
      ((parse_internal p ('-' :: c :: rest) (traced v) s ec).ret = false →
        (parse_internal p ('-' :: c :: rest) (traced v) s ec).ec.message.head? = some 'o' ∨
        (parse_internal p ('-' :: c :: rest) (traced v) s ec).ec
          = ⟨"skip parse".toList, SkipParse⟩)) ∧
    (∀ (bl tl : List option) (ol : option) (a0 : List Char),
      p.options_ = bl ++ ol :: tl → (∀ x ∈ bl, x.name ≠ longName a0) →
      ol.name = longName a0 → ol.val ≠ -1 → longValue a0 ≠ some [] →
      (longValue a0 ≠ none → ol.has_args = HasArgs.no_argument →
        parse_internal p ('-' :: '-' :: a0) (traced v) s ec
          = ⟨false, p, s,
              ⟨"option '--".toList ++ longName a0 ++ "' unexpected parameter: ".toList
                ++ (longValue a0).getD [], 1⟩⟩) ∧
      (longValue a0 = none → ol.has_args = HasArgs.required_argument →
        p.argv_.length ≤ p.index + 1 →
        parse_internal p ('-' :: '-' :: a0) (traced v) s ec
          = ⟨false, p, s,
              ⟨"option '--".toList ++ longName a0 ++ "' missing parameter".toList, 1⟩⟩) ∧
      (longValue a0 = none → ol.has_args = HasArgs.required_argument →
        p.index + 1 < p.argv_.length →
        (parse_internal p ('-' :: '-' :: a0) (traced v) s ec).cb.2
          = s.2 ++ [(⟨ol.val, some (p.argv_.getD (p.index + 1) []), a0,
              (v s.1 ol.val (some (p.argv_.getD (p.index + 1) [])) a0).1⟩ : Call)] ∧
        (parse_internal p ('-' :: '-' :: a0) (traced v) s ec).ret
          = (v s.1 ol.val (some (p.argv_.getD (p.index + 1) [])) a0).1 ∧
        (parse_internal p ('-' :: '-' :: a0) (traced v) s ec).parser
          = { p with index := p.index + 1 }) ∧
      (¬ (longValue a0 ≠ none ∧ ol.has_args = HasArgs.no_argument) →
        ¬ (longValue a0 = none ∧ ol.has_args = HasArgs.required_argument) →
        (parse_internal p ('-' :: '-' :: a0) (traced v) s ec).cb.2
          = s.2 ++ [(⟨ol.val, longValue a0, a0, (v s.1 ol.val (longValue a0) a0).1⟩ : Call)] ∧
        (parse_internal p ('-' :: '-' :: a0) (traced v) s ec).ret
          = (v s.1 ol.val (longValue a0) a0).1 ∧
        (parse_internal p ('-' :: '-' :: a0) (traced v) s ec).parser = p) ∧
      ((parse_internal p ('-' :: '-' :: a0) (traced v) s ec).ret = false →
        (parse_internal p ('-' :: '-' :: a0) (traced v) s ec).ec.message.head? = some 'o' ∨
        (parse_internal p ('-' :: '-' :: a0) (traced v) s ec).ec
          = ⟨"skip parse".toList, SkipParse⟩)) := by
  constructor
  · intro bs ts os c rest hs hbs hos hc1 hc2
    have hfs : p.options_.find? (fun x => decide (x.val = (c.toNat : Int))) = some os := by
      rw [hs]
      exact find?_first bs ts os _ (fun x hx => by simpa using hbs x hx) (by simpa using hos)
    have e1 : parse_internal p ('-' :: c :: rest) (traced v) s ec
        = if shortValue (c :: rest) ≠ none ∧ os.has_args = HasArgs.no_argument then
            ⟨false, p, s, ⟨"option '-".toList ++ [c] ++ "' unexpected parameter: ".toList
              ++ (shortValue (c :: rest)).getD [], 1⟩⟩
          else
            takeValue p (traced v) s ec "-".toList (c :: rest) os.val os.has_args
              (shortValue (c :: rest)) (c :: rest) := by
      rw [parse_internal_short_token _ _ _ _ _ _ hc1,
        parse_short_found p c rest (traced v) s ec os hfs hc2, hos]
    refine ⟨?_, ?_, ?_, ?_, ?_⟩
    · intro h1 h2
      rw [e1, if_pos ⟨h1, h2⟩]
    · intro h1 h2 h3
      rw [e1, if_neg (fun h => h.1 h1), h1, h2, takeValue_missing _ _ _ _ _ _ _ _ h3]
      simp
    · intro h1 h2 h3
      rw [e1, if_neg (fun h => h.1 h1), h1, h2]
      exact takeValue_traced_call_next p v s ec _ _ _ _ h3
    · intro h1 h2
      rw [e1, if_neg h1]
      exact takeValue_traced_call p v s ec _ _ _ _ _ _ h2
    · rw [e1]
      split_ifs
      · intro _; left; rfl
      · exact fun h => takeValue_message _ _ _ _ _ _ _ _ _ _ h
  · intro bl tl ol a0 hl hbl hol hid ha0
    have hfl : p.options_.find? (fun x => decide (x.name = longName a0)) = some ol := by
      rw [hl]
      exact find?_first bl tl ol _ (fun x hx => by simpa using hbl x hx) (by simpa using hol)
    have e2 : parse_internal p ('-' :: '-' :: a0) (traced v) s ec
        = if longValue a0 ≠ none ∧ ol.has_args = HasArgs.no_argument then
            ⟨false, p, s,
              ⟨"option '--".toList ++ longName a0 ++ "' unexpected parameter: ".toList
                ++ (longValue a0).getD [], 1⟩⟩
          else
            takeValue p (traced v) s ec "--".toList (longName a0) ol.val ol.has_args
              (longValue a0) a0 := by
      rw [parse_internal_long_token,
        parse_long_found p a0 (traced v) s ec ol hfl hid (longValue_not_empty a0 ha0)]
    refine ⟨?_, ?_, ?_, ?_, ?_⟩
    · intro h1 h2
      rw [e2, if_pos ⟨h1, h2⟩]
    · intro h1 h2 h3
      rw [e2, if_neg (fun h => h.1 h1), h1, h2, takeValue_missing _ _ _ _ _ _ _ _ h3]
      simp
    · intro h1 h2 h3
      rw [e2, if_neg (fun h => h.1 h1), h1, h2]
      exact takeValue_traced_call_next p v s ec _ _ _ _ h3
    · intro h1 h2
      rw [e2, if_neg h1]
      exact takeValue_traced_call p v s ec _ _ _ _ _ _ h2
    · rw [e2]
      split_ifs
      · intro _; left; rfl
      · exact fun h => takeValue_message _ _ _ _ _ _ _ _ _ _ h

/-- C12, amended, at two registries with a duplicate.  With `input` declared
twice with id 105 (`i`), first Required and then with no argument, after an
unrelated `x`: the token `-i` followed by `v` is parsed by the first declaration,
so the callback gets id 105 and the value `v` and the cursor moves onto `v`.  With
`depth` declared twice with id `-7`, first Required and then with no argument:
the token `--depth=5` is parsed by the first declaration, so the callback gets id
`-7` and the value `5` where the second declaration would refuse a value. -/
theorem C12_first_registered_wins_witness :
    ((parse_internal
          ⟨["prog".toList, "-i".toList, "v".toList], 1, false, [],
            [⟨"x".toList, HasArgs.no_argument, 120⟩,
             ⟨"input".toList, HasArgs.required_argument, 105⟩,
             ⟨"input".toList, HasArgs.no_argument, 105⟩]⟩
          ('-' :: 'i' :: []) (traced (fun (s : Unit) _ _ _ => (true, s))) ((), [])
          error_code.init).cb.2
        = [] ++ [(⟨105, some "v".toList, ['i'], true⟩ : Call)] ∧
      (parse_internal
          ⟨["prog".toList, "-i".toList, "v".toList], 1, false, [],
            [⟨"x".toList, HasArgs.no_argument, 120⟩,
             ⟨"input".toList, HasArgs.required_argument, 105⟩,
             ⟨"input".toList, HasArgs.no_argument, 105⟩]⟩
          ('-' :: 'i' :: []) (traced (fun (s : Unit) _ _ _ => (true, s))) ((), [])
          error_code.init).ret = true ∧
      (parse_internal
          ⟨["prog".toList, "-i".toList, "v".toList], 1, false, [],
            [⟨"x".toList, HasArgs.no_argument, 120⟩,
             ⟨"input".toList, HasArgs.required_argument, 105⟩,
             ⟨"input".toList, HasArgs.no_argument, 105⟩]⟩
          ('-' :: 'i' :: []) (traced (fun (s : Unit) _ _ _ => (true, s))) ((), [])
          error_code.init).parser
        = ⟨["prog".toList, "-i".toList, "v".toList], 1 + 1, false, [],
            [⟨"x".toList, HasArgs.no_argument, 120⟩,
             ⟨"input".toList, HasArgs.required_argument, 105⟩,
             ⟨"input".toList, HasArgs.no_argument, 105⟩]⟩) ∧
    ((parse_internal
          ⟨["prog".toList, "--depth=5".toList], 1, false, [],
            [⟨"depth".toList, HasArgs.required_argument, -7⟩,
             ⟨"depth".toList, HasArgs.no_argument, -7⟩]⟩
          ('-' :: '-' :: "depth=5".toList) (traced (fun (s : Unit) _ _ _ => (true, s)))
          ((), []) error_code.init).cb.2
        = [] ++ [(⟨-7, some "5".toList, "depth=5".toList, true⟩ : Call)] ∧
      (parse_internal
          ⟨["prog".toList, "--depth=5".toList], 1, false, [],
            [⟨"depth".toList, HasArgs.required_argument, -7⟩,
             ⟨"depth".toList, HasArgs.no_argument, -7⟩]⟩
          ('-' :: '-' :: "depth=5".toList) (traced (fun (s : Unit) _ _ _ => (true, s)))
          ((), []) error_code.init).ret = true ∧
      (parse_internal
          ⟨["prog".toList, "--depth=5".toList], 1, false, [],
            [⟨"depth".toList, HasArgs.required_argument, -7⟩,
             ⟨"depth".toList, HasArgs.no_argument, -7⟩]⟩
          ('-' :: '-' :: "depth=5".toList) (traced (fun (s : Unit) _ _ _ => (true, s)))
          ((), []) error_code.init).parser
        = ⟨["prog".toList, "--depth=5".toList], 1, false, [],
            [⟨"depth".toList, HasArgs.required_argument, -7⟩,
             ⟨"depth".toList, HasArgs.no_argument, -7⟩]⟩) :=
  ⟨((C12_first_registered_wins
        ⟨["prog".toList, "-i".toList, "v".toList], 1, false, [],
          [⟨"x".toList, HasArgs.no_argument, 120⟩,
           ⟨"input".toList, HasArgs.required_argument, 105⟩,
           ⟨"input".toList, HasArgs.no_argument, 105⟩]⟩
        (fun (s : Unit) _ _ _ => (true, s)) ((), []) error_code.init).1
      [⟨"x".toList, HasArgs.no_argument, 120⟩] [⟨"input".toList, HasArgs.no_argument, 105⟩]
      ⟨"input".toList, HasArgs.required_argument, 105⟩ 'i' []
      (by rfl) (by decide) (by rfl) (by decide) (by decide)).2.2.1
      (by rfl) (by rfl) (by decide),
   ((C12_first_registered_wins
        ⟨["prog".toList, "--depth=5".toList], 1, false, [],
          [⟨"depth".toList, HasArgs.required_argument, -7⟩,
           ⟨"depth".toList, HasArgs.no_argument, -7⟩]⟩
        (fun (s : Unit) _ _ _ => (true, s)) ((), []) error_code.init).2
      [] [⟨"depth".toList, HasArgs.no_argument, -7⟩]
      ⟨"depth".toList, HasArgs.required_argument, -7⟩ "depth=5".toList
      (by rfl) (by decide) (by rfl) (by decide) (by decide)).2.2.2.1
      (by decide) (by decide)⟩

/-! ## The token after a Required option -/

/-- An option token, reached after tokens whose parse succeeded, at which the
callback is invoked and after which (and after the value it took) no token is
left: the parse ends there with the one call logged, the positional tokens as
they were and the callback's answer as return value. -/
theorem Execute_call_last {σ : Type} (v : invoke_t σ) (pre post : List (List Char))
    (t : List Char) (se : Bool) (opts : List option) (s : σ) (ec : error_code)
    (r0 : Outcome (σ × List Call))
    (hpre : Execute (Parser.make pre se opts) (traced v) (s, []) ec = some r0)
    (hret : r0.ret = true) (hu : se = false ∨ r0.parser.uargs = [])
    (ch : Int) (oa : Option (List Char)) (raw : List Char) (j : Nat)
    (hp : parse_internal ⟨pre ++ ('-' :: t) :: post, pre.length, se, r0.parser.uargs, opts⟩
        ('-' :: t) (traced v) r0.cb r0.ec
      = invoke ⟨pre ++ ('-' :: t) :: post, j, se, r0.parser.uargs, opts⟩
          (traced v) r0.cb r0.ec ch oa raw)
    (hlast : (pre ++ ('-' :: t) :: post).length ≤ j + 1) :
    ∃ r, Execute (Parser.make (pre ++ ('-' :: t) :: post) se opts) (traced v) (s, []) ec
        = some r ∧
      r.cb.2 = r0.cb.2 ++ [(⟨ch, oa, raw, (v r0.cb.1 ch oa raw).1⟩ : Call)] ∧
      r.parser.uargs = r0.parser.uargs ∧
      r.ret = (v r0.cb.1 ch oa raw).1 := by
  cases hres : (v r0.cb.1 ch oa raw).1
  · -- the callback returns false
    obtain ⟨i1, i2, i3⟩ := invoke_traced
      ⟨pre ++ ('-' :: t) :: post, j, se, r0.parser.uargs, opts⟩ v r0.cb r0.ec ch oa raw
    rw [Parser.make_eq] at hpre ⊢
    obtain ⟨_, _, h3⟩ := Execute_extend (traced v) pre (('-' :: t) :: post) 0 se [] opts
      (s, []) ec r0 hpre hret hu
    have hf := loop_at_fail (traced v) 0 pre post t se r0.parser.uargs opts r0.cb r0.ec
      (by rw [hp, i2, hres])
    refine ⟨_, h3 1 _ hf, ?_, ?_, ?_⟩
    · rw [hp, i1, hres]
    · rw [hp, invoke_parser_eq]
    · rw [hp, i2, hres]
  · -- the callback returns true
    have hr := Execute_resume v pre post t se opts s ec r0 hpre hret hu ch oa raw j hp hres
    cases hlen : (pre ++ ('-' :: t) :: post).length with
    | zero => simp at hlen
    | succ n =>
      rw [hlen, loop_exit (traced v) n _ _ ec (by simp only; omega)] at hr
      exact ⟨_, hr, rfl, rfl, rfl⟩

/-- C17 as stated fails, in two ways.  With `eq` declared Required with id 61,
the character code of `=`, the token `-=` carries no inline value and is followed
by the token `t`, but the callback never receives `t`: `Execute` fails with
`unexpected argument '-='` and the log stays empty.  And with `x` of arity None
registered with id 105 before the Required `input` with the same id, in `prog -i
t` the token `-i` is parsed by the first of the two: the callback is invoked with
an absent value, and `t` is appended to the positional list. -/
theorem C17_counterexample_value_not_taken :
    ((61 : Int) = ('='.toNat : Int) ∧
      Execute (Parser.make ["prog".toList, ['-', '='], "t".toList] false
          [⟨"eq".toList, HasArgs.required_argument, 61⟩])
        (traced (fun (s : Unit) _ _ _ => (true, s))) ((), []) error_code.init
        = some ⟨false, ⟨["prog".toList, ['-', '='], "t".toList], 1, false, [],
              [⟨"eq".toList, HasArgs.required_argument, 61⟩]⟩, ((), []),
            ⟨"unexpected argument '-='".toList, 1⟩⟩) ∧
    Execute (Parser.make ["prog".toList, "-i".toList, "t".toList] false
        [⟨"x".toList, HasArgs.no_argument, 105⟩,
         ⟨"input".toList, HasArgs.required_argument, 105⟩])
      (traced (fun (s : Unit) _ _ _ => (true, s))) ((), []) error_code.init
      = some ⟨true, ⟨["prog".toList, "-i".toList, "t".toList], 3, false, ["t".toList],
            [⟨"x".toList, HasArgs.no_argument, 105⟩,
             ⟨"input".toList, HasArgs.required_argument, 105⟩]⟩,
          ((), [⟨105, none, "i".toList, true⟩]), error_code.init⟩ :=
  ⟨⟨by decide, by rfl⟩, by rfl⟩

/-- C17, amended.  Let the tokens `pre` parse successfully as an array of their
own (with subcommand mode on, without a positional token among them), so that
the main loop reaches the token after them, and let `t` be any token.  Short
form: for every character `c` other than `-` and `=` such that the first
descriptor registered with the character code of `c` as id is declared Required,
the token `-c` followed by `t`.  Long form: for every name without `=` such that
the first descriptor registered with that name is declared Required and has an
id other than `-1`, the token `--name` followed by `t`.  In each form, on its own
hypotheses: the callback is invoked for the option with `t` as its value,
whatever `t` is; when the callback returns true the parse is the main loop
resumed after `t` (index `pre.length + 2`) with the positional list as it was and
that one call logged, so `t` is neither dispatched as an option nor appended to
the positional list; and when `t` is the last token the parse ends with exactly
that call logged and the positional list as it was. -/
theorem C17_required_takes_next {σ : Type} (v : invoke_t σ) (pre post : List (List Char))
    (se : Bool) (opts : List option) (s : σ) (ec : error_code)
    (r0 : Outcome (σ × List Call)) (t : List Char)
    (hpre : Execute (Parser.make pre se opts) (traced v) (s, []) ec = some r0)
    (hret : r0.ret = true) (hu : se = false ∨ r0.parser.uargs = []) :
    (∀ (c : Char) (os : option), c ≠ '-' → c ≠ '=' →
      opts.find? (fun x => decide (x.val = (c.toNat : Int))) = some os →
      os.has_args = HasArgs.required_argument →
      (∃ r later,
        Execute (Parser.make (pre ++ ['-', c] :: t :: post) se opts) (traced v) (s, []) ec
          = some r ∧
        r.cb.2 = r0.cb.2 ++
          (⟨(c.toNat : Int), some t, [c],
            (v r0.cb.1 (c.toNat : Int) (some t) [c]).1⟩ : Call) :: later) ∧
      ((v r0.cb.1 (c.toNat : Int) (some t) [c]).1 = true →
        Execute (Parser.make (pre ++ ['-', c] :: t :: post) se opts) (traced v) (s, []) ec
          = Execute.loop (traced v) (pre ++ ['-', c] :: t :: post).length
              ⟨pre ++ ['-', c] :: t :: post, pre.length + 2, se, r0.parser.uargs, opts⟩
              ((v r0.cb.1 (c.toNat : Int) (some t) [c]).2,
                r0.cb.2 ++ [(⟨(c.toNat : Int), some t, [c], true⟩ : Call)]) ec) ∧
      (post = [] →
        ∃ r, Execute (Parser.make (pre ++ ['-', c] :: t :: post) se opts) (traced v)
            (s, []) ec = some r ∧
          r.cb.2 = r0.cb.2 ++
            [(⟨(c.toNat : Int), some t, [c],
              (v r0.cb.1 (c.toNat : Int) (some t) [c]).1⟩ : Call)] ∧
          r.parser.uargs = r0.parser.uargs ∧
          r.ret = (v r0.cb.1 (c.toNat : Int) (some t) [c]).1)) ∧
    (∀ (name : List Char) (ol : option), '=' ∉ name →
      opts.find? (fun x => decide (x.name = name)) = some ol →
      ol.has_args = HasArgs.required_argument → ol.val ≠ -1 →
      (∃ r later,
        Execute (Parser.make (pre ++ ('-' :: '-' :: name) :: t :: post) se opts) (traced v)
            (s, []) ec = some r ∧
        r.cb.2 = r0.cb.2 ++
          (⟨ol.val, some t, name, (v r0.cb.1 ol.val (some t) name).1⟩ : Call) :: later) ∧
      ((v r0.cb.1 ol.val (some t) name).1 = true →
        Execute (Parser.make (pre ++ ('-' :: '-' :: name) :: t :: post) se opts) (traced v)
            (s, []) ec
          = Execute.loop (traced v) (pre ++ ('-' :: '-' :: name) :: t :: post).length
              ⟨pre ++ ('-' :: '-' :: name) :: t :: post, pre.length + 2, se, r0.parser.uargs,
                opts⟩
              ((v r0.cb.1 ol.val (some t) name).2,
                r0.cb.2 ++ [(⟨ol.val, some t, name, true⟩ : Call)]) ec) ∧
      (post = [] →
        ∃ r, Execute (Parser.make (pre ++ ('-' :: '-' :: name) :: t :: post) se opts)
            (traced v) (s, []) ec = some r ∧
          r.cb.2 = r0.cb.2 ++
            [(⟨ol.val, some t, name, (v r0.cb.1 ol.val (some t) name).1⟩ : Call)] ∧
          r.parser.uargs = r0.parser.uargs ∧
          r.ret = (v r0.cb.1 ol.val (some t) name).1)) := by
  have key : ∀ (tk : List Char) (id : Int) (raw : List Char),
      parse_internal ⟨pre ++ ('-' :: tk) :: t :: post, pre.length, se, r0.parser.uargs, opts⟩
          ('-' :: tk) (traced v) r0.cb r0.ec
        = invoke ⟨pre ++ ('-' :: tk) :: t :: post, pre.length + 1, se, r0.parser.uargs, opts⟩
            (traced v) r0.cb r0.ec id (some t) raw →
      (∃ r later,
        Execute (Parser.make (pre ++ ('-' :: tk) :: t :: post) se opts) (traced v) (s, []) ec
          = some r ∧
        r.cb.2 = r0.cb.2 ++
          (⟨id, some t, raw, (v r0.cb.1 id (some t) raw).1⟩ : Call) :: later) ∧
      ((v r0.cb.1 id (some t) raw).1 = true →
        Execute (Parser.make (pre ++ ('-' :: tk) :: t :: post) se opts) (traced v) (s, []) ec
          = Execute.loop (traced v) (pre ++ ('-' :: tk) :: t :: post).length
              ⟨pre ++ ('-' :: tk) :: t :: post, pre.length + 2, se, r0.parser.uargs, opts⟩
              ((v r0.cb.1 id (some t) raw).2,
                r0.cb.2 ++ [(⟨id, some t, raw, true⟩ : Call)]) ec) ∧
      (post = [] →
        ∃ r, Execute (Parser.make (pre ++ ('-' :: tk) :: t :: post) se opts) (traced v)
            (s, []) ec = some r ∧
          r.cb.2 = r0.cb.2 ++
            [(⟨id, some t, raw, (v r0.cb.1 id (some t) raw).1⟩ : Call)] ∧
          r.parser.uargs = r0.parser.uargs ∧
          r.ret = (v r0.cb.1 id (some t) raw).1) := by
    intro tk id raw hp
    refine ⟨?_, ?_, ?_⟩
    · obtain ⟨r, later, h1, h2, _, _⟩ :=
        Execute_call_at v pre (t :: post) tk se opts s ec r0 hpre hret hu _ _ _ _ hp
      exact ⟨r, later, h1, h2⟩
    · intro hres
      exact Execute_resume v pre (t :: post) tk se opts s ec r0 hpre hret hu _ _ _ _ hp hres
    · intro hpost
      subst hpost
      exact Execute_call_last v pre [t] tk se opts s ec r0 hpre hret hu _ _ _ _ hp (by simp)
  constructor
  · intro c os hc1 hc2 hfs hrs
    apply key [c] (c.toNat : Int) [c]
    rw [parse_internal_short_token _ _ _ _ _ _ hc1,
      parse_short_found _ c [] _ _ _ os hfs hc2, shortValue_one, hrs,
      if_neg (by simp), takeValue_next _ _ _ _ _ _ _ _ (by simp)]
    simp only [getD_after_end]
  · intro name ol hname hfl hrl hid
    obtain ⟨l1, l2, l3⟩ := long_no_eq name hname
    apply key ('-' :: name) ol.val name
    rw [parse_internal_long_token,
      parse_long_found _ name _ _ _ ol (by rw [l2]; exact hfl) hid (by rw [l1]; omega),
      l2, l3, hrl, if_neg (by simp), takeValue_next _ _ _ _ _ _ _ _ (by simp)]
    simp only [getD_after_end]

/-- C17, amended, at two registries.  With `input` (Required, id 105) and `bool`
(no argument, id 98), in `prog -i -b` the token `-b` is the value of `input`: one
call is logged, none for `bool`, and nothing is positional.  With `depth`
(Required, id `-7`, which no short token can spell) alone, in `prog --depth ""`
the empty token is the value of `depth` and nothing is positional. -/
theorem C17_required_takes_next_witness :
    (∃ r, Execute (Parser.make (["prog".toList] ++ ['-', 'i'] :: "-b".toList :: []) false
            [⟨"input".toList, HasArgs.required_argument, 105⟩,
             ⟨"bool".toList, HasArgs.no_argument, 98⟩])
          (traced (fun (s : Unit) _ _ _ => (true, s))) ((), []) error_code.init = some r ∧
          r.cb.2 = [] ++ [(⟨105, some "-b".toList, ['i'], true⟩ : Call)] ∧
          r.parser.uargs = [] ∧
          r.ret = true) ∧
    (∃ r, Execute (Parser.make (["prog".toList] ++
            ('-' :: '-' :: "depth".toList) :: [] :: []) false
            [⟨"depth".toList, HasArgs.required_argument, -7⟩])
          (traced (fun (s : Unit) _ _ _ => (true, s))) ((), []) error_code.init = some r ∧
          r.cb.2 = [] ++ [(⟨-7, some [], "depth".toList, true⟩ : Call)] ∧
          r.parser.uargs = [] ∧
          r.ret = true) :=
  ⟨((C17_required_takes_next (fun (s : Unit) _ _ _ => (true, s)) ["prog".toList] [] false
      [⟨"input".toList, HasArgs.required_argument, 105⟩,
       ⟨"bool".toList, HasArgs.no_argument, 98⟩]
      () error_code.init
      ⟨true, ⟨["prog".toList], 1, false, [],
          [⟨"input".toList, HasArgs.required_argument, 105⟩,
           ⟨"bool".toList, HasArgs.no_argument, 98⟩]⟩,
        ((), []), error_code.init⟩
      "-b".toList (by rfl) (by rfl) (Or.inl rfl)).1
      'i' ⟨"input".toList, HasArgs.required_argument, 105⟩
      (by decide) (by decide) (by rfl) (by rfl)).2.2 rfl,
   ((C17_required_takes_next (fun (s : Unit) _ _ _ => (true, s)) ["prog".toList] [] false
      [⟨"depth".toList, HasArgs.required_argument, -7⟩]
      () error_code.init
      ⟨true, ⟨["prog".toList], 1, false, [],
          [⟨"depth".toList, HasArgs.required_argument, -7⟩]⟩,
        ((), []), error_code.init⟩
      [] (by rfl) (by rfl) (Or.inl rfl)).2
      "depth".toList ⟨"depth".toList, HasArgs.required_argument, -7⟩
      (by decide) (by rfl) (by rfl) (by decide)).2.2 rfl⟩

/-! ## An empty inline value -/

/-- C20 as stated fails, in two ways.  With `dash` declared Required with id 45,
the character code of `-`, the token `-c=` is `--=`; it is read as a long option
and `Execute` fails with `unexpected argument '--='`; the callback is not invoked
with an empty value (the log stays empty).  And with `x` of arity None registered
with id 105 before the Required `input` with the same id, the token `-i=` is
parsed by the first of the two: `Execute` fails with `option '-i' unexpected
parameter: ` and the callback is not invoked. -/
theorem C20_counterexample_no_empty_value :
    ((45 : Int) = ('-'.toNat : Int) ∧
      Execute (Parser.make ["prog".toList, ['-', '-', '=']] false
          [⟨"dash".toList, HasArgs.required_argument, 45⟩])
        (traced (fun (s : Unit) _ _ _ => (true, s))) ((), []) error_code.init
        = some ⟨false, ⟨["prog".toList, ['-', '-', '=']], 1, false, [],
              [⟨"dash".toList, HasArgs.required_argument, 45⟩]⟩, ((), []),
            ⟨"unexpected argument '--='".toList, 1⟩⟩) ∧
    Execute (Parser.make ["prog".toList, "-i=".toList] false
        [⟨"x".toList, HasArgs.no_argument, 105⟩,
         ⟨"input".toList, HasArgs.required_argument, 105⟩])
      (traced (fun (s : Unit) _ _ _ => (true, s))) ((), []) error_code.init
      = some ⟨false, ⟨["prog".toList, "-i=".toList], 1, false, [],
            [⟨"x".toList, HasArgs.no_argument, 105⟩,
             ⟨"input".toList, HasArgs.required_argument, 105⟩]⟩, ((), []),
          ⟨"option '-i' unexpected parameter: ".toList, 1⟩⟩ :=
  ⟨⟨by decide, by rfl⟩, by rfl⟩

/-- C20, amended: an empty inline value is treated differently by the two
forms.  Four parts, each on its own hypotheses; "reached" means standing after
tokens `pre` that parse successfully as an array of their own (with subcommand
mode on, without a positional token among them).  For every character `c` other
than `-` and `=` such that the first descriptor registered with the character
code of `c` as id is declared Required, the short token `-c=`, when reached,
invokes the callback with a present, empty value, and when the callback returns
true the parse is the main loop resumed at the very next token (index
`pre.length + 1`), which is therefore not consumed.  For every such `c` whose
first descriptor has arity None, the token `-c=`, when reached, makes `Execute`
fail with kind 1 and `option '-c' unexpected parameter: `, the callback not being
invoked.  For every name without `=`, registered or not, the option parser fails
on the long token `--name=` with kind 1 and `unexpected argument '--name='` in
every parser state, the callback never being reached; and so does `Execute` at
such a token when reached, whatever the registry holds. -/
theorem C20_empty_inline_value {σ : Type} (v : invoke_t σ) :
    (∀ (pre post : List (List Char)) (se : Bool) (opts : List option) (s : σ)
        (ec : error_code) (r0 : Outcome (σ × List Call)) (c : Char) (o : option),
      Execute (Parser.make pre se opts) (traced v) (s, []) ec = some r0 →
      r0.ret = true → (se = false ∨ r0.parser.uargs = []) →
      c ≠ '-' → c ≠ '=' →
      opts.find? (fun x => decide (x.val = (c.toNat : Int))) = some o →
      o.has_args = HasArgs.required_argument →
      (∃ r later,
        Execute (Parser.make (pre ++ ['-', c, '='] :: post) se opts) (traced v) (s, []) ec
          = some r ∧
        r.cb.2 = r0.cb.2 ++
          (⟨(c.toNat : Int), some [], [c, '='],
            (v r0.cb.1 (c.toNat : Int) (some []) [c, '=']).1⟩ : Call) :: later) ∧
      ((v r0.cb.1 (c.toNat : Int) (some []) [c, '=']).1 = true →
        Execute (Parser.make (pre ++ ['-', c, '='] :: post) se opts) (traced v) (s, []) ec
          = Execute.loop (traced v) (pre ++ ['-', c, '='] :: post).length
              ⟨pre ++ ['-', c, '='] :: post, pre.length + 1, se, r0.parser.uargs, opts⟩
              ((v r0.cb.1 (c.toNat : Int) (some []) [c, '=']).2,
                r0.cb.2 ++ [(⟨(c.toNat : Int), some [], [c, '='], true⟩ : Call)]) ec)) ∧
    (∀ (pre post : List (List Char)) (se : Bool) (opts : List option) (s : σ)
        (ec : error_code) (r0 : Outcome (σ × List Call)) (c : Char) (o : option),
      Execute (Parser.make pre se opts) (traced v) (s, []) ec = some r0 →
      r0.ret = true → (se = false ∨ r0.parser.uargs = []) →
      c ≠ '-' → c ≠ '=' →
      opts.find? (fun x => decide (x.val = (c.toNat : Int))) = some o →
      o.has_args = HasArgs.no_argument →
      Execute (Parser.make (pre ++ ['-', c, '='] :: post) se opts) (traced v) (s, []) ec
        = some ⟨false, ⟨pre ++ ['-', c, '='] :: post, pre.length, se, r0.parser.uargs, opts⟩,
            r0.cb, ⟨"option '-".toList ++ [c] ++ "' unexpected parameter: ".toList, 1⟩⟩) ∧
    (∀ (name : List Char) (p : Parser) (s2 : σ × List Call) (ec2 : error_code), '=' ∉ name →
      parse_internal p ('-' :: '-' :: (name ++ ['='])) (traced v) s2 ec2
        = ⟨false, p, s2,
            ⟨"unexpected argument '--".toList ++ (name ++ ['=']) ++ "'".toList, 1⟩⟩) ∧
    (∀ (pre post : List (List Char)) (se : Bool) (opts : List option) (s : σ)
        (ec : error_code) (r0 : Outcome (σ × List Call)) (name : List Char),
      Execute (Parser.make pre se opts) (traced v) (s, []) ec = some r0 →
      r0.ret = true → (se = false ∨ r0.parser.uargs = []) →
      '=' ∉ name →
      Execute (Parser.make (pre ++ ('-' :: '-' :: (name ++ ['='])) :: post) se opts)
          (traced v) (s, []) ec
        = some ⟨false,
            ⟨pre ++ ('-' :: '-' :: (name ++ ['='])) :: post, pre.length, se, r0.parser.uargs,
              opts⟩,
            r0.cb,
            ⟨"unexpected argument '--".toList ++ (name ++ ['=']) ++ "'".toList, 1⟩⟩) := by
  refine ⟨?_, ?_, ?_, ?_⟩
  · intro pre post se opts s ec r0 c o hpre hret hu h11 h12 hf1 hr1
    have hp : parse_internal
        ⟨pre ++ ['-', c, '='] :: post, pre.length, se, r0.parser.uargs, opts⟩
        ['-', c, '='] (traced v) r0.cb r0.ec
        = invoke ⟨pre ++ ['-', c, '='] :: post, pre.length, se, r0.parser.uargs, opts⟩
            (traced v) r0.cb r0.ec (c.toNat : Int) (some []) [c, '='] := by
      rw [parse_internal_short_token _ _ _ _ _ _ h11,
        parse_short_found _ c ['='] _ _ _ o hf1 h12, shortValue_eq, hr1,
        if_neg (by simp), takeValue_inline]
    refine ⟨?_, fun hres =>
      Execute_resume v pre post [c, '='] se opts s ec r0 hpre hret hu _ _ _ _ hp hres⟩
    obtain ⟨r, later, h1, h2, _, _⟩ :=
      Execute_call_at v pre post [c, '='] se opts s ec r0 hpre hret hu _ _ _ _ hp
    exact ⟨r, later, h1, h2⟩
  · intro pre post se opts s ec r0 c o hpre hret hu h21 h22 hf2 hr2
    apply Execute_fail_at (traced v) pre post [c, '='] se opts (s, []) ec r0 _ hpre hret hu
    rw [parse_internal_short_token _ _ _ _ _ _ h21,
      parse_short_found _ c ['='] _ _ _ o hf2 h22, shortValue_eq, hr2,
      if_pos (by simp)]
    simp
  · intro name p s2 ec2 hname
    exact parse_long_trailing_eq p name (traced v) s2 ec2 hname
  · intro pre post se opts s ec r0 name hpre hret hu hname
    exact Execute_fail_at (traced v) pre post ('-' :: (name ++ ['='])) se opts (s, []) ec r0 _
      hpre hret hu (parse_long_trailing_eq _ name (traced v) _ _ hname)

/-- C20, amended, at registries that each hold what one part needs.  With
`input` (Required, id 105) alone, `prog -i= x` gives a call with a present, empty
value and the parse resumes at `x`; with `bool` (no argument, id 98) alone, `prog
-b= x` fails with `option '-b' unexpected parameter: `; `--input=` fails in every
parser state; and with an empty registry `prog --input= x` fails with `unexpected
argument '--input='`. -/
theorem C20_empty_inline_value_witness :
    ((∃ r later,
        Execute (Parser.make (["prog".toList] ++ ['-', 'i', '='] :: ["x".toList]) false
          [⟨"input".toList, HasArgs.required_argument, 105⟩])
        (traced (fun (s : Unit) _ _ _ => (true, s))) ((), []) error_code.init = some r ∧
        r.cb.2 = [] ++ (⟨105, some [], ['i', '='], true⟩ : Call) :: later) ∧
      (true = true →
        Execute (Parser.make (["prog".toList] ++ ['-', 'i', '='] :: ["x".toList]) false
          [⟨"input".toList, HasArgs.required_argument, 105⟩])
        (traced (fun (s : Unit) _ _ _ => (true, s))) ((), []) error_code.init
          = Execute.loop (traced (fun (s : Unit) _ _ _ => (true, s)))
              (["prog".toList] ++ ['-', 'i', '='] :: ["x".toList]).length
              ⟨["prog".toList] ++ ['-', 'i', '='] :: ["x".toList], 1 + 1, false, [],
                [⟨"input".toList, HasArgs.required_argument, 105⟩]⟩
              ((), [] ++ [(⟨105, some [], ['i', '='], true⟩ : Call)]) error_code.init)) ∧
    Execute (Parser.make (["prog".toList] ++ ['-', 'b', '='] :: ["x".toList]) false
          [⟨"bool".toList, HasArgs.no_argument, 98⟩])
        (traced (fun (s : Unit) _ _ _ => (true, s))) ((), []) error_code.init
      = some ⟨false, ⟨["prog".toList] ++ ['-', 'b', '='] :: ["x".toList], 1, false, [],
          [⟨"bool".toList, HasArgs.no_argument, 98⟩]⟩,
          ((), []), ⟨"option '-".toList ++ ['b'] ++ "' unexpected parameter: ".toList, 1⟩⟩ ∧
    (∀ (p : Parser) (s2 : Unit × List Call) (ec2 : error_code),
      parse_internal p ('-' :: '-' :: ("input".toList ++ ['=']))
          (traced (fun (s : Unit) _ _ _ => (true, s))) s2 ec2
        = ⟨false, p, s2,
            ⟨"unexpected argument '--".toList ++ ("input".toList ++ ['=']) ++ "'".toList,
              1⟩⟩) ∧
    Execute (Parser.make (["prog".toList] ++
            ('-' :: '-' :: ("input".toList ++ ['='])) :: ["x".toList]) false [])
        (traced (fun (s : Unit) _ _ _ => (true, s))) ((), []) error_code.init
      = some ⟨false,
          ⟨["prog".toList] ++ ('-' :: '-' :: ("input".toList ++ ['='])) :: ["x".toList], 1,
            false, [], []⟩,
          ((), []),
          ⟨"unexpected argument '--".toList ++ ("input".toList ++ ['=']) ++ "'".toList, 1⟩⟩ :=
  ⟨(C20_empty_inline_value (fun (s : Unit) _ _ _ => (true, s))).1
      ["prog".toList] ["x".toList] false [⟨"input".toList, HasArgs.required_argument, 105⟩]
      () error_code.init
      ⟨true, ⟨["prog".toList], 1, false, [],
          [⟨"input".toList, HasArgs.required_argument, 105⟩]⟩, ((), []), error_code.init⟩
      'i' ⟨"input".toList, HasArgs.required_argument, 105⟩
      (by rfl) (by rfl) (Or.inl rfl) (by decide) (by decide) (by rfl) (by rfl),
   (C20_empty_inline_value (fun (s : Unit) _ _ _ => (true, s))).2.1
      ["prog".toList] ["x".toList] false [⟨"bool".toList, HasArgs.no_argument, 98⟩]
      () error_code.init
      ⟨true, ⟨["prog".toList], 1, false, [],
          [⟨"bool".toList, HasArgs.no_argument, 98⟩]⟩, ((), []), error_code.init⟩
      'b' ⟨"bool".toList, HasArgs.no_argument, 98⟩
      (by rfl) (by rfl) (Or.inl rfl) (by decide) (by decide) (by rfl) (by rfl),
   fun p s2 ec2 => (C20_empty_inline_value (fun (s : Unit) _ _ _ => (true, s))).2.2.1
      "input".toList p s2 ec2 (by decide),
   (C20_empty_inline_value (fun (s : Unit) _ _ _ => (true, s))).2.2.2
      ["prog".toList] ["x".toList] false [] () error_code.init
      ⟨true, ⟨["prog".toList], 1, false, [], []⟩, ((), []), error_code.init⟩
      "input".toList (by rfl) (by rfl) (Or.inl rfl) (by decide)⟩

/-! ## The third argument of the callback -/

/-- The long-option parser either fails with kind 1 or goes on to `takeValue`
with the text after `--` as third callback argument. -/
theorem parse_internal_long_shape (opts : List option) (a0 : List Char) :
    (∃ msg : List Char, ∀ (σ : Type) (p : Parser) (v : invoke_t σ) (s : σ) (ec : error_code),
        p.options_ = opts → parse_internal_long p a0 v s ec = ⟨false, p, s, ⟨msg, 1⟩⟩) ∨
    (∃ (b : List Char) (ch : Int) (ha : HasArgs) (oa : Option (List Char)),
      ∀ (σ : Type) (p : Parser) (v : invoke_t σ) (s : σ) (ec : error_code),
        p.options_ = opts →
        parse_internal_long p a0 v s ec = takeValue p v s ec "--".toList b ch ha oa a0) := by
  by_cases h3 : a0.indexOf '=' < a0.length ∧ a0.indexOf '=' + 1 ≥ a0.length
  · left
    refine ⟨CatPieces ["unexpected argument '--".toList, a0, "'".toList],
      fun σ p v s ec _ => ?_⟩
    simp only [parse_internal_long, if_pos h3]; rfl
  by_cases h4 : (findLong opts (longName a0)).1 = -1
  · left
    refine ⟨CatPieces ["unregistered option '--".toList, longName a0, "'".toList],
      fun σ p v s ec ho => ?_⟩
    simp only [parse_internal_long, if_neg h3, ho, if_pos h4]; rfl
  by_cases h5 : longValue a0 ≠ none ∧ (findLong opts (longName a0)).2 = HasArgs.no_argument
  · left
    refine ⟨CatPieces ["option '--".toList, longName a0,
        "' unexpected parameter: ".toList, (longValue a0).getD []],
      fun σ p v s ec ho => ?_⟩
    simp only [parse_internal_long, if_neg h3, ho, if_neg h4, if_pos h5]; rfl
  · right
    refine ⟨longName a0, (findLong opts (longName a0)).1, (findLong opts (longName a0)).2,
      longValue a0, fun σ p v s ec ho => ?_⟩
    simp only [parse_internal_long, if_neg h3, ho, if_neg h4, if_neg h5]

/-- The short-option parser either fails with kind 1 or goes on to `takeValue`
with the text after `-` as third callback argument. -/
theorem parse_internal_short_shape (opts : List option) (a : List Char) :
    (∃ msg : List Char, ∀ (σ : Type) (p : Parser) (v : invoke_t σ) (s : σ) (ec : error_code),
        p.options_ = opts → parse_internal_short p a v s ec = ⟨false, p, s, ⟨msg, 1⟩⟩) ∨
    (∃ (b : List Char) (ch : Int) (ha : HasArgs) (oa : Option (List Char)),
      ∀ (σ : Type) (p : Parser) (v : invoke_t σ) (s : σ) (ec : error_code),
        p.options_ = opts →
        parse_internal_short p a v s ec = takeValue p v s ec "-".toList b ch ha oa a) := by
  by_cases h3 : at_ a 0 = '='
  · left
    refine ⟨CatPieces ["unexpected argument '-".toList, a, "'".toList],
      fun σ p v s ec _ => ?_⟩
    simp only [parse_internal_short, if_pos h3]; rfl
  by_cases h4 : (findShort opts (at_ a 0)).1 = -1
  · left
    refine ⟨CatPieces ["unregistered option '-".toList, a, "'".toList],
      fun σ p v s ec ho => ?_⟩
    simp only [parse_internal_short, if_neg h3, ho, if_pos h4]; rfl
  by_cases h5 : shortValue a ≠ none ∧ (findShort opts (at_ a 0)).2 = HasArgs.no_argument
  · left
    refine ⟨CatPieces ["option '-".toList, a.take 1,
        "' unexpected parameter: ".toList, (shortValue a).getD []],
      fun σ p v s ec ho => ?_⟩
    simp only [parse_internal_short, if_neg h3, ho, if_neg h4, if_pos h5]; rfl
  · right
    refine ⟨a, (findShort opts (at_ a 0)).1, (findShort opts (at_ a 0)).2, shortValue a,
      fun σ p v s ec ho => ?_⟩
    simp only [parse_internal_short, if_neg h3, ho, if_neg h4, if_neg h5]

/-- Every call `takeValue` logs has the given text as third argument. -/
theorem takeValue_traced_raw {σ : Type} (p : Parser) (v : invoke_t σ) (s : σ × List Call)
    (ec : error_code) (dash a : List Char) (ch : Int) (ha : HasArgs)
    (oa : Option (List Char)) (raw : List Char) :
    (takeValue p (traced v) s ec dash a ch ha oa raw).cb = s ∨
    ∃ c : Call, (takeValue p (traced v) s ec dash a ch ha oa raw).cb.2 = s.2 ++ [c] ∧
      c.raw = raw := by
  unfold takeValue
  split_ifs
  · left; rfl
  · right; exact ⟨_, (invoke_traced ..).1, rfl⟩
  · right; exact ⟨_, (invoke_traced ..).1, rfl⟩

/-- What the option parser logs for a token that begins with the marker: nothing,
or one call whose third argument is the token without its marker: the text after
`--` for a long token, the text after `-` for a short one. -/
theorem parse_internal_traced_raw {σ : Type} (p : Parser) (t : List Char)
    (v : invoke_t σ) (s : σ × List Call) (ec : error_code) :
    (parse_internal p ('-' :: t) (traced v) s ec).cb = s ∨
    ∃ c : Call, (parse_internal p ('-' :: t) (traced v) s ec).cb.2 = s.2 ++ [c] ∧
      ('-' :: t = '-' :: '-' :: c.raw ∨ ('-' :: t = '-' :: c.raw ∧ c.raw.head? ≠ some '-')) := by
  cases t with
  | nil =>
    left
    simp [parse_internal]
  | cons x rest =>
    by_cases hx : x = '-'
    · subst hx
      rw [parse_internal_long_token]
      rcases parse_internal_long_shape p.options_ rest with ⟨msg, h⟩ | ⟨b, ch, ha, oa, h⟩
      · left; rw [h _ p (traced v) s ec rfl]
      · rw [h _ p (traced v) s ec rfl]
        rcases takeValue_traced_raw p v s ec "--".toList b ch ha oa rest with h1 | ⟨c, h1, h2⟩
        · left; exact h1
        · right; exact ⟨c, h1, Or.inl (by rw [h2])⟩
    · rw [parse_internal_short_token _ _ _ _ _ _ hx]
      rcases parse_internal_short_shape p.options_ (x :: rest) with
        ⟨msg, h⟩ | ⟨b, ch, ha, oa, h⟩
      · left; rw [h _ p (traced v) s ec rfl]
      · rw [h _ p (traced v) s ec rfl]
        rcases takeValue_traced_raw p v s ec "-".toList b ch ha oa (x :: rest) with
          h1 | ⟨c, h1, h2⟩
        · left; exact h1
        · right
          refine ⟨c, h1, Or.inr ⟨by rw [h2], ?_⟩⟩
          rw [h2]
          simpa using hx

/-- Along the main loop every call that is logged has as third argument a token
of the array, at or after the cursor, without its marker. -/
theorem loop_raw {σ : Type} (v : invoke_t σ) :
    ∀ (fuel : Nat) (p : Parser) (s : σ × List Call) (ec : error_code)
      (r : Outcome (σ × List Call)),
      Execute.loop (traced v) fuel p s ec = some r →
      ∀ c ∈ r.cb.2, c ∈ s.2 ∨
        ∃ i, p.index ≤ i ∧ i < p.argv_.length ∧
          (p.argv_.getD i [] = '-' :: '-' :: c.raw ∨
            (p.argv_.getD i [] = '-' :: c.raw ∧ c.raw.head? ≠ some '-')) := by
  apply loop_induct (traced v)
    (fun p s _ r => ∀ c ∈ r.cb.2, c ∈ s.2 ∨
        ∃ i, p.index ≤ i ∧ i < p.argv_.length ∧
          (p.argv_.getD i [] = '-' :: '-' :: c.raw ∨
            (p.argv_.getD i [] = '-' :: c.raw ∧ c.raw.head? ≠ some '-')))
  · intro p s ec _ c hc; exact Or.inl hc
  · intro p s ec _ _ _ c hc; exact Or.inl hc
  · intro p s ec r _ _ _ ih c hc
    rcases ih c hc with h | ⟨i, h1, h2, h3⟩
    · exact Or.inl h
    · exact Or.inr ⟨i, by simp only at h1; omega, h2, h3⟩
  · intro p s ec hi ha _ c hc
    have hform : ∃ t, p.argv_.getD p.index [] = '-' :: t := by
      cases h : p.argv_.getD p.index [] with
      | nil => rw [h] at ha; simp at ha
      | cons x xs =>
        rw [h] at ha
        simp only [List.head?_cons, ne_eq, Option.some.injEq, not_or, not_not] at ha
        exact ⟨xs, by rw [ha.2]⟩
    obtain ⟨t, ht⟩ := hform
    rw [ht] at hc
    rcases parse_internal_traced_raw p t v s ec with h | ⟨c2, h1, h2⟩
    · rw [h] at hc; exact Or.inl hc
    · rw [h1] at hc
      rcases List.mem_append.1 hc with hc | hc
      · exact Or.inl hc
      · rw [List.mem_singleton.1 hc]
        exact Or.inr ⟨p.index, Nat.le_refl _, hi, by rw [ht]; exact h2⟩
  · intro p s ec r hi ha _ ih c hc
    have hst := (parse_internal_stepped p (p.argv_.getD p.index []) (traced v) s ec).parser_eq
    have hform : ∃ t, p.argv_.getD p.index [] = '-' :: t := by
      cases h : p.argv_.getD p.index [] with
      | nil => rw [h] at ha; simp at ha
      | cons x xs =>
        rw [h] at ha
        simp only [List.head?_cons, ne_eq, Option.some.injEq, not_or, not_not] at ha
        exact ⟨xs, by rw [ha.2]⟩
    obtain ⟨t, ht⟩ := hform
    have hargv : (parse_internal p (p.argv_.getD p.index []) (traced v) s ec).parser.argv_
        = p.argv_ ∧
        p.index ≤ (parse_internal p (p.argv_.getD p.index []) (traced v) s ec).parser.index := by
      rcases hst with h | ⟨_, h⟩
      · rw [h]; exact ⟨rfl, Nat.le_refl _⟩
      · rw [h]; exact ⟨rfl, Nat.le_succ _⟩
    rcases ih c hc with h | ⟨i, h1, h2, h3⟩
    · rw [ht] at h
      rcases parse_internal_traced_raw p t v s ec with h4 | ⟨c2, h4, h5⟩
      · rw [h4] at h; exact Or.inl h
      · rw [h4] at h
        rcases List.mem_append.1 h with h | h
        · exact Or.inl h
        · rw [List.mem_singleton.1 h]
          exact Or.inr ⟨p.index, Nat.le_refl _, hi, by rw [ht]; exact h5⟩
    · simp only [hargv.1] at h1 h2 h3
      exact Or.inr ⟨i, by omega, h2, h3⟩

/-- C18 as stated fails: for the token `--flag` the third argument of the
callback is `flag`, and for `-i=11` it is `i=11`: the token without its leading
marker, not the token as it stands in the array. -/
theorem C18_counterexample_marker_dropped :
    Execute (Parser.make ["prog".toList, "--flag".toList, "-i=11".toList] false
        [⟨"flag".toList, HasArgs.no_argument, 102⟩,
         ⟨"input".toList, HasArgs.required_argument, 105⟩])
      (traced (fun (s : Unit) _ _ _ => (true, s))) ((), []) error_code.init
      = some ⟨true, ⟨["prog".toList, "--flag".toList, "-i=11".toList], 3, false, [],
            [⟨"flag".toList, HasArgs.no_argument, 102⟩,
             ⟨"input".toList, HasArgs.required_argument, 105⟩]⟩,
          ((), [⟨102, none, "flag".toList, true⟩,
                ⟨105, some "11".toList, "i=11".toList, true⟩]),
          error_code.init⟩ ∧
    "flag".toList ≠ "--flag".toList ∧ "i=11".toList ≠ "-i=11".toList :=
  ⟨by rfl, by decide, by decide⟩

/-- C18, amended: the third argument passed to the callback is the option token
without its leading marker.  For every token that begins with `-`, in every
parser state, a call the option parser makes has as third argument the text
after `--` (long token, any `=value` part included) or the text after `-` (short
token, any inline value included); and in every run of `Execute` every logged
call has as third argument some token of the array, at an index from 1 on,
without its marker. -/
theorem C18_third_argument_without_marker {σ : Type} (v : invoke_t σ) (p : Parser)
    (s : σ) (ec : error_code) :
    (∀ (q : Parser) (t : List Char) (s2 : σ × List Call) (ec2 : error_code),
      (parse_internal q ('-' :: t) (traced v) s2 ec2).cb = s2 ∨
      ∃ c : Call, (parse_internal q ('-' :: t) (traced v) s2 ec2).cb.2 = s2.2 ++ [c] ∧
        ('-' :: t = '-' :: '-' :: c.raw ∨
          ('-' :: t = '-' :: c.raw ∧ c.raw.head? ≠ some '-'))) ∧
    ∃ r, Execute p (traced v) (s, []) ec = some r ∧
      ∀ c ∈ r.cb.2, ∃ i, 1 ≤ i ∧ i < p.argv_.length ∧
        (p.argv_.getD i [] = '-' :: '-' :: c.raw ∨
          (p.argv_.getD i [] = '-' :: c.raw ∧ c.raw.head? ≠ some '-')) := by
  refine ⟨fun q t s2 ec2 => parse_internal_traced_raw q t v s2 ec2, ?_⟩
  obtain ⟨r, hr⟩ := Execute_total (traced v) p (s, []) ec
  refine ⟨r, hr, ?_⟩
  by_cases hlen : p.argv_.length = 0
  · rw [Execute, if_pos hlen] at hr
    cases hr
    intro c hc
    simp at hc
  · rw [Execute, if_neg hlen] at hr
    intro c hc
    rcases loop_raw v _ _ _ _ _ hr c hc with h | ⟨i, h1, h2, h3⟩
    · simp at h
    · exact ⟨i, h1, h2, h3⟩

/-! ## The specification's reading of a token, in the parser's terms -/

theorem longValue_empty_iff (a0 : List Char) :
    longValue a0 = some [] ↔ (a0.indexOf '=' < a0.length ∧ a0.indexOf '=' + 1 ≥ a0.length) := by
  constructor
  · intro h
    by_cases h1 : a0.indexOf '=' < a0.length
    · simp only [longValue, if_pos h1, Option.some.injEq, List.drop_eq_nil_iff] at h
      exact ⟨h1, h⟩
    · simp [longValue, if_neg h1] at h
  · rintro ⟨h1, h2⟩
    simp only [longValue, if_pos h1, Option.some.injEq, List.drop_eq_nil_iff]
    exact h2

/-- The specification's resolution of a long token, by the parser's name and
inline value. -/
theorem resolve_long (opts : List option) (rest : List Char) :
    Spec.resolve opts ('-' :: '-' :: rest)
      = if longValue rest = some [] then none
        else (opts.find? (fun o => decide (o.name = longName rest))).map
          (fun o => (o, longValue rest)) := by
  simp only [Spec.resolve, List.drop_succ_cons, List.drop_zero, if_true]
  by_cases hmem : '=' ∈ rest
  · obtain ⟨val, h1, h2, h3⟩ := split_at_eq rest hmem
    obtain ⟨_, l2, l3⟩ := long_eq _ val h2
    rw [← h3] at l2 l3
    simp only [if_pos hmem, h1, List.drop_succ_cons, List.drop_zero, l2, l3,
      Option.some.injEq]
  · obtain ⟨_, l2, l3⟩ := long_no_eq rest hmem
    simp only [if_neg hmem, l2, l3]
    simp

/-- The specification's resolution of a short token, by the parser's inline
value. -/
theorem resolve_short (opts : List option) (c : Char) (rest : List Char) (hc : c ≠ '-') :
    Spec.resolve opts ('-' :: c :: rest)
      = if c = '=' then none
        else (opts.find? (fun o => decide (o.val = (c.toNat : Int)))).map
          (fun o => (o, shortValue (c :: rest))) := by
  have hsv : shortValue (c :: rest)
      = (match rest with
          | [] => none
          | x :: xs => if x = '=' then some xs else some (x :: xs)) := by
    cases rest with
    | nil => exact shortValue_one c
    | cons x xs =>
      by_cases hx : x = '='
      · subst hx; simp [shortValue_eq]
      · simp only [if_neg hx]
        exact shortValue_fused c (x :: xs) (by simp) (by simpa using hx)
  simp only [Spec.resolve, List.drop_succ_cons, List.drop_zero, if_neg hc, hsv]

theorem find?_none_forall {α : Type} (l : List α) (q : α → Prop) [DecidablePred q]
    (h : l.find? (fun x => decide (q x)) = none) : ∀ x ∈ l, ¬ q x := by
  intro x hx
  have := List.find?_eq_none.1 h x hx
  simpa using this

theorem parse_short_unregistered {σ : Type} (p : Parser) (c : Char) (rest : List Char)
    (v : invoke_t σ) (s : σ) (ec : error_code)
    (h : ∀ o ∈ p.options_, o.val ≠ (c.toNat : Int)) :
    (parse_internal_short p (c :: rest) v s ec).ret = false := by
  have h0 : at_ (c :: rest) 0 = c := rfl
  simp only [parse_internal_short, h0, findShort_none _ _ h]
  split_ifs <;> rfl

/-- A successful option parse moves the cursor exactly when the specification
says the token takes the next one as its value. -/
theorem parse_internal_ok_index {σ : Type} (p : Parser) (t : List Char)
    (v : invoke_t σ) (s : σ) (ec : error_code)
    (hok : (parse_internal p ('-' :: t) v s ec).ret = true) :
    (parse_internal p ('-' :: t) v s ec).parser
      = { p with index := p.index + (if Spec.takesNext p.options_ ('-' :: t) then 1 else 0) } ∧
    (Spec.takesNext p.options_ ('-' :: t) = true → p.index + 1 < p.argv_.length) := by
  have hnp : Spec.isPositional ('-' :: t) = false := by simp [Spec.isPositional]
  -- what `takeValue` does to the cursor
  have htv : ∀ (dash b : List Char) (o : option) (oa : Option (List Char)) (raw : List Char),
      Spec.resolve p.options_ ('-' :: t) = some (o, oa) →
      (takeValue p v s ec dash b o.val o.has_args oa raw).ret = true →
      (takeValue p v s ec dash b o.val o.has_args oa raw).parser
        = { p with index := p.index + (if Spec.takesNext p.options_ ('-' :: t) then 1 else 0) } ∧
      (Spec.takesNext p.options_ ('-' :: t) = true → p.index + 1 < p.argv_.length) := by
    intro dash b o oa raw hres hret
    by_cases hcase : oa = none ∧ o.has_args = HasArgs.required_argument
    · have htn : Spec.takesNext p.options_ ('-' :: t) = true := by
        simp [Spec.takesNext, hnp, hres, hcase.1, hcase.2]
      simp only [takeValue, if_pos hcase] at hret ⊢
      by_cases hlen : p.index + 1 ≥ p.argv_.length
      · rw [if_pos hlen] at hret; cases hret
      · rw [if_neg hlen, invoke_parser_eq, htn]
        exact ⟨rfl, fun _ => by omega⟩
    · have htn : Spec.takesNext p.options_ ('-' :: t) = false := by
        cases oa with
        | none =>
          have : o.has_args ≠ HasArgs.required_argument := fun h => hcase ⟨rfl, h⟩
          simp [Spec.takesNext, hnp, hres, this]
        | some val => simp [Spec.takesNext, hnp, hres]
      simp only [takeValue, if_neg hcase, invoke_parser_eq, htn]
      exact ⟨rfl, fun h => by cases h⟩
  cases t with
  | nil => simp [parse_internal] at hok
  | cons c rest =>
    by_cases hc : c = '-'
    · -- long token
      subst hc
      rw [parse_internal_long_token] at hok ⊢
      by_cases hv : longValue rest = some []
      · have h1 := (longValue_empty_iff rest).1 hv
        simp [parse_internal_long, h1] at hok
      · have h1 : ¬ (rest.indexOf '=' < rest.length ∧ rest.indexOf '=' + 1 ≥ rest.length) :=
          fun h => hv ((longValue_empty_iff rest).2 h)
        cases hf : p.options_.find? (fun o => decide (o.name = longName rest)) with
        | none =>
          rw [parse_long_unregistered p rest v s ec h1 (find?_none_forall _ _ hf)] at hok
          cases hok
        | some o =>
          have hres : Spec.resolve p.options_ ('-' :: '-' :: rest) = some (o, longValue rest) := by
            rw [resolve_long, if_neg hv, hf]; rfl
          by_cases hid : o.val = -1
          · have hfl := findLong_some _ _ _ hf
            simp [parse_internal_long, h1, hfl, hid] at hok
          · rw [parse_long_found p rest v s ec o hf hid h1] at hok ⊢
            by_cases hbad : longValue rest ≠ none ∧ o.has_args = HasArgs.no_argument
            · rw [if_pos hbad] at hok; cases hok
            · rw [if_neg hbad] at hok ⊢
              exact htv _ _ o _ _ hres hok
    · -- short token
      rw [parse_internal_short_token _ _ _ _ _ _ hc] at hok ⊢
      by_cases hc2 : c = '='
      · subst hc2
        simp [parse_internal_short, at_] at hok
      · cases hf : p.options_.find? (fun o => decide (o.val = (c.toNat : Int))) with
        | none =>
          rw [parse_short_unregistered p c rest v s ec (find?_none_forall _ _ hf)] at hok
          cases hok
        | some o =>
          have hres : Spec.resolve p.options_ ('-' :: c :: rest)
              = some (o, shortValue (c :: rest)) := by
            rw [resolve_short _ _ _ hc, if_neg hc2, hf]; rfl
          obtain ⟨_, hval⟩ := findShort_some _ _ _ hf
          rw [parse_short_found p c rest v s ec o hf hc2] at hok ⊢
          by_cases hbad : shortValue (c :: rest) ≠ none ∧ o.has_args = HasArgs.no_argument
          · rw [if_pos hbad] at hok; cases hok
          · rw [if_neg hbad] at hok ⊢
            rw [← hval] at hok ⊢
            exact htv _ _ o _ _ hres hok


theorem drop_getD (l : List (List Char)) (i : Nat) (h : i < l.length) :
    l.drop i = l.getD i [] :: l.drop (i + 1) := by
  rw [List.getD_eq_getElem l [] h]
  exact List.drop_eq_getElem_cons h

theorem token_form (a : List Char) (ha : ¬ (a = [] ∨ a.head? ≠ some '-')) :
    ∃ t, a = '-' :: t := by
  cases a with
  | nil => simp at ha
  | cons x xs =>
    simp only [List.head?_cons, ne_eq, Option.some.injEq, not_or, not_not] at ha
    exact ⟨xs, by rw [ha.2]⟩

theorem isPositional_true (a : List Char) (ha : a = [] ∨ a.head? ≠ some '-') :
    Spec.isPositional a = true := by
  simp only [Spec.isPositional, decide_eq_true_eq]
  exact ha

theorem withoutMarker_of_form (t raw : List Char)
    (h : '-' :: t = '-' :: '-' :: raw ∨ ('-' :: t = '-' :: raw ∧ raw.head? ≠ some '-')) :
    Spec.withoutMarker ('-' :: t) = raw := by
  rcases h with h | ⟨h, hne⟩
  · rw [h]; simp [Spec.withoutMarker]
  · rw [h]
    simp only [Spec.withoutMarker, List.drop_succ_cons, List.drop_zero, if_neg hne]

/-- A successful option parse logs exactly one call, whose third argument is the
token without its marker. -/
theorem parse_internal_ok_log {σ : Type} (p : Parser) (t : List Char)
    (v : invoke_t σ) (s : σ × List Call) (ec : error_code)
    (hok : (parse_internal p ('-' :: t) (traced v) s ec).ret = true) :
    ∃ c : Call, (parse_internal p ('-' :: t) (traced v) s ec).cb.2 = s.2 ++ [c] ∧
      c.raw = Spec.withoutMarker ('-' :: t) := by
  rcases parse_internal_traced_raw p t v s ec with h | ⟨c, h1, h2⟩
  · rcases parse_internal_traced p ('-' :: t) v s ec with ⟨_, h3, _⟩ | ⟨c, h3, _⟩
    · rw [h3] at hok; cases hok
    · rw [h] at h3
      have := congrArg List.length h3
      simp at this
  · exact ⟨c, h1, (withoutMarker_of_form t c.raw h2).symm⟩

/-- With subcommand mode off, a run of the main loop that returns true appends
to the positional list the unconsumed positional tokens from the cursor on, and
logs one call for each unconsumed option token from the cursor on, in order. -/
theorem loop_unconsumed {σ : Type} (v : invoke_t σ) :
    ∀ (fuel : Nat) (p : Parser) (s : σ × List Call) (ec : error_code)
      (r : Outcome (σ × List Call)),
      Execute.loop (traced v) fuel p s ec = some r →
      r.ret = true → p.subcmdenabled = false →
      r.parser.uargs = p.uargs ++
          (Spec.unconsumed p.options_ false (p.argv_.drop p.index)).filter Spec.isPositional ∧
      r.cb.2.map Call.raw = s.2.map Call.raw ++
          ((Spec.unconsumed p.options_ false (p.argv_.drop p.index)).filter
            (fun t => !Spec.isPositional t)).map Spec.withoutMarker := by
  apply loop_induct (traced v)
    (fun p s _ r => r.ret = true → p.subcmdenabled = false →
      r.parser.uargs = p.uargs ++
          (Spec.unconsumed p.options_ false (p.argv_.drop p.index)).filter Spec.isPositional ∧
      r.cb.2.map Call.raw = s.2.map Call.raw ++
          ((Spec.unconsumed p.options_ false (p.argv_.drop p.index)).filter
            (fun t => !Spec.isPositional t)).map Spec.withoutMarker)
  · intro p s ec hi _ _
    have hd : p.argv_.drop p.index = [] := List.drop_eq_nil_iff.2 (by omega)
    simp only [hd, Spec.unconsumed, List.filter_nil, List.append_nil, List.map_nil, and_self]
  · intro p s ec _ _ hs _ hs2
    rw [hs] at hs2; cases hs2
  · intro p s ec r hi ha _ ih hret hs
    obtain ⟨argv, idx, se, ua, os⟩ := p
    simp only at hi ha ih hs ⊢
    obtain ⟨h1, h2⟩ := ih hret hs
    have hpos := isPositional_true _ ha
    have htn : Spec.takesNext os (argv.getD idx []) = false := by
      simp only [Spec.takesNext, hpos, Bool.not_true, Bool.false_and]
    rw [drop_getD _ _ hi]
    simp only [Spec.unconsumed, htn, List.filter_cons, hpos, if_true, Bool.not_true,
      Bool.false_eq_true, if_false]
    exact ⟨by rw [h1, List.append_assoc]; rfl, h2⟩
  · intro p s ec _ _ hf hret
    rw [hf] at hret; cases hret
  · intro p s ec r hi ha hok ih hret hs
    obtain ⟨t, ht⟩ := token_form _ ha
    rw [ht] at hok ih
    obtain ⟨hp, hlt⟩ := parse_internal_ok_index p t (traced v) s ec hok
    obtain ⟨c, hc1, hc2⟩ := parse_internal_ok_log p t v s ec hok
    rw [hp] at ih
    obtain ⟨argv, idx, se, ua, os⟩ := p
    simp only at hi ht hlt ih hs ⊢
    obtain ⟨h1, h2⟩ := ih hret hs
    have hnp : Spec.isPositional ('-' :: t) = false := by simp [Spec.isPositional]
    rw [drop_getD _ _ hi, ht]
    simp only [Spec.unconsumed, List.filter_cons, hnp, Bool.false_eq_true, if_false,
      Bool.not_false, if_true, List.map_cons]
    rw [h1, h2, hc1, List.map_append, List.map_singleton, hc2]
    cases htn : Spec.takesNext os ('-' :: t) with
    | false =>
      simp only [Bool.false_eq_true, if_false, Nat.add_zero, List.append_assoc,
        List.singleton_append, and_self]
    | true =>
      have hlt2 := hlt htn
      rw [drop_getD _ _ hlt2]
      simp only [if_true, Spec.unconsumed, List.append_assoc, List.singleton_append, and_self]

/-- C14: with subcommand mode off, `Execute` returns, and when it returns true
`UnresolvedArgs` is exactly the list, in argument order, of the tokens after the
program name that are empty or do not begin with `-` and were not consumed as
the value of a Required option; every other unconsumed token, those after a
positional token included, was parsed as an option: the callback was called
once for each of them, in argument order. -/
theorem C14_unresolved_args {σ : Type} (v : invoke_t σ) (prog : List Char)
    (toks : List (List Char)) (opts : List option) (s : σ) (ec : error_code) :
    ∃ r, Execute (Parser.make (prog :: toks) false opts) (traced v) (s, []) ec = some r ∧
      (r.ret = true →
        r.parser.UnresolvedArgs
          = (Spec.unconsumed opts false toks).filter Spec.isPositional ∧
        r.cb.2.map Call.raw
          = ((Spec.unconsumed opts false toks).filter
              (fun t => !Spec.isPositional t)).map Spec.withoutMarker) := by
  obtain ⟨r, hr⟩ := Execute_total (traced v) (Parser.make (prog :: toks) false opts) (s, []) ec
  refine ⟨r, hr, fun hret => ?_⟩
  rw [Parser.make_eq] at hr
  have hlen : ¬ (prog :: toks).length = 0 := by simp
  rw [Execute, if_neg hlen] at hr
  have := loop_unconsumed v _ _ _ _ _ hr hret rfl
  simpa [Parser.UnresolvedArgs] using this

/-- C14 on `prog x -i -11 y --bool "" --input=4 w` with `input` Required and
`bool` of arity None: the run returns true; `-11` is taken as the value of `-i`;
the positional list is `x`, `y`, the empty token and `w`; and the three option
tokens are parsed, each of them after a positional token. -/
theorem C14_unresolved_args_witness :
    (∃ r, Execute (Parser.make ("prog".toList :: ["x".toList, "-i".toList, "-11".toList,
            "y".toList, "--bool".toList, "".toList, "--input=4".toList, "w".toList]) false
          [⟨"input".toList, HasArgs.required_argument, 105⟩,
           ⟨"bool".toList, HasArgs.no_argument, 98⟩])
        (traced (fun (s : Unit) _ _ _ => (true, s))) ((), []) error_code.init = some r ∧
      r.ret = true) ∧
    ∃ r, Execute (Parser.make ("prog".toList :: ["x".toList, "-i".toList, "-11".toList,
            "y".toList, "--bool".toList, "".toList, "--input=4".toList, "w".toList]) false
          [⟨"input".toList, HasArgs.required_argument, 105⟩,
           ⟨"bool".toList, HasArgs.no_argument, 98⟩])
        (traced (fun (s : Unit) _ _ _ => (true, s))) ((), []) error_code.init = some r ∧
      (r.ret = true →
        r.parser.UnresolvedArgs = ["x".toList, "y".toList, "".toList, "w".toList] ∧
        r.cb.2.map Call.raw = ["i".toList, "bool".toList, "input=4".toList]) :=
  ⟨⟨_, by rfl, rfl⟩,
   C14_unresolved_args (fun (s : Unit) _ _ _ => (true, s)) "prog".toList
    ["x".toList, "-i".toList, "-11".toList, "y".toList, "--bool".toList, "".toList,
      "--input=4".toList, "w".toList]
    [⟨"input".toList, HasArgs.required_argument, 105⟩,
     ⟨"bool".toList, HasArgs.no_argument, 98⟩] () error_code.init⟩

end av
